import Mathlib

/-!
The package go-haru/field: JSON encoding of structured log fields.

A shallow embedding of `src/json.go` and `src/field.go`.

* A Go `string` / `[]byte` is a `List Nat` of byte values (each below 256).
* A Go `rune` is a `Nat`.
* A `Buffer` (the sink) is an explicit state: the bytes accepted so far and the
  number of write calls it still accepts.
-/

namespace GoField

/-! ## unicode/utf8 -/

/-- Constant `utf8.RuneSelf`: bytes below it are single-byte runes. -/
def RuneSelf : Nat := 0x80

/-- Constant `utf8.UTFMax`: the largest number of bytes of one encoded rune. -/
def UTFMax : Nat := 4

/-- Constant `utf8.RuneError`, the replacement character U+FFFD. -/
def RuneError : Nat := 0xFFFD

/-- Table `utf8.first`: information about the first byte of an encoding.
`0xF0` is ASCII (`as`), `0xF1` is invalid (`xx`); otherwise the low three bits
give the size and the high four bits index `acceptRanges`. -/
def first (b : Nat) : Nat :=
  if b < 0x80 then 0xF0
  else if b < 0xC2 then 0xF1
  else if b < 0xE0 then 0x02
  else if b = 0xE0 then 0x13
  else if b < 0xED then 0x03
  else if b = 0xED then 0x23
  else if b < 0xF0 then 0x03
  else if b = 0xF0 then 0x34
  else if b < 0xF4 then 0x04
  else if b = 0xF4 then 0x44
  else 0xF1

/-- Table `utf8.acceptRanges`: the accepted range `(lo, hi)` of the second byte. -/
def acceptRanges (k : Nat) : Nat × Nat :=
  match k with
  | 0 => (0x80, 0xBF)
  | 1 => (0xA0, 0xBF)
  | 2 => (0x80, 0x9F)
  | 3 => (0x90, 0xBF)
  | 4 => (0x80, 0x8F)
  | _ => (0, 0)

/-- Function `utf8.DecodeRuneInString`: the first rune of `s` and its width in
bytes; `(RuneError, 1)` for an invalid encoding, `(RuneError, 0)` for empty input. -/
def DecodeRuneInString (s : List Nat) : Nat × Nat :=
  match s with
  | [] => (RuneError, 0)
  | s0 :: rest =>
    let x := first s0
    if x ≥ 0xF0 then
      if x % 2 = 1 then (RuneError, 1) else (s0, 1)
    else
      let sz := x &&& 7
      let accept := acceptRanges (x >>> 4)
      if s.length < sz then (RuneError, 1)
      else
        match rest with
        | [] => (RuneError, 1)
        | s1 :: rest1 =>
          if s1 < accept.1 ∨ accept.2 < s1 then (RuneError, 1)
          else if sz ≤ 2 then (((s0 &&& 0x1F) <<< 6) ||| (s1 &&& 0x3F), 2)
          else
            match rest1 with
            | [] => (RuneError, 1)
            | s2 :: rest2 =>
              if s2 < 0x80 ∨ 0xBF < s2 then (RuneError, 1)
              else if sz ≤ 3 then
                (((s0 &&& 0x0F) <<< 12) ||| ((s1 &&& 0x3F) <<< 6) ||| (s2 &&& 0x3F), 3)
              else
                match rest2 with
                | [] => (RuneError, 1)
                | s3 :: _ =>
                  if s3 < 0x80 ∨ 0xBF < s3 then (RuneError, 1)
                  else
                    (((s0 &&& 0x07) <<< 18) ||| ((s1 &&& 0x3F) <<< 12)
                      ||| ((s2 &&& 0x3F) <<< 6) ||| (s3 &&& 0x3F), 4)

/-! ## json.go -/

/-- Modelled from the spec: the table `encoding/json.safeSet`, which json.go links
by name and which is not part of the sources. A byte is safe when it is not a
JSON-reserved control or escape character: it is at least 0x20 and is neither
the quote nor the backslash. -/
def safeSet (b : Nat) : Bool :=
  decide (0x20 ≤ b) && decide (b < 0x80) && (b != 0x22) && (b != 0x5C)

/-- Modelled from the spec: the table `encoding/json.htmlSafeSet`, which json.go
links by name and which is not part of the sources. As `safeSet`, and
additionally not one of `<`, `>`, `&`. -/
def htmlSafeSet (b : Nat) : Bool :=
  safeSet b && (b != 0x3C) && (b != 0x3E) && (b != 0x26)

/-- Variable `hex = "0123456789abcdef"`. -/
def hex : List Nat :=
  [0x30, 0x31, 0x32, 0x33, 0x34, 0x35, 0x36, 0x37, 0x38, 0x39,
   0x61, 0x62, 0x63, 0x64, 0x65, 0x66]

/-- Go slice expression `src[a:b]`. -/
def slice (src : List Nat) (a b : Nat) : List Nat := (src.drop a).take (b - a)

/-- The switch of `appendString` on an ASCII byte that is not copied verbatim:
the bytes appended for `b`. -/
def appendEscape (dst : List Nat) (b : Nat) : List Nat :=
  if b = 0x5C ∨ b = 0x22 then dst ++ [0x5C, b]
  else if b = 0x0A then dst ++ [0x5C, 0x6E]
  else if b = 0x0D then dst ++ [0x5C, 0x72]
  else if b = 0x09 then dst ++ [0x5C, 0x74]
  else dst ++ [0x5C, 0x75, 0x30, 0x30, hex.getD (b >>> 4) 0, hex.getD (b &&& 0xF) 0]

/-- The `for` loop of `appendString`, with state `(dst, start, i)`; it returns the
final `(dst, start)`. Every iteration advances `i`, so `fuel = len(src)` iterations
are enough. -/
def appendStringLoop (src : List Nat) (escapeHTML : Bool) :
    Nat → List Nat → Nat → Nat → List Nat × Nat
  | 0, dst, start, _ => (dst, start)
  | fuel + 1, dst, start, i =>
    if i < src.length then
      let b := src.getD i 0
      if b < RuneSelf then
        if htmlSafeSet b || (!escapeHTML && safeSet b) then
          appendStringLoop src escapeHTML fuel dst start (i + 1)
        else
          let dst := dst ++ slice src start i
          let dst := appendEscape dst b
          appendStringLoop src escapeHTML fuel dst (i + 1) (i + 1)
      else
        let n := if src.length - i > UTFMax then UTFMax else src.length - i
        let r := DecodeRuneInString (slice src i (i + n))
        let c := r.1
        let size := r.2
        if c = RuneError ∧ size = 1 then
          let dst := dst ++ slice src start i
          let dst := dst ++ [0x5C, 0x75, 0x66, 0x66, 0x66, 0x64]
          appendStringLoop src escapeHTML fuel dst (i + size) (i + size)
        else if c = 0x2028 ∨ c = 0x2029 then
          let dst := dst ++ slice src start i
          let dst := dst ++ [0x5C, 0x75, 0x32, 0x30, 0x32, hex.getD (c &&& 0xF) 0]
          appendStringLoop src escapeHTML fuel dst (i + size) (i + size)
        else
          appendStringLoop src escapeHTML fuel dst start (i + size)
    else (dst, start)

/-- Function `appendString`: appends to `dst` the JSON string literal of `src`. -/
def appendString (dst : List Nat) (src : List Nat) (escapeHTML : Bool) : List Nat :=
  let dst := dst ++ [0x22]
  let r := appendStringLoop src escapeHTML src.length dst 0 0
  let dst := r.1 ++ src.drop r.2
  dst ++ [0x22]

/-! ## Values of the Go runtime that the encoder observes -/

/-- The bytes of a text literal. -/
def str (s : String) : List Nat := s.toList.map Char.toNat

/-- A Go `error` value, as far as field.go observes it: the text `Error()`
returns, what `Unwrap()` returns, and, for an error that also implements
`json.Marshaler` (interface `jsonErr`), what its `MarshalJSON` returns. -/
inductive GoError where
  | plain (text : List Nat) : GoError
  | wrap (text : List Nat) (inner : GoError) : GoError
  | jsonOk (text : List Nat) (content : List Nat) : GoError
  | jsonFail (text : List Nat) (err : GoError) : GoError
  deriving DecidableEq

/-- Method `Error()` of an error value. -/
def GoError.Error : GoError → List Nat
  | .plain text => text
  | .wrap text _ => text
  | .jsonOk text _ => text
  | .jsonFail text _ => text

/-- What a call returns besides its data: a nil error, a non-nil error, or a
panic (a method call on a nil interface value). -/
inductive Status where
  | nil : Status
  | err (e : GoError) : Status
  | panic : Status
  deriving DecidableEq

/-- What a call of `Error()` or of `String()` that `fmt` makes on its operand
does: it returns a text, or it panics with a value that `fmt` prints as `shown`
(printing the panic value is taken to return). -/
inductive GoCall where
  | returns (text : List Nat) : GoCall
  | panics (shown : List Nat) : GoCall
  deriving DecidableEq

/-- A non-nil value implementing `fmt.Stringer`, as far as
`fmt.Sprintf("%s", v)` observes it at the time it is called:
* `reflectValue`: for a `reflect.Value`, which `fmt` prints by the value it holds
  without calling a method of the `reflect.Value`, the text `fmt` prints for it;
  `none` for a value of any other type;
* `isNilPointer`: whether the value is a nil pointer;
* `Format`: for a value that also implements `fmt.Formatter`, the bytes that
  `Format(p, 's')` writes and, when it panics after writing them, the text `fmt`
  prints for the panic value; `none` for a value that does not implement it;
* `Error`: for a value that also implements `error`, what `Error()` does; `none`
  for a value that does not implement it;
* `String`: what `String()` does. -/
structure GoStringer where
  reflectValue : Option (List Nat)
  isNilPointer : Bool
  Format : Option (List Nat × Option (List Nat))
  Error : Option GoCall
  String : GoCall
  deriving DecidableEq

/-- A value that is neither a `reflect.Value` nor a nil pointer and implements
`fmt.Stringer` but neither `fmt.Formatter` nor `error`, whose `String()` returns
`text`. -/
def GoStringer.returns (text : List Nat) : GoStringer :=
  ⟨none, false, none, none, GoCall.returns text⟩

/-- A nil pointer of a type that implements `fmt.Stringer` but neither
`fmt.Formatter` nor `error`, whose `String()` dereferences the receiver and so
panics. -/
def GoStringer.nilPointer : GoStringer :=
  ⟨none, true, none, none,
    GoCall.panics (str "runtime error: invalid memory address or nil pointer dereference")⟩

/-- A floating-point value (`float32`, `float64`): its bit pattern together with
the text `strconv.FormatFloat(v, 'f', -1, bitSize)` yields for it. -/
structure GoFloat where
  bits : Nat
  text : List Nat
  deriving DecidableEq

/-- A complex value (`complex64`, `complex128`): its bit pattern together with
the text `strconv.FormatComplex(v, 'f', -1, bitSize)` yields for it. -/
structure GoComplex where
  bits : Nat
  text : List Nat
  deriving DecidableEq

/-- A `time.Time` value: its instant together with the text
`Format(time.RFC3339)` yields for it. -/
structure GoTime where
  unixNano : Int
  rfc3339 : List Nat
  deriving DecidableEq

/-- The type parameter of `IntContent[T]`. -/
inductive IntKind where
  | int | int8 | int16 | int32 | int64
  deriving DecidableEq

/-- The type parameter of `UintContent[T]`. -/
inductive UintKind where
  | uint | uint8 | uint16 | uint32 | uint64
  deriving DecidableEq

/-! ## The sink -/

/-- An implementation of interface `Buffer`: `data` holds the bytes accepted so
far; `budget = none` accepts every write (a `bytes.Buffer`); `budget = some n`
accepts `n` more write calls and then fails each call with `failure`, writing
nothing. -/
structure Buffer where
  data : List Nat
  budget : Option Nat
  failure : GoError
  deriving DecidableEq

/-- A fresh `bytes.Buffer` (`var buf bytes.Buffer`). -/
def bytesBuffer : Buffer := ⟨[], none, GoError.plain []⟩

/-- Method `Write(p)` of the sink. -/
def Buffer.Write (w : Buffer) (p : List Nat) : Buffer × Status :=
  match w.budget with
  | none => (⟨w.data ++ p, none, w.failure⟩, Status.nil)
  | some 0 => (w, Status.err w.failure)
  | some (n + 1) => (⟨w.data ++ p, some n, w.failure⟩, Status.nil)

/-- Method `WriteString(s)` of the sink. -/
def Buffer.WriteString (w : Buffer) (s : List Nat) : Buffer × Status := w.Write s

/-- Method `WriteByte(c)` of the sink. -/
def Buffer.WriteByte (w : Buffer) (c : Nat) : Buffer × Status := w.Write [c]

/-- Function `appendJsonStringBuf`. -/
def appendJsonStringBuf (w : Buffer) (s : List Nat) : Buffer × Status :=
  w.Write (appendString [] s false)

/-! ## Error marshaling (json.go) -/

/-- The search `errors.As(err, &jsonErr)`: the first error of the unwrap chain
that implements `jsonErr`. -/
def errorsAsJsonErr : GoError → Option GoError
  | .plain _ => none
  | .wrap _ inner => errorsAsJsonErr inner
  | .jsonOk text content => some (.jsonOk text content)
  | .jsonFail text err => some (.jsonFail text err)

/-- Method `jsonErrMarshaler.MarshalJSON` for a non-nil wrapped error. -/
def jsonErrMarshaler_MarshalJSON (e : GoError) : List Nat × Status :=
  match appendJsonStringBuf bytesBuffer e.Error with
  | (_, Status.err x) => ([], Status.err x)
  | (_, Status.panic) => ([], Status.panic)
  | (buffer, Status.nil) => (buffer.data, Status.nil)

/-- The call `asJsonErrMarshaler(err).MarshalJSON()` for a non-nil `err`. -/
def asJsonErrMarshaler_MarshalJSON (err : GoError) : List Nat × Status :=
  match errorsAsJsonErr err with
  | some (.jsonOk _ content) => (content, Status.nil)
  | some (.jsonFail _ e) => ([], Status.err e)
  | _ => jsonErrMarshaler_MarshalJSON err

/-! ## Standard-library formatters used by field.go -/

/-- Function `strconv.FormatUint(v, 10)`. -/
def FormatUint (v : Nat) : List Nat := (Nat.toDigits 10 v).map Char.toNat

/-- Function `strconv.FormatInt(v, 10)`. -/
def FormatInt (v : Int) : List Nat :=
  if v < 0 then 0x2D :: FormatUint (-v).toNat else FormatUint v.toNat

/-- The digits of `v` in base 16, lowercase, padded with zeros on the left to
at least `width` digits. -/
def hexDigitsPadded (width : Nat) (v : Nat) : List Nat :=
  let ds := (Nat.toDigits 16 v).map Char.toNat
  List.replicate (width - ds.length) 0x30 ++ ds

/-- The call `fmt.Fprintf(w, "%#0*x", width, v)` for an unsigned `v`: `0x`, then
the digits zero-padded to `width` digits, in one write. -/
def Fprintf_sharp0x (w : Buffer) (width : Nat) (v : Nat) : Buffer × Status :=
  w.Write ([0x30, 0x78] ++ hexDigitsPadded width v)

/-- The alphabet of `base64.StdEncoding`: the character of a 6-bit value. -/
def encodeStd (v : Nat) : Nat :=
  if v < 26 then 0x41 + v
  else if v < 52 then 0x61 + (v - 26)
  else if v < 62 then 0x30 + (v - 52)
  else if v = 62 then 0x2B
  else 0x2F

/-- Method `base64.RawStdEncoding.Encode`: standard alphabet, no padding. -/
def base64RawStdEncode : List Nat → List Nat
  | a :: b :: c :: rest =>
    let val := (a <<< 16) ||| (b <<< 8) ||| c
    [encodeStd ((val >>> 18) &&& 0x3F), encodeStd ((val >>> 12) &&& 0x3F),
     encodeStd ((val >>> 6) &&& 0x3F), encodeStd (val &&& 0x3F)] ++ base64RawStdEncode rest
  | [a, b] =>
    let val := (a <<< 16) ||| (b <<< 8)
    [encodeStd ((val >>> 18) &&& 0x3F), encodeStd ((val >>> 12) &&& 0x3F),
     encodeStd ((val >>> 6) &&& 0x3F)]
  | [a] =>
    let val := a <<< 16
    [encodeStd ((val >>> 18) &&& 0x3F), encodeStd ((val >>> 12) &&& 0x3F)]
  | [] => []

/-- The loop "large interior chunks" of the streaming encoder's `Write`: while at
least 3 bytes remain, it encodes up to 768 of them (a multiple of 3) and writes
the 4-byte groups to the sink. It returns the trailing bytes left to buffer. -/
def base64EncoderWrite : Nat → Buffer → List Nat → Buffer × Status × List Nat
  | 0, w, p => (w, Status.nil, p)
  | fuel + 1, w, p =>
    if p.length ≥ 3 then
      let nn := if 768 > p.length then p.length - p.length % 3 else 768
      match w.Write (base64RawStdEncode (p.take nn)) with
      | (w1, Status.nil) => base64EncoderWrite fuel w1 (p.drop nn)
      | (w1, e) => (w1, e, p.drop nn)
    else (w, Status.nil, p)

/-- Method `Close` of the streaming encoder: flushes the buffered trailing bytes. -/
def base64EncoderClose (w : Buffer) (buf : List Nat) : Buffer × Status :=
  if buf.length > 0 then w.Write (base64RawStdEncode buf) else (w, Status.nil)

/-! ## field.go: Content -/

/-- The implementations of interface `Content` in field.go. -/
inductive Content where
  | ArrayContent (arrayRaw : List Content) : Content
  | NilContent : Content
  | JSONContent (jsonRaw : List Nat) : Content
  | BinaryContent (binaryRaw : List Nat) : Content
  | BoolContent (f : Bool) : Content
  | Complex128Content (f : GoComplex) : Content
  | Complex64Content (f : GoComplex) : Content
  | ErrorContent (data : Option GoError) : Content
  | Float32Content (f : GoFloat) : Content
  | Float64Content (f : GoFloat) : Content
  | IntContent (T : IntKind) (data : Int) : Content
  | UintContent (T : UintKind) (data : Nat) : Content
  | UintptrContent (f : Nat) : Content
  | StringContent (f : List Nat) : Content
  | StringerContent (data : Option GoStringer) : Content
  | TimeContent (f : GoTime) : Content

/-- Method `catchPanic` of the printer of `fmt` for the verb `s`: what the
printer writes when the method `method` it called on the operand panics. For a
nil pointer that is `<nil>`; otherwise it is the panic message, which holds the
name of the method and the panic value as `fmt` prints it. -/
def catchPanic (isNilPointer : Bool) (method shown : List Nat) : List Nat :=
  if isNilPointer then str "<nil>"
  else str "%!s(PANIC=" ++ method ++ str " method: " ++ shown ++ str ")"

/-- The call `fmt.Sprintf("%s", data)` for a non-nil `fmt.Stringer`. A
`reflect.Value` is printed by the value it holds. For any other operand `fmt`
calls `Format` when the operand is a `fmt.Formatter`, else `Error()` when it is
an `error`, else `String()`, and it recovers from a panic of the method it
called. -/
def Sprintf_s (data : GoStringer) : List Nat :=
  match data.reflectValue with
  | some text => text
  | none =>
    match data.Format with
    | some (wrote, none) => wrote
    | some (wrote, some shown) => wrote ++ catchPanic data.isNilPointer (str "Format") shown
    | none =>
      match data.Error with
      | some (GoCall.returns text) => text
      | some (GoCall.panics shown) => catchPanic data.isNilPointer (str "Error") shown
      | none =>
        match data.String with
        | GoCall.returns text => text
        | GoCall.panics shown => catchPanic data.isNilPointer (str "String") shown

/-- Method `BinaryContent.EncodeJSON`. -/
def BinaryContent_EncodeJSON (binaryRaw : List Nat) (buffer : Buffer) : Buffer × Status :=
  match buffer.WriteString
      [0x22, 0x64, 0x61, 0x74, 0x61, 0x3A, 0x3B, 0x62, 0x61, 0x73, 0x65, 0x36, 0x34, 0x2C] with
  | (b1, Status.nil) =>
    match base64EncoderWrite binaryRaw.length b1 binaryRaw with
    | (b2, Status.nil, rest) =>
      match base64EncoderClose b2 rest with
      | (b3, Status.nil) => b3.WriteByte 0x22
      | (b3, e) => (b3, e)
    | (b2, e, _) => (b2, e)
  | (b1, e) => (b1, e)

/-- Method `ErrorContent.EncodeJSON`. -/
def ErrorContent_EncodeJSON (data : Option GoError) (buffer : Buffer) : Buffer × Status :=
  match data with
  | none => buffer.Write [0x6E, 0x75, 0x6C, 0x6C]
  | some e =>
    match asJsonErrMarshaler_MarshalJSON e with
    | (content, Status.nil) => buffer.Write content
    | (_, err) => (buffer, err)

mutual
/-- Method `EncodeJSON` of each implementation of `Content`. -/
def Content.EncodeJSON : Content → Buffer → Buffer × Status
  | .ArrayContent arrayRaw, buffer =>
    match buffer.WriteByte 0x5B with
    | (b1, Status.nil) =>
      match ArrayContent_loop arrayRaw 0 b1 with
      | (b2, Status.nil) => b2.WriteByte 0x5D
      | (b2, e) => (b2, e)
    | (b1, e) => (b1, e)
  | .NilContent, buffer => buffer.Write [0x6E, 0x75, 0x6C, 0x6C]
  | .JSONContent jsonRaw, buffer => buffer.Write jsonRaw
  | .BinaryContent binaryRaw, buffer => BinaryContent_EncodeJSON binaryRaw buffer
  | .BoolContent f, buffer =>
    if f then buffer.Write [0x74, 0x72, 0x75, 0x65]
    else buffer.Write [0x66, 0x61, 0x6C, 0x73, 0x65]
  | .Complex128Content f, buffer => appendJsonStringBuf buffer f.text
  | .Complex64Content f, buffer => appendJsonStringBuf buffer f.text
  | .ErrorContent data, buffer => ErrorContent_EncodeJSON data buffer
  | .Float32Content f, buffer => buffer.WriteString f.text
  | .Float64Content f, buffer => buffer.WriteString f.text
  | .IntContent _ data, buffer => buffer.WriteString (FormatInt data)
  | .UintContent _ data, buffer => buffer.WriteString (FormatUint data)
  | .UintptrContent f, buffer => Fprintf_sharp0x buffer 16 f
  | .StringContent f, buffer => appendJsonStringBuf buffer f
  | .StringerContent data, buffer =>
    match data with
    | none => buffer.Write [0x6E, 0x75, 0x6C, 0x6C]
    | some d => appendJsonStringBuf buffer (Sprintf_s d)
  | .TimeContent f, buffer => appendJsonStringBuf buffer f.rfc3339
/-- The `for` loop of `ArrayContent.EncodeJSON` from index `i` on, over the
elements not yet encoded. -/
def ArrayContent_loop : List Content → Nat → Buffer → Buffer × Status
  | [], _, buffer => (buffer, Status.nil)
  | c :: rest, i, buffer =>
    match (if i > 0 then buffer.WriteByte 0x2C else (buffer, Status.nil)) with
    | (b1, Status.nil) =>
      match c.EncodeJSON b1 with
      | (b2, Status.nil) => ArrayContent_loop rest (i + 1) b2
      | (b2, e) => (b2, e)
    | (b1, e) => (b1, e)
end

/-- Function `newArray`. -/
def newArray {T : Type} (list : List T) (converter : T → Content) : Content :=
  Content.ArrayContent (list.map converter)

/-! ## field.go: Field and Fields -/

/-- Type `Field`: a key and an embedded `Content` interface value, which is nil
in the zero `Field`. -/
structure Field where
  Key : List Nat
  Content : Option Content

/-- Method `Field.EncodeJSON`. Calling `EncodeJSON` on a nil `Content` panics. -/
def Field.EncodeJSON (f : Field) (buffer : Buffer) : Buffer × Status :=
  match appendJsonStringBuf buffer f.Key with
  | (b1, Status.nil) =>
    match b1.WriteByte 0x3A with
    | (b2, Status.nil) =>
      match f.Content with
      | some c => c.EncodeJSON b2
      | none => (b2, Status.panic)
    | (b2, e) => (b2, e)
  | (b1, e) => (b1, e)

/-- Method `Field.MarshalJSON`: the returned bytes (`nil` is the empty list) and
the returned error. -/
def Field.MarshalJSON (f : Field) : List Nat × Status :=
  match bytesBuffer.WriteByte 0x7B with
  | (b1, Status.nil) =>
    match f.EncodeJSON b1 with
    | (b2, Status.nil) =>
      match b2.WriteByte 0x7D with
      | (b3, Status.nil) => (b3.data, Status.nil)
      | (_, e) => ([], e)
    | (_, e) => ([], e)
  | (_, e) => ([], e)

/-- Type `Fields`. -/
abbrev Fields := List Field

/-- Function `strings.Compare`: -1, 0 or +1 by byte-wise lexicographic order. -/
def stringsCompare : List Nat → List Nat → Int
  | [], [] => 0
  | [], _ :: _ => -1
  | _ :: _, [] => 1
  | a :: as, b :: bs =>
    if a < b then -1 else if b < a then 1 else stringsCompare as bs

/-- Function `sort.SliceStable`: sorts by `less`, keeping equal elements in their
original order. A stable sort is determined by its result, so it is given as the
stable insertion sort. -/
def sortSliceStable (less : Field → Field → Bool) (xs : List Field) : List Field :=
  xs.insertionSort (fun a b => less b a = false)

/-- The `for` loop of `Fields.Unique`, with the map `m` of keys seen so far and
the slice `newFields`. -/
def Unique_loop : List Field → List (List Nat) → List Field → List Field
  | [], _, newFields => newFields
  | x :: rest, m, newFields =>
    if x.Key ∈ m then Unique_loop rest m newFields
    else Unique_loop rest (x.Key :: m) (newFields ++ [x])

/-- Method `Fields.Unique`. -/
def Fields.Unique (f : Fields) : List Field :=
  let newFields := Unique_loop f [] []
  sortSliceStable (fun a b => decide (stringsCompare a.Key b.Key < 0)) newFields

/-- The `for` loop of `Fields.EncodeJSON` from index `i` on, over the fields of
`snap` not yet encoded. -/
def Fields_loop : List Field → Nat → Buffer → Buffer × Status
  | [], _, buf => (buf, Status.nil)
  | x :: rest, i, buf =>
    match (if i > 0 then buf.WriteByte 0x2C else (buf, Status.nil)) with
    | (b1, Status.nil) =>
      match x.EncodeJSON b1 with
      | (b2, Status.nil) => Fields_loop rest (i + 1) b2
      | (b2, e) => (b2, e)
    | (b1, e) => (b1, e)

/-- Method `Fields.EncodeJSON`. -/
def Fields.EncodeJSON (f : Fields) (buf : Buffer) : Buffer × Status :=
  let snap := f.Unique
  match buf.WriteByte 0x7B with
  | (b1, Status.nil) =>
    match Fields_loop snap 0 b1 with
    | (b2, Status.nil) => b2.WriteByte 0x7D
    | (b2, e) => (b2, e)
  | (b1, e) => (b1, e)

/-- Method `Fields.MarshalJSON`. -/
def Fields.MarshalJSON (f : Fields) : List Nat × Status :=
  let r := f.EncodeJSON bytesBuffer
  (r.1.data, r.2)

/-- Constructor `Bools`. -/
def New.Bools (key : List Nat) (valArr : List Bool) : Field :=
  ⟨key, some (newArray valArr Content.BoolContent)⟩

/-- Constructor `Bool`. -/
def New.Bool (key : List Nat) (val : Bool) : Field := ⟨key, some (Content.BoolContent val)⟩

/-- Constructor `Nil`. -/
def New.Nil (key : List Nat) : Field := ⟨key, some Content.NilContent⟩

/-- Constructor `JsonRawMessage`. -/
def New.JsonRawMessage (key : List Nat) (val : List Nat) : Field :=
  ⟨key, some (Content.JSONContent val)⟩

/-- Constructor `String`. -/
def New.String (key : List Nat) (val : List Nat) : Field :=
  ⟨key, some (Content.StringContent val)⟩

/-- Constructor `Strings`. -/
def New.Strings (key : List Nat) (valArr : List (List Nat)) : Field :=
  ⟨key, some (newArray valArr Content.StringContent)⟩

/-- Constructor `Error`. -/
def New.Error (key : List Nat) (err : Option GoError) : Field :=
  ⟨key, some (Content.ErrorContent err)⟩

/-! ## unicode/utf8: ValidString -/

/-- The loop of `utf8.ValidString` from index `i` on. -/
def ValidString_loop (s : List Nat) : Nat → Nat → Bool
  | 0, _ => true
  | fuel + 1, i =>
    if i < s.length then
      let si := s.getD i 0
      if si < RuneSelf then ValidString_loop s fuel (i + 1)
      else
        let x := first si
        if x = 0xF1 then false
        else
          let size := x &&& 7
          if i + size > s.length then false
          else
            let accept := acceptRanges (x >>> 4)
            if s.getD (i + 1) 0 < accept.1 ∨ accept.2 < s.getD (i + 1) 0 then false
            else if size = 2 then ValidString_loop s fuel (i + size)
            else if s.getD (i + 2) 0 < 0x80 ∨ 0xBF < s.getD (i + 2) 0 then false
            else if size = 3 then ValidString_loop s fuel (i + size)
            else if s.getD (i + 3) 0 < 0x80 ∨ 0xBF < s.getD (i + 3) 0 then false
            else ValidString_loop s fuel (i + size)
    else true

/-- Function `utf8.ValidString`: whether `s` consists entirely of valid UTF-8
encoded runes. Every iteration advances `i`, so `len(s)` iterations are enough. -/
def ValidString (s : List Nat) : Bool := ValidString_loop s s.length 0

/-! ## field.go: Type -/

/-- Constant `TypeNull`. -/
def TypeNull : Nat := 0

/-- Constant `TypeBool`. -/
def TypeBool : Nat := 1

/-- Constant `TypeInt`. -/
def TypeInt : Nat := 2

/-- Constant `TypeUint`. -/
def TypeUint : Nat := 3

/-- Constant `TypeUintptr`. -/
def TypeUintptr : Nat := 4

/-- Constant `TypeFloat`. -/
def TypeFloat : Nat := 5

/-- Constant `TypeComplex`. -/
def TypeComplex : Nat := 6

/-- Constant `TypeString`. -/
def TypeString : Nat := 7

/-- Constant `TypeStringer`. -/
def TypeStringer : Nat := 8

/-- Constant `TypeBinary`. -/
def TypeBinary : Nat := 9

/-- Constant `TypeTime`. -/
def TypeTime : Nat := 10

/-- Constant `TypeError`. -/
def TypeError : Nat := 11

/-- Constant `TypeJSON`. -/
def TypeJSON : Nat := 12

/-- Constant `TypeAny`. -/
def TypeAny : Nat := 13

/-- Constant `TypeArray`. -/
def TypeArray : Nat := 0x80

/-- Method `Type` of each implementation of `Content` (a `uint8`). -/
def Content.Type_ : Content → Nat
  | .ArrayContent [] => TypeArray ||| TypeNull
  | .ArrayContent (c :: _) => TypeArray ||| c.Type_
  | .NilContent => TypeNull
  | .JSONContent _ => TypeJSON
  | .BinaryContent _ => TypeBinary
  | .BoolContent _ => TypeBool
  | .Complex128Content _ => TypeComplex
  | .Complex64Content _ => TypeComplex
  | .ErrorContent _ => TypeError
  | .Float32Content _ => TypeFloat
  | .Float64Content _ => TypeFloat
  | .IntContent _ _ => TypeInt
  | .UintContent _ _ => TypeUint
  | .UintptrContent _ => TypeUintptr
  | .StringContent _ => TypeString
  | .StringerContent _ => TypeStringer
  | .TimeContent _ => TypeTime

/-! ## field.go: the constructors of Field -/

/-- Constructor `Binary`. -/
def New.Binary (key : List Nat) (val : List Nat) : Field :=
  ⟨key, some (Content.BinaryContent val)⟩

/-- Constructor `Binarys`. -/
def New.Binarys (key : List Nat) (valArr : List (List Nat)) : Field :=
  ⟨key, some (newArray valArr Content.BinaryContent)⟩

/-- Constructor `Complex128`. -/
def New.Complex128 (key : List Nat) (val : GoComplex) : Field :=
  ⟨key, some (Content.Complex128Content val)⟩

/-- Constructor `Complex128s`. -/
def New.Complex128s (key : List Nat) (nums : List GoComplex) : Field :=
  ⟨key, some (newArray nums Content.Complex128Content)⟩

/-- Constructor `Complex64`. -/
def New.Complex64 (key : List Nat) (val : GoComplex) : Field :=
  ⟨key, some (Content.Complex64Content val)⟩

/-- Constructor `Complex64s`. -/
def New.Complex64s (key : List Nat) (nums : List GoComplex) : Field :=
  ⟨key, some (newArray nums Content.Complex64Content)⟩

/-- Constructor `Errors`. -/
def New.Errors (key : List Nat) (errs : List (Option GoError)) : Field :=
  ⟨key, some (newArray errs Content.ErrorContent)⟩

/-- Constructor `Float32`. -/
def New.Float32 (key : List Nat) (val : GoFloat) : Field :=
  ⟨key, some (Content.Float32Content val)⟩

/-- Constructor `Float32s`. -/
def New.Float32s (key : List Nat) (nums : List GoFloat) : Field :=
  ⟨key, some (newArray nums Content.Float32Content)⟩

/-- Constructor `Float64`. -/
def New.Float64 (key : List Nat) (val : GoFloat) : Field :=
  ⟨key, some (Content.Float64Content val)⟩

/-- Constructor `Float64s`. -/
def New.Float64s (key : List Nat) (nums : List GoFloat) : Field :=
  ⟨key, some (newArray nums Content.Float64Content)⟩

/-- Constructor `Ints`, for the type parameter `T`. -/
def New.Ints (T : IntKind) (key : List Nat) (nums : List ℤ) : Field :=
  ⟨key, some (newArray nums (Content.IntContent T))⟩

/-- Constructor `Int8`. -/
def New.Int8 (key : List Nat) (val : ℤ) : Field :=
  ⟨key, some (Content.IntContent IntKind.int8 val)⟩

/-- Constructor `Int8s`. -/
def New.Int8s (key : List Nat) (nums : List ℤ) : Field :=
  ⟨key, some (newArray nums (Content.IntContent IntKind.int8))⟩

/-- Constructor `Int16`. -/
def New.Int16 (key : List Nat) (val : ℤ) : Field :=
  ⟨key, some (Content.IntContent IntKind.int16 val)⟩

/-- Constructor `Int16s`. -/
def New.Int16s (key : List Nat) (nums : List ℤ) : Field :=
  ⟨key, some (newArray nums (Content.IntContent IntKind.int16))⟩

/-- Constructor `Int32`. -/
def New.Int32 (key : List Nat) (val : ℤ) : Field :=
  ⟨key, some (Content.IntContent IntKind.int32 val)⟩

/-- Constructor `Int32s`. -/
def New.Int32s (key : List Nat) (nums : List ℤ) : Field :=
  ⟨key, some (newArray nums (Content.IntContent IntKind.int32))⟩

/-- Constructor `Int64`. -/
def New.Int64 (key : List Nat) (val : ℤ) : Field :=
  ⟨key, some (Content.IntContent IntKind.int64 val)⟩

/-- Constructor `Int64s`. -/
def New.Int64s (key : List Nat) (nums : List ℤ) : Field :=
  ⟨key, some (newArray nums (Content.IntContent IntKind.int64))⟩

/-- Constructor `Int`, for the type parameter `T`. -/
def New.Int (T : IntKind) (key : List Nat) (val : ℤ) : Field :=
  ⟨key, some (Content.IntContent T val)⟩

/-- Constructor `Uint`, for the type parameter `T`. -/
def New.Uint (T : UintKind) (key : List Nat) (val : Nat) : Field :=
  ⟨key, some (Content.UintContent T val)⟩

/-- Constructor `Uints`, for the type parameter `T`. -/
def New.Uints (T : UintKind) (key : List Nat) (nums : List Nat) : Field :=
  ⟨key, some (newArray nums (Content.UintContent T))⟩

/-- Constructor `Uint8`. -/
def New.Uint8 (key : List Nat) (val : Nat) : Field :=
  ⟨key, some (Content.UintContent UintKind.uint8 val)⟩

/-- Constructor `Uint8s`. -/
def New.Uint8s (key : List Nat) (nums : List Nat) : Field :=
  ⟨key, some (newArray nums (Content.UintContent UintKind.uint8))⟩

/-- Constructor `Uint16`. -/
def New.Uint16 (key : List Nat) (val : Nat) : Field :=
  ⟨key, some (Content.UintContent UintKind.uint16 val)⟩

/-- Constructor `Uint16s`. -/
def New.Uint16s (key : List Nat) (nums : List Nat) : Field :=
  ⟨key, some (newArray nums (Content.UintContent UintKind.uint16))⟩

/-- Constructor `Uint32`. -/
def New.Uint32 (key : List Nat) (val : Nat) : Field :=
  ⟨key, some (Content.UintContent UintKind.uint32 val)⟩

/-- Constructor `Uint32s`. -/
def New.Uint32s (key : List Nat) (nums : List Nat) : Field :=
  ⟨key, some (newArray nums (Content.UintContent UintKind.uint32))⟩

/-- Constructor `Uint64`. -/
def New.Uint64 (key : List Nat) (val : Nat) : Field :=
  ⟨key, some (Content.UintContent UintKind.uint64 val)⟩

/-- Constructor `Uint64s`. -/
def New.Uint64s (key : List Nat) (nums : List Nat) : Field :=
  ⟨key, some (newArray nums (Content.UintContent UintKind.uint64))⟩

/-- Constructor `Uintptr`. -/
def New.Uintptr (key : List Nat) (val : Nat) : Field :=
  ⟨key, some (Content.UintptrContent val)⟩

/-- Constructor `Uintptrs`. -/
def New.Uintptrs (key : List Nat) (us : List Nat) : Field :=
  ⟨key, some (newArray us Content.UintptrContent)⟩

/-- Constructor `ByteString`. -/
def New.ByteString (key : List Nat) (val : List Nat) : Field :=
  ⟨key, some (Content.StringContent val)⟩

/-- Constructor `ByteStrings`. -/
def New.ByteStrings (key : List Nat) (valArr : List (List Nat)) : Field :=
  ⟨key, some (newArray valArr Content.StringContent)⟩

/-- Constructor `Stringer`; `val` is `none` for the nil interface. -/
def New.Stringer (key : List Nat) (val : Option GoStringer) : Field :=
  ⟨key, some (Content.StringerContent val)⟩

/-- Constructor `Stringers`. -/
def New.Stringers (key : List Nat) (valArr : List (Option GoStringer)) : Field :=
  ⟨key, some (newArray valArr Content.StringerContent)⟩

/-- Constructor `Time`. -/
def New.Time (key : List Nat) (val : GoTime) : Field :=
  ⟨key, some (Content.TimeContent val)⟩

/-- Constructor `Times`. -/
def New.Times (key : List Nat) (valArr : List GoTime) : Field :=
  ⟨key, some (newArray valArr Content.TimeContent)⟩

/-- A `time.Duration` value: its nanoseconds together with the text its
`String()` method yields. -/
structure GoDuration where
  nanos : Int
  text : List Nat
  deriving DecidableEq

/-- A `time.Duration` as a non-nil `fmt.Stringer`. -/
def GoDuration.asStringer (d : GoDuration) : Option GoStringer :=
  some (GoStringer.returns d.text)

/-- Constructor `Duration`. -/
def New.Duration (key : List Nat) (val : GoDuration) : Field :=
  New.Stringer key val.asStringer

/-- Constructor `Durations`. -/
def New.Durations (key : List Nat) (valArr : List GoDuration) : Field :=
  New.Stringers key (valArr.map GoDuration.asStringer)

/-! ## field.go: Any -/

/-- What a call of a marshal method (`MarshalJSON`, `MarshalText`,
`MarshalBinary`) on a value does: it returns bytes and an error, `none` being the
nil error, or it panics, as a method with a value receiver does when it is called
through a nil pointer. -/
inductive GoMarshal where
  | returns (content : List Nat) (err : Option GoError) : GoMarshal
  | panics : GoMarshal
  deriving DecidableEq

/-- A value whose dynamic type is none of the concrete types tested by the type
switch of `Any`, as far as the switch observes it: for each of the interfaces
`error`, `fmt.Stringer`, `json.Marshaler`, `encoding.TextMarshaler` and
`encoding.BinaryMarshaler`, `none` when the type does not implement it, and
otherwise the value as that interface or what a call of its marshal method
does. -/
structure GoOther where
  asError : Option GoError
  asStringer : Option GoStringer
  MarshalJSON : Option GoMarshal
  MarshalText : Option GoMarshal
  MarshalBinary : Option GoMarshal

/-- A value of type `any` passed to `Any`, by its dynamic type: the nil interface,
a value of one of the concrete types of the type switch (a scalar, a pointer to
it, `none` being the nil pointer, or a slice of it), or a value of another type.
`uints uint8` is `[]byte`; an element of `errorPtr` and `errors` is an `error`
interface value, `none` being the nil error. -/
inductive GoValue where
  | nil : GoValue
  | bool (v : Bool) : GoValue
  | boolPtr (v : Option Bool) : GoValue
  | bools (v : List Bool) : GoValue
  | complex128 (v : GoComplex) : GoValue
  | complex128Ptr (v : Option GoComplex) : GoValue
  | complex128s (v : List GoComplex) : GoValue
  | complex64 (v : GoComplex) : GoValue
  | complex64Ptr (v : Option GoComplex) : GoValue
  | complex64s (v : List GoComplex) : GoValue
  | float64 (v : GoFloat) : GoValue
  | float64Ptr (v : Option GoFloat) : GoValue
  | float64s (v : List GoFloat) : GoValue
  | float32 (v : GoFloat) : GoValue
  | float32Ptr (v : Option GoFloat) : GoValue
  | float32s (v : List GoFloat) : GoValue
  | int (T : IntKind) (v : Int) : GoValue
  | intPtr (T : IntKind) (v : Option Int) : GoValue
  | ints (T : IntKind) (v : List Int) : GoValue
  | string (v : List Nat) : GoValue
  | stringPtr (v : Option (List Nat)) : GoValue
  | strings (v : List (List Nat)) : GoValue
  | uint (T : UintKind) (v : Nat) : GoValue
  | uintPtr (T : UintKind) (v : Option Nat) : GoValue
  | uints (T : UintKind) (v : List Nat) : GoValue
  | uintptr (v : Nat) : GoValue
  | uintptrPtr (v : Option Nat) : GoValue
  | uintptrs (v : List Nat) : GoValue
  | time (v : GoTime) : GoValue
  | timePtr (v : Option GoTime) : GoValue
  | times (v : List GoTime) : GoValue
  | duration (v : GoDuration) : GoValue
  | durationPtr (v : Option GoDuration) : GoValue
  | durations (v : List GoDuration) : GoValue
  | errorPtr (v : Option (Option GoError)) : GoValue
  | errors (v : List (Option GoError)) : GoValue
  | other (v : GoOther) : GoValue

/-- Function `anyPointer`. -/
def anyPointer {T : Type} (key : List Nat) (ptr : Option T) (fn : List Nat → T → Field) :
    Field :=
  match ptr with
  | none => New.Nil key
  | some x => fn key x

/-- The call `fmt.Errorf(format, err)` for a format that ends in `: %w`: an error
with the text `prefix: ` followed by `err.Error()`, which unwraps to `err`. -/
def Errorf_w (pre : List Nat) (err : GoError) : GoError :=
  GoError.wrap (pre ++ err.Error) err

/-- The interface cases of the type switch of `Any` and its fallback: the Field
returned, or `none` when the marshal method that is called panics. -/
def Any_interfaces (key : List Nat) (v : GoOther) : Option Field :=
  match v.asError with
  | some e => some (New.Error key (some e))
  | none =>
    match v.asStringer with
    | some s => some (New.Stringer key (some s))
    | none =>
      match v.MarshalJSON with
      | some GoMarshal.panics => none
      | some (GoMarshal.returns _ (some err)) =>
        some (New.Error key (some (Errorf_w (str "cant marshal json: ") err)))
      | some (GoMarshal.returns content none) => some (New.JsonRawMessage key content)
      | none =>
        match v.MarshalText with
        | some GoMarshal.panics => none
        | some (GoMarshal.returns _ (some err)) =>
          some (New.Error key (some (Errorf_w (str "cant marshal text: ") err)))
        | some (GoMarshal.returns content none) => some (New.ByteString key content)
        | none =>
          match v.MarshalBinary with
          | some GoMarshal.panics => none
          | some (GoMarshal.returns _ (some err)) =>
            some (New.Error key (some (Errorf_w (str "cant marshal binary: ") err)))
          | some (GoMarshal.returns content none) => some (New.Binary key content)
          | none =>
            some (New.Error key
              (some (GoError.plain (str "cant marshal field: no type matched"))))

/-- Function `Any`: the Field it returns, or `none` when the call panics. -/
def Any (key : List Nat) (val : GoValue) : Option Field :=
  match val with
  | .nil => some (New.Nil key)
  | .bool v => some (New.Bool key v)
  | .boolPtr v => some (anyPointer key v New.Bool)
  | .bools v => some (New.Bools key v)
  | .complex128 v => some (New.Complex128 key v)
  | .complex128Ptr v => some (anyPointer key v New.Complex128)
  | .complex128s v => some (New.Complex128s key v)
  | .complex64 v => some (New.Complex64 key v)
  | .complex64Ptr v => some (anyPointer key v New.Complex64)
  | .complex64s v => some (New.Complex64s key v)
  | .float64 v => some (New.Float64 key v)
  | .float64Ptr v => some (anyPointer key v New.Float64)
  | .float64s v => some (New.Float64s key v)
  | .float32 v => some (New.Float32 key v)
  | .float32Ptr v => some (anyPointer key v New.Float32)
  | .float32s v => some (New.Float32s key v)
  | .int .int v => some (New.Int IntKind.int key v)
  | .intPtr .int v => some (anyPointer key v (New.Int IntKind.int))
  | .ints .int v => some (New.Ints IntKind.int key v)
  | .int .int64 v => some (New.Int IntKind.int64 key v)
  | .intPtr .int64 v => some (anyPointer key v New.Int64)
  | .ints .int64 v => some (New.Int64s key v)
  | .int .int32 v => some (New.Int IntKind.int32 key v)
  | .intPtr .int32 v => some (anyPointer key v New.Int32)
  | .ints .int32 v => some (New.Int32s key v)
  | .int .int16 v => some (New.Int IntKind.int16 key v)
  | .intPtr .int16 v => some (anyPointer key v New.Int16)
  | .ints .int16 v => some (New.Int16s key v)
  | .int .int8 v => some (New.Int IntKind.int8 key v)
  | .intPtr .int8 v => some (anyPointer key v New.Int8)
  | .ints .int8 v => some (New.Int8s key v)
  | .string v => some (New.String key v)
  | .stringPtr v => some (anyPointer key v New.String)
  | .strings v => some (New.Strings key v)
  | .uint .uint v => some (New.Uint UintKind.uint key v)
  | .uintPtr .uint v => some (anyPointer key v (New.Uint UintKind.uint))
  | .uints .uint v => some (New.Uints UintKind.uint key v)
  | .uint .uint64 v => some (New.Uint UintKind.uint64 key v)
  | .uintPtr .uint64 v => some (anyPointer key v New.Uint64)
  | .uints .uint64 v => some (New.Uint64s key v)
  | .uint .uint32 v => some (New.Uint UintKind.uint32 key v)
  | .uintPtr .uint32 v => some (anyPointer key v New.Uint32)
  | .uints .uint32 v => some (New.Uint32s key v)
  | .uint .uint16 v => some (New.Uint UintKind.uint16 key v)
  | .uintPtr .uint16 v => some (anyPointer key v New.Uint16)
  | .uints .uint16 v => some (New.Uint16s key v)
  | .uint .uint8 v => some (New.Uint UintKind.uint8 key v)
  | .uintPtr .uint8 v => some (anyPointer key v New.Uint8)
  | .uints .uint8 v => some (New.Binary key v)
  | .uintptr v => some (New.Uintptr key v)
  | .uintptrPtr v => some (anyPointer key v New.Uintptr)
  | .uintptrs v => some (New.Uintptrs key v)
  | .time v => some (New.Time key v)
  | .timePtr v => some (anyPointer key v New.Time)
  | .times v => some (New.Times key v)
  | .duration v => some (New.Duration key v)
  | .durationPtr v => some (anyPointer key v New.Duration)
  | .durations v => some (New.Durations key v)
  | .errorPtr v => some (anyPointer key v New.Error)
  | .errors v => some (New.Errors key v)
  | .other v => Any_interfaces key v

/-! ## field.go: the encoders over an arbitrary implementation of `Buffer` -/

/-- A call of a method of interface `Buffer`: `Write(p)`, `WriteString(s)` or
`WriteByte(c)`. -/
inductive BufferCall where
  | Write (p : List Nat) : BufferCall
  | WriteString (s : List Nat) : BufferCall
  | WriteByte (c : Nat) : BufferCall
  deriving DecidableEq

/-- The sink `Buffer` of this development as an implementation of the interface:
one method call on it. -/
def Buffer.call (w : Buffer) : BufferCall → Buffer × Status
  | .Write p => w.Write p
  | .WriteString s => w.WriteString s
  | .WriteByte c => w.WriteByte c

/-- Function `appendJsonStringBuf`, for an arbitrary implementation of interface
`Buffer`: `σ` is the state of the sink and `call` performs one method call on it,
giving the new state and the returned error. -/
def appendJsonStringBuf_on {σ : Type} (call : σ → BufferCall → σ × Status) (w : σ)
    (s : List Nat) : σ × Status :=
  call w (.Write (appendString [] s false))

/-- The call `fmt.Fprintf(w, "%#0*x", width, v)`, for an arbitrary implementation
of interface `Buffer`. -/
def Fprintf_sharp0x_on {σ : Type} (call : σ → BufferCall → σ × Status) (w : σ)
    (width : Nat) (v : Nat) : σ × Status :=
  call w (.Write ([0x30, 0x78] ++ hexDigitsPadded width v))

/-- The loop of the streaming encoder's `Write`, for an arbitrary implementation
of interface `Buffer`. -/
def base64EncoderWrite_on {σ : Type} (call : σ → BufferCall → σ × Status) :
    Nat → σ → List Nat → σ × Status × List Nat
  | 0, w, p => (w, Status.nil, p)
  | fuel + 1, w, p =>
    if p.length ≥ 3 then
      let nn := if 768 > p.length then p.length - p.length % 3 else 768
      match call w (.Write (base64RawStdEncode (p.take nn))) with
      | (w1, Status.nil) => base64EncoderWrite_on call fuel w1 (p.drop nn)
      | (w1, e) => (w1, e, p.drop nn)
    else (w, Status.nil, p)

/-- Method `Close` of the streaming encoder, for an arbitrary implementation of
interface `Buffer`. -/
def base64EncoderClose_on {σ : Type} (call : σ → BufferCall → σ × Status) (w : σ)
    (buf : List Nat) : σ × Status :=
  if buf.length > 0 then call w (.Write (base64RawStdEncode buf)) else (w, Status.nil)

/-- Method `BinaryContent.EncodeJSON`, for an arbitrary implementation of
interface `Buffer`. -/
def BinaryContent_EncodeJSON_on {σ : Type} (call : σ → BufferCall → σ × Status)
    (binaryRaw : List Nat) (buffer : σ) : σ × Status :=
  match call buffer (.WriteString
      [0x22, 0x64, 0x61, 0x74, 0x61, 0x3A, 0x3B, 0x62, 0x61, 0x73, 0x65, 0x36, 0x34, 0x2C]) with
  | (b1, Status.nil) =>
    match base64EncoderWrite_on call binaryRaw.length b1 binaryRaw with
    | (b2, Status.nil, rest) =>
      match base64EncoderClose_on call b2 rest with
      | (b3, Status.nil) => call b3 (.WriteByte 0x22)
      | (b3, e) => (b3, e)
    | (b2, e, _) => (b2, e)
  | (b1, e) => (b1, e)

/-- Method `ErrorContent.EncodeJSON`, for an arbitrary implementation of
interface `Buffer`. -/
def ErrorContent_EncodeJSON_on {σ : Type} (call : σ → BufferCall → σ × Status)
    (data : Option GoError) (buffer : σ) : σ × Status :=
  match data with
  | none => call buffer (.Write [0x6E, 0x75, 0x6C, 0x6C])
  | some e =>
    match asJsonErrMarshaler_MarshalJSON e with
    | (content, Status.nil) => call buffer (.Write content)
    | (_, err) => (buffer, err)

mutual
/-- Method `EncodeJSON` of each implementation of `Content`, for an arbitrary
implementation of interface `Buffer`. -/
def Content.EncodeJSON_on {σ : Type} (call : σ → BufferCall → σ × Status) :
    Content → σ → σ × Status
  | .ArrayContent arrayRaw, buffer =>
    match call buffer (.WriteByte 0x5B) with
    | (b1, Status.nil) =>
      match ArrayContent_loop_on call arrayRaw 0 b1 with
      | (b2, Status.nil) => call b2 (.WriteByte 0x5D)
      | (b2, e) => (b2, e)
    | (b1, e) => (b1, e)
  | .NilContent, buffer => call buffer (.Write [0x6E, 0x75, 0x6C, 0x6C])
  | .JSONContent jsonRaw, buffer => call buffer (.Write jsonRaw)
  | .BinaryContent binaryRaw, buffer => BinaryContent_EncodeJSON_on call binaryRaw buffer
  | .BoolContent f, buffer =>
    if f then call buffer (.Write [0x74, 0x72, 0x75, 0x65])
    else call buffer (.Write [0x66, 0x61, 0x6C, 0x73, 0x65])
  | .Complex128Content f, buffer => appendJsonStringBuf_on call buffer f.text
  | .Complex64Content f, buffer => appendJsonStringBuf_on call buffer f.text
  | .ErrorContent data, buffer => ErrorContent_EncodeJSON_on call data buffer
  | .Float32Content f, buffer => call buffer (.WriteString f.text)
  | .Float64Content f, buffer => call buffer (.WriteString f.text)
  | .IntContent _ data, buffer => call buffer (.WriteString (FormatInt data))
  | .UintContent _ data, buffer => call buffer (.WriteString (FormatUint data))
  | .UintptrContent f, buffer => Fprintf_sharp0x_on call buffer 16 f
  | .StringContent f, buffer => appendJsonStringBuf_on call buffer f
  | .StringerContent data, buffer =>
    match data with
    | none => call buffer (.Write [0x6E, 0x75, 0x6C, 0x6C])
    | some d => appendJsonStringBuf_on call buffer (Sprintf_s d)
  | .TimeContent f, buffer => appendJsonStringBuf_on call buffer f.rfc3339
/-- The `for` loop of `ArrayContent.EncodeJSON` from index `i` on, for an
arbitrary implementation of interface `Buffer`. -/
def ArrayContent_loop_on {σ : Type} (call : σ → BufferCall → σ × Status) :
    List Content → Nat → σ → σ × Status
  | [], _, buffer => (buffer, Status.nil)
  | c :: rest, i, buffer =>
    match (if i > 0 then call buffer (.WriteByte 0x2C) else (buffer, Status.nil)) with
    | (b1, Status.nil) =>
      match c.EncodeJSON_on call b1 with
      | (b2, Status.nil) => ArrayContent_loop_on call rest (i + 1) b2
      | (b2, e) => (b2, e)
    | (b1, e) => (b1, e)
end

/-- Method `Field.EncodeJSON`, for an arbitrary implementation of interface
`Buffer`. -/
def Field.EncodeJSON_on {σ : Type} (call : σ → BufferCall → σ × Status) (f : Field)
    (buffer : σ) : σ × Status :=
  match appendJsonStringBuf_on call buffer f.Key with
  | (b1, Status.nil) =>
    match call b1 (.WriteByte 0x3A) with
    | (b2, Status.nil) =>
      match f.Content with
      | some c => c.EncodeJSON_on call b2
      | none => (b2, Status.panic)
    | (b2, e) => (b2, e)
  | (b1, e) => (b1, e)

/-- The `for` loop of `Fields.EncodeJSON` from index `i` on, for an arbitrary
implementation of interface `Buffer`. -/
def Fields_loop_on {σ : Type} (call : σ → BufferCall → σ × Status) :
    List Field → Nat → σ → σ × Status
  | [], _, buf => (buf, Status.nil)
  | x :: rest, i, buf =>
    match (if i > 0 then call buf (.WriteByte 0x2C) else (buf, Status.nil)) with
    | (b1, Status.nil) =>
      match x.EncodeJSON_on call b1 with
      | (b2, Status.nil) => Fields_loop_on call rest (i + 1) b2
      | (b2, e) => (b2, e)
    | (b1, e) => (b1, e)

/-- Method `Fields.EncodeJSON`, for an arbitrary implementation of interface
`Buffer`. -/
def Fields.EncodeJSON_on {σ : Type} (call : σ → BufferCall → σ × Status) (f : Fields)
    (buf : σ) : σ × Status :=
  let snap := f.Unique
  match call buf (.WriteByte 0x7B) with
  | (b1, Status.nil) =>
    match Fields_loop_on call snap 0 b1 with
    | (b2, Status.nil) => call b2 (.WriteByte 0x7D)
    | (b2, e) => (b2, e)
  | (b1, e) => (b1, e)

/-! ## field.go: the constructors of Content and `Data` -/

/-- Function `NewNilContent`. -/
def NewNilContent : Content := Content.NilContent

/-- Function `NewJSONContent`. -/
def NewJSONContent (val : List Nat) : Content := Content.JSONContent val

/-- Function `NewBinaryContent`. -/
def NewBinaryContent (val : List Nat) : Content := Content.BinaryContent val

/-- Function `NewBoolField`. -/
def NewBoolField (val : Bool) : Content := Content.BoolContent val

/-- Function `NewComplex128Content`. -/
def NewComplex128Content (val : GoComplex) : Content := Content.Complex128Content val

/-- Function `NewComplex64Content`. -/
def NewComplex64Content (val : GoComplex) : Content := Content.Complex64Content val

/-- Function `NewErrorContent`; `val` is `none` for the nil error. -/
def NewErrorContent (val : Option GoError) : Content := Content.ErrorContent val

/-- Function `NewFloat32Content`. -/
def NewFloat32Content (val : GoFloat) : Content := Content.Float32Content val

/-- Function `NewFloat64Content`. -/
def NewFloat64Content (val : GoFloat) : Content := Content.Float64Content val

/-- Function `NewIntContent[T]`. -/
def NewIntContent (T : IntKind) (val : Int) : Content := Content.IntContent T val

/-- Function `NewUintContent[T]`. -/
def NewUintContent (T : UintKind) (val : Nat) : Content := Content.UintContent T val

/-- Function `NewUintptrContent`. -/
def NewUintptrContent (val : Nat) : Content := Content.UintptrContent val

/-- Function `NewStringContent`. -/
def NewStringContent (val : List Nat) : Content := Content.StringContent val

/-- Function `NewByteStringContent`: the conversion `StringContent(val)` of a
byte slice keeps its bytes. -/
def NewByteStringContent (val : List Nat) : Content := Content.StringContent val

/-- Function `NewStringerContent`; `val` is `none` for the nil interface. -/
def NewStringerContent (val : Option GoStringer) : Content := Content.StringerContent val

/-- Function `NewTimeContent`. -/
def NewTimeContent (val : GoTime) : Content := Content.TimeContent val

/-- A value of type `any` as `Data()` returns it, by its dynamic type: the nil
interface, a scalar, a `string`, a `[]byte`, a `json.RawMessage`, a non-nil
`error`, a non-nil `fmt.Stringer`, a `time.Time`, or a `[]any`. -/
inductive DataValue where
  | nil : DataValue
  | bool (v : Bool) : DataValue
  | int (T : IntKind) (v : Int) : DataValue
  | uint (T : UintKind) (v : Nat) : DataValue
  | uintptr (v : Nat) : DataValue
  | float32 (v : GoFloat) : DataValue
  | float64 (v : GoFloat) : DataValue
  | complex64 (v : GoComplex) : DataValue
  | complex128 (v : GoComplex) : DataValue
  | string (v : List Nat) : DataValue
  | bytes (v : List Nat) : DataValue
  | rawMessage (v : List Nat) : DataValue
  | error (v : GoError) : DataValue
  | stringer (v : GoStringer) : DataValue
  | time (v : GoTime) : DataValue
  | anys (v : List DataValue) : DataValue

mutual
/-- Method `Data` of each implementation of `Content`. A nil `error` and a nil
`fmt.Stringer` held by the content are returned as the nil interface. -/
def Content.Data : Content → DataValue
  | .ArrayContent arrayRaw => DataValue.anys (ArrayContent_Data arrayRaw)
  | .NilContent => DataValue.nil
  | .JSONContent jsonRaw => DataValue.rawMessage jsonRaw
  | .BinaryContent binaryRaw => DataValue.bytes binaryRaw
  | .BoolContent f => DataValue.bool f
  | .Complex128Content f => DataValue.complex128 f
  | .Complex64Content f => DataValue.complex64 f
  | .ErrorContent none => DataValue.nil
  | .ErrorContent (some e) => DataValue.error e
  | .Float32Content f => DataValue.float32 f
  | .Float64Content f => DataValue.float64 f
  | .IntContent T data => DataValue.int T data
  | .UintContent T data => DataValue.uint T data
  | .UintptrContent f => DataValue.uintptr f
  | .StringContent f => DataValue.string f
  | .StringerContent none => DataValue.nil
  | .StringerContent (some d) => DataValue.stringer d
  | .TimeContent f => DataValue.time f
/-- The `for` loop of `ArrayContent.Data`: `data[i] = f.arrayRaw[i].Data()` for
every index, in order. -/
def ArrayContent_Data : List Content → List DataValue
  | [] => []
  | c :: rest => c.Data :: ArrayContent_Data rest
end

/-! ## field.go: `Has`, `Get` and `Export` -/

/-- Method `Fields.Has`. -/
def Fields.Has : Fields → List Nat → Bool
  | [], _ => false
  | x :: rest, key => if x.Key = key then true else Fields.Has rest key

/-- Method `Fields.Get`: the returned Field and the returned `bool`. `Field{}`,
the zero Field, has the empty key and a nil `Content`. -/
def Fields.Get : Fields → List Nat → Field × Bool
  | [], _ => (⟨[], none⟩, false)
  | x :: rest, key => if x.Key = key then (x, true) else Fields.Get rest key

/-- A Go `map[string]any`, by its entries: each key of the map has one entry. The
order of the entries is not observable. -/
abbrev GoMap := List (List Nat × DataValue)

/-- The assignment `m[key] = val` on a map: the value of the entry of `key` is
replaced when the map has one, and an entry is added when it has none. -/
def GoMap.assign : GoMap → List Nat → DataValue → GoMap
  | [], key, val => [(key, val)]
  | (k, v) :: rest, key, val =>
    if k = key then (k, val) :: rest else (k, v) :: GoMap.assign rest key val

/-- The lookup `m[key]` on a map: the value of the entry of `key`, if any. -/
def GoMap.lookup : GoMap → List Nat → Option DataValue
  | [], _ => none
  | (k, v) :: rest, key => if k = key then some v else GoMap.lookup rest key

/-- The keys of a map. -/
def GoMap.keys (m : GoMap) : List (List Nat) := m.map Prod.fst

/-- Method `Data` of a Field, promoted from its embedded `Content`: `none` is the
panic of a method call on a nil interface value. -/
def Field.Data (f : Field) : Option DataValue :=
  match f.Content with
  | some c => some c.Data
  | none => none

/-- The `for` loop of `Fields.Export` over the fields not yet visited, with the
map `m` built so far; `none` is a panic. -/
def Export_loop : List Field → GoMap → Option GoMap
  | [], m => some m
  | x :: rest, m =>
    match x.Data with
    | some d => Export_loop rest (GoMap.assign m x.Key d)
    | none => none

/-- Method `Fields.Export`. -/
def Fields.Export (f : Fields) : Option GoMap := Export_loop f []

/-! ## Auxiliary definitions for the statements and proofs -/

/-- The multi-byte part of `DecodeRuneInString`, with the size and the accepted
range of the second byte as parameters. -/
def decodeMulti (sz lo hi s0 : Nat) (rest : List Nat) : Nat × Nat :=
  if (s0 :: rest).length < sz then (RuneError, 1)
  else
    match rest with
    | [] => (RuneError, 1)
    | s1 :: rest1 =>
      if s1 < lo ∨ hi < s1 then (RuneError, 1)
      else if sz ≤ 2 then (((s0 &&& 0x1F) <<< 6) ||| (s1 &&& 0x3F), 2)
      else
        match rest1 with
        | [] => (RuneError, 1)
        | s2 :: rest2 =>
          if s2 < 0x80 ∨ 0xBF < s2 then (RuneError, 1)
          else if sz ≤ 3 then
            (((s0 &&& 0x0F) <<< 12) ||| ((s1 &&& 0x3F) <<< 6) ||| (s2 &&& 0x3F), 3)
          else
            match rest2 with
            | [] => (RuneError, 1)
            | s3 :: _ =>
              if s3 < 0x80 ∨ 0xBF < s3 then (RuneError, 1)
              else
                (((s0 &&& 0x07) <<< 18) ||| ((s1 &&& 0x3F) <<< 12)
                  ||| ((s2 &&& 0x3F) <<< 6) ||| (s3 &&& 0x3F), 4)

/-- A byte that continues a multi-byte encoding. -/
def isCont (b : Nat) : Prop := 0x80 ≤ b ∧ b ≤ 0xBF

/-- One iteration of the loop of `appendString` at the head of the remaining
input `s`: the bytes that reach the output for it and the number of input bytes
consumed. -/
def escStep (escapeHTML : Bool) (s : List Nat) : List Nat × Nat :=
  match s with
  | [] => ([], 0)
  | b :: _ =>
    if b < RuneSelf then
      if htmlSafeSet b || (!escapeHTML && safeSet b) then ([b], 1)
      else (appendEscape [] b, 1)
    else
      let r := DecodeRuneInString (s.take UTFMax)
      if r.1 = RuneError ∧ r.2 = 1 then ([0x5C, 0x75, 0x66, 0x66, 0x66, 0x64], 1)
      else if r.1 = 0x2028 ∨ r.1 = 0x2029 then
        ([0x5C, 0x75, 0x32, 0x30, 0x32, hex.getD (r.1 &&& 0xF) 0], r.2)
      else (s.take r.2, r.2)

/-- The bytes between the quotes that the loop of `appendString` produces for the
input `s`, iteration by iteration. -/
def escBody (escapeHTML : Bool) : Nat → List Nat → List Nat
  | 0, _ => []
  | fuel + 1, s =>
    match s with
    | [] => []
    | b :: t => (escStep escapeHTML (b :: t)).1 ++
        escBody escapeHTML fuel ((b :: t).drop (escStep escapeHTML (b :: t)).2)

/-- The width of the step of the loop of `appendString` at index `i`: `i++` on an
ASCII byte, `i += size` otherwise. -/
def advance (src : List Nat) (i : Nat) : Nat :=
  if src.getD i 0 < RuneSelf then 1
  else
    (DecodeRuneInString (slice src i
      (i + (if src.length - i > UTFMax then UTFMax else src.length - i)))).2

/-- The successive values of the index `i` in the loop of `appendString`, from
`i` on: the positions at which a byte is classified or a rune is decoded. -/
def loopPositions (src : List Nat) : Nat → Nat → List Nat
  | 0, _ => []
  | fuel + 1, i => if i < src.length then i :: loopPositions src fuel (i + advance src i) else []

/-- The bytes that `appendString` puts between the opening and the closing quote
for the input `src`. -/
def appendStringBody (src : List Nat) (escapeHTML : Bool) : List Nat :=
  ((appendString [] src escapeHTML).drop 1).dropLast

/-- The lowercase hexadecimal digit character of a value below 16. -/
def hexDigit (d : Nat) : Nat := if d < 10 then 0x30 + d else 0x61 + (d - 10)

/-- The six bytes of the escape of the replacement character. -/
def escFFFD : List Nat := [0x5C, 0x75, 0x66, 0x66, 0x66, 0x64]

/-- The list `l` contains neither the encoding of U+2028 nor that of U+2029. -/
def NoRawSep (l : List Nat) : Prop :=
  ¬ [0xE2, 0x80, 0xA8] <:+: l ∧ ¬ [0xE2, 0x80, 0xA9] <:+: l

/-- Sequencing of two write steps: `g` runs only when `f` returned a nil error. -/
def seqE (f g : Buffer → Buffer × Status) (w : Buffer) : Buffer × Status :=
  match f w with
  | (b, Status.nil) => g b
  | (b, e) => (b, e)

/-- On every sink that accepts every write, `f` appends the bytes it writes into
a fresh `bytes.Buffer` and returns the status it returns there. -/
def Framing (f : Buffer → Buffer × Status) : Prop :=
  ∀ w : Buffer, w.budget = none →
    f w = (⟨w.data ++ (f bytesBuffer).1.data, none, w.failure⟩, (f bytesBuffer).2)

/-- The bytes that `c.EncodeJSON` writes into a fresh `bytes.Buffer`. -/
def Content.output (c : Content) : List Nat := (c.EncodeJSON bytesBuffer).1.data

/-- The status that `c.EncodeJSON` returns on a fresh `bytes.Buffer`. -/
def Content.status (c : Content) : Status := (c.EncodeJSON bytesBuffer).2

/-- The bytes that `Field.EncodeJSON` writes into a fresh `bytes.Buffer`. -/
def Field.output (x : Field) : List Nat := (x.EncodeJSON bytesBuffer).1.data

/-- The status that `Field.EncodeJSON` returns on a fresh `bytes.Buffer`. -/
def Field.status (x : Field) : Status := (x.EncodeJSON bytesBuffer).2

/-- The loop body shared by `ArrayContent.EncodeJSON` and `Fields.EncodeJSON`: a
comma before every element but the first, then the element. -/
def joinLoop (enc : List (Buffer → Buffer × Status)) : Nat → Buffer → Buffer × Status :=
  match enc with
  | [] => fun _ w => (w, Status.nil)
  | e :: rest => fun i =>
    seqE (fun w => if i > 0 then w.WriteByte 0x2C else (w, Status.nil))
      (seqE e (joinLoop rest (i + 1)))

/-- The relation by which `Fields.Unique` sorts: `b` is not less than `a`. -/
def keyLE (a b : Field) : Prop := decide (stringsCompare b.Key a.Key < 0) = false

instance keyLE_decidable : DecidableRel keyLE :=
  fun a b => inferInstanceAs (Decidable (decide (stringsCompare b.Key a.Key < 0) = false))

/-- The result of the loop of `Fields.Unique` without its accumulator: the fields
of `f` whose key is neither in `seen` nor carried by an earlier field of `f`. -/
def dedupFirst : List Field → List (List Nat) → List Field
  | [], _ => []
  | x :: rest, seen =>
    if x.Key ∈ seen then dedupFirst rest seen else x :: dedupFirst rest (x.Key :: seen)

/-- The 6-bit value of a character of the standard base64 alphabet (RFC 4648):
`A`-`Z` are 0-25, `a`-`z` are 26-51, `0`-`9` are 52-61, `+` is 62 and `/` is 63. -/
def decodeStd (c : Nat) : Nat :=
  if 0x41 ≤ c ∧ c ≤ 0x5A then c - 0x41
  else if 0x61 ≤ c ∧ c ≤ 0x7A then c - 0x61 + 26
  else if 0x30 ≤ c ∧ c ≤ 0x39 then c - 0x30 + 52
  else if c = 0x2B then 62
  else 63

/-- Membership in the standard base64 alphabet: `A`-`Z`, `a`-`z`, `0`-`9`, `+`, `/`. -/
def isStdAlphabet (c : Nat) : Prop :=
  (0x41 ≤ c ∧ c ≤ 0x5A) ∨ (0x61 ≤ c ∧ c ≤ 0x7A) ∨ (0x30 ≤ c ∧ c ≤ 0x39) ∨ c = 0x2B ∨ c = 0x2F

/-- Decoding of unpadded standard base64 (RFC 4648): four characters give three
bytes, a final group of three characters two bytes, a final group of two
characters one byte. -/
def base64RawStdDecode : List Nat → List Nat
  | c0 :: c1 :: c2 :: c3 :: rest =>
    let n := decodeStd c0 * 262144 + decodeStd c1 * 4096 + decodeStd c2 * 64 + decodeStd c3
    [n / 65536, n / 256 % 256, n % 256] ++ base64RawStdDecode rest
  | [c0, c1, c2] =>
    let n := decodeStd c0 * 4096 + decodeStd c1 * 64 + decodeStd c2
    [n / 1024, n / 4 % 256]
  | [c0, c1] =>
    let n := decodeStd c0 * 64 + decodeStd c1
    [n / 16]
  | _ => []

/-- An `error` interface value held in a slice or behind a pointer, as the value
of type `any` that `Any` receives for it: the nil interface, or a value whose
dynamic type implements `error`. -/
def GoValue.ofError : Option GoError → GoValue
  | none => GoValue.nil
  | some e => GoValue.other ⟨some e, none, none, none, none⟩

/-- The elements `s[0], ..., s[n-1]` of a slice of a scalar kind other than
`uint8`, each as a value of type `any`; `none` for every other value. -/
def GoValue.elems : GoValue → Option (List GoValue)
  | .bools v => some (v.map GoValue.bool)
  | .complex128s v => some (v.map GoValue.complex128)
  | .complex64s v => some (v.map GoValue.complex64)
  | .float64s v => some (v.map GoValue.float64)
  | .float32s v => some (v.map GoValue.float32)
  | .ints T v => some (v.map (GoValue.int T))
  | .strings v => some (v.map GoValue.string)
  | .uints .uint8 _ => none
  | .uints T v => some (v.map (GoValue.uint T))
  | .uintptrs v => some (v.map GoValue.uintptr)
  | .times v => some (v.map GoValue.time)
  | .durations v => some (v.map GoValue.duration)
  | .errors v => some (v.map GoValue.ofError)
  | _ => none

/-- The value encoding of a Field: the bytes that `EncodeJSON` of its Content
writes into a fresh `bytes.Buffer`. -/
def Field.valueOutput (x : Field) : List Nat :=
  match x.Content with
  | some c => c.output
  | none => []

/-- The status that `EncodeJSON` of the Content of a Field returns on a fresh
`bytes.Buffer`. -/
def Field.valueStatus (x : Field) : Status :=
  match x.Content with
  | some c => c.status
  | none => Status.panic

/-- The value encoding of the Field that a call returned; a call that panicked
returned no Field and has no bytes. -/
def returnedOutput (r : Option Field) : List Nat :=
  match r with
  | some x => x.valueOutput
  | none => []

/-- The status of the value encoding of the Field that a call returned; a call
that panicked has the status of a panic. -/
def returnedStatus (r : Option Field) : Status :=
  match r with
  | some x => x.valueStatus
  | none => Status.panic

/-- The marshal method call that `Any` makes on a value of another type: none for
a value that implements `error` or `fmt.Stringer`, and otherwise the call of the
method of the first of `json.Marshaler`, `encoding.TextMarshaler` and
`encoding.BinaryMarshaler` that the value implements, if any. -/
def GoOther.called (v : GoOther) : Option GoMarshal :=
  if v.asError.isSome || v.asStringer.isSome then none
  else
    match v.MarshalJSON, v.MarshalText, v.MarshalBinary with
    | some m, _, _ => some m
    | none, some m, _ => some m
    | none, none, m => m

/-- Whether `Any` calls on the value a marshal method that panics. -/
def GoValue.marshalPanics : GoValue → Bool
  | .other v => decide (v.called = some GoMarshal.panics)
  | _ => false

/-- The method calls of a list issued in order on a sink, up to the first one
that returns a non-nil error: that error is returned and no later call is made. -/
def runCalls {σ : Type} (call : σ → BufferCall → σ × Status) :
    List BufferCall → σ → σ × Status
  | [], w => (w, Status.nil)
  | x :: xs, w =>
    match call w x with
    | (w1, Status.nil) => runCalls call xs w1
    | (w1, e) => (w1, e)

/-- Sequencing of two steps on a sink of any implementation: the second runs only
when the first returns a nil error. -/
def seqOn {σ : Type} (f g : σ → σ × Status) (w : σ) : σ × Status :=
  match f w with
  | (b, Status.nil) => g b
  | (b, e) => (b, e)

/-- The calls that the streaming encoder's `Write` issues for the bytes `p`, and
the trailing bytes it leaves buffered. -/
def base64EncoderCalls : Nat → List Nat → List BufferCall × List Nat
  | 0, p => ([], p)
  | fuel + 1, p =>
    if p.length ≥ 3 then
      let nn := if 768 > p.length then p.length - p.length % 3 else 768
      (BufferCall.Write (base64RawStdEncode (p.take nn)) ::
        (base64EncoderCalls fuel (p.drop nn)).1, (base64EncoderCalls fuel (p.drop nn)).2)
    else ([], p)

/-- The calls of `BinaryContent.EncodeJSON`, in order. -/
def BinaryContent_calls (raw : List Nat) : List BufferCall :=
  [BufferCall.WriteString
      [0x22, 0x64, 0x61, 0x74, 0x61, 0x3A, 0x3B, 0x62, 0x61, 0x73, 0x65, 0x36, 0x34, 0x2C]] ++
    (base64EncoderCalls raw.length raw).1 ++
    (if (base64EncoderCalls raw.length raw).2.length > 0 then
      [BufferCall.Write (base64RawStdEncode (base64EncoderCalls raw.length raw).2)] else []) ++
    [BufferCall.WriteByte 0x22]

mutual
/-- The method calls that `c.EncodeJSON` issues on a sink none of whose calls
fails, in order. -/
def Content.calls : Content → List BufferCall
  | .ArrayContent xs =>
    [BufferCall.WriteByte 0x5B] ++ ArrayContent_calls xs 0 ++ [BufferCall.WriteByte 0x5D]
  | .NilContent => [BufferCall.Write [0x6E, 0x75, 0x6C, 0x6C]]
  | .JSONContent raw => [BufferCall.Write raw]
  | .BinaryContent raw => BinaryContent_calls raw
  | .BoolContent f =>
    if f then [BufferCall.Write [0x74, 0x72, 0x75, 0x65]]
    else [BufferCall.Write [0x66, 0x61, 0x6C, 0x73, 0x65]]
  | .Complex128Content f => [BufferCall.Write (appendString [] f.text false)]
  | .Complex64Content f => [BufferCall.Write (appendString [] f.text false)]
  | .ErrorContent none => [BufferCall.Write [0x6E, 0x75, 0x6C, 0x6C]]
  | .ErrorContent (some e) =>
    match asJsonErrMarshaler_MarshalJSON e with
    | (content, Status.nil) => [BufferCall.Write content]
    | _ => []
  | .Float32Content f => [BufferCall.WriteString f.text]
  | .Float64Content f => [BufferCall.WriteString f.text]
  | .IntContent _ data => [BufferCall.WriteString (FormatInt data)]
  | .UintContent _ data => [BufferCall.WriteString (FormatUint data)]
  | .UintptrContent f => [BufferCall.Write ([0x30, 0x78] ++ hexDigitsPadded 16 f)]
  | .StringContent f => [BufferCall.Write (appendString [] f false)]
  | .StringerContent none => [BufferCall.Write [0x6E, 0x75, 0x6C, 0x6C]]
  | .StringerContent (some d) => [BufferCall.Write (appendString [] (Sprintf_s d) false)]
  | .TimeContent f => [BufferCall.Write (appendString [] f.rfc3339 false)]
/-- The calls of the loop of `ArrayContent.EncodeJSON` from index `i` on. -/
def ArrayContent_calls : List Content → Nat → List BufferCall
  | [], _ => []
  | c :: rest, i =>
    (if i > 0 then [BufferCall.WriteByte 0x2C] else []) ++ c.calls ++
      ArrayContent_calls rest (i + 1)
end

/-- The method calls that `Field.EncodeJSON` issues on a sink none of whose calls
fails, for a Field with a non-nil Content. -/
def Field.calls (f : Field) : List BufferCall :=
  [BufferCall.Write (appendString [] f.Key false), BufferCall.WriteByte 0x3A] ++
    (match f.Content with
      | some c => c.calls
      | none => [])

/-- The calls of the loop of `Fields.EncodeJSON` from index `i` on. -/
def Fields_calls : List Field → Nat → List BufferCall
  | [], _ => []
  | x :: rest, i =>
    (if i > 0 then [BufferCall.WriteByte 0x2C] else []) ++ x.calls ++ Fields_calls rest (i + 1)

/-- The method calls that `Fields.EncodeJSON` issues on a sink none of whose
calls fails. -/
def Fields.calls (f : Fields) : List BufferCall :=
  [BufferCall.WriteByte 0x7B] ++ Fields_calls f.Unique 0 ++ [BufferCall.WriteByte 0x7D]

mutual
/-- No error payload of the content holds a JSON-capable error in its unwrap
chain. -/
def Content.noJsonErr : Content → Bool
  | .ArrayContent xs => ArrayContent_noJsonErr xs
  | .ErrorContent (some e) => (errorsAsJsonErr e).isNone
  | _ => true
/-- No error payload of the contents of the list holds a JSON-capable error. -/
def ArrayContent_noJsonErr : List Content → Bool
  | [] => true
  | c :: rest => c.noJsonErr && ArrayContent_noJsonErr rest
end

/-- The bytes that a method call hands to the sink. -/
def BufferCall.bytes : BufferCall → List Nat
  | .Write p => p
  | .WriteString s => s
  | .WriteByte c => [c]

/-- Whether the content is an `ArrayContent`. -/
def Content.isArray : Content → Bool
  | .ArrayContent _ => true
  | _ => false

/-- The value of a digit character: `0`-`9` are 0-9 and `a`-`f` are 10-15. -/
def digitValue (c : Nat) : Option Nat :=
  if 0x30 ≤ c ∧ c ≤ 0x39 then some (c - 0x30)
  else if 0x61 ≤ c ∧ c ≤ 0x66 then some (c - 0x61 + 10)
  else none

/-- Reading of a digit string in the given base, most significant digit first,
continuing from the value `acc`; `none` when a character is not a digit of the
base. -/
def parseDigits (base : Nat) : List Nat → Nat → Option Nat
  | [], acc => some acc
  | c :: t, acc =>
    match digitValue c with
    | some d => if d < base then parseDigits base t (acc * base + d) else none
    | none => none

/-- Reading of an unsigned decimal integer: a non-empty string of decimal digits. -/
def parseUint (s : List Nat) : Option Nat :=
  if s = [] then none else parseDigits 10 s 0

/-- Reading of a signed decimal integer: an optional `-` and an unsigned decimal
integer. -/
def parseInt (s : List Nat) : Option Int :=
  if s.head? = some 0x2D then (parseUint s.tail).map (fun (n : Nat) => -Int.ofNat n)
  else (parseUint s).map (fun (n : Nat) => Int.ofNat n)

/-- The canonical form of an unsigned decimal integer: at least one character,
decimal digits only, and no leading zero except in `0` itself. -/
def isCanonicalUint (s : List Nat) : Prop :=
  s ≠ [] ∧ (∀ c ∈ s, 0x30 ≤ c ∧ c ≤ 0x39) ∧ (s.head? = some 0x30 → s = [0x30])

/-- The canonical form of a signed decimal integer: a canonical unsigned integer,
or `-` followed by a canonical unsigned integer other than `0`. -/
def isCanonicalInt (s : List Nat) : Prop :=
  isCanonicalUint s ∨ ∃ t, s = 0x2D :: t ∧ isCanonicalUint t ∧ t ≠ [0x30]

/-- The number of bits of a signed integer type; `int` has 64 bits on the
platforms with 8-byte pointers. -/
def IntKind.bits : IntKind → Nat
  | .int => 64
  | .int8 => 8
  | .int16 => 16
  | .int32 => 32
  | .int64 => 64

/-- The number of bits of an unsigned integer type; `uint` has 64 bits on the
platforms with 8-byte pointers. -/
def UintKind.bits : UintKind → Nat
  | .uint => 64
  | .uint8 => 8
  | .uint16 => 16
  | .uint32 => 32
  | .uint64 => 64

/-- The values of a signed integer type. -/
def IntKind.inRange (T : IntKind) (v : Int) : Prop :=
  -(2 : Int) ^ (T.bits - 1) ≤ v ∧ v < (2 : Int) ^ (T.bits - 1)

instance IntKind.inRange_decidable (T : IntKind) (v : Int) : Decidable (T.inRange v) :=
  inferInstanceAs (Decidable (-(2 : Int) ^ (T.bits - 1) ≤ v ∧ v < (2 : Int) ^ (T.bits - 1)))

/-- The values of an unsigned integer type. -/
def UintKind.inRange (T : UintKind) (v : Nat) : Prop := v < 2 ^ T.bits

instance UintKind.inRange_decidable (T : UintKind) (v : Nat) : Decidable (T.inRange v) :=
  inferInstanceAs (Decidable (v < 2 ^ T.bits))

/-- The conversion `int64(v)`: the value wrapped to 64 bits, two's complement. -/
def toInt64 (v : Int) : Int := (v + 2 ^ 63) % 2 ^ 64 - 2 ^ 63

/-- The conversion `uint64(v)`: the value wrapped to 64 bits. -/
def toUint64 (v : Nat) : Nat := v % 2 ^ 64

/-- The size in bytes of a `uintptr`, which field.go asks for with `Sizeof`, on
the platforms with 8-byte pointers. -/
def Sizeof_uintptr : Nat := 8

/-- The value of a hexadecimal digit character, in either case. -/
def hexValue (c : Nat) : Option Nat :=
  if 0x30 ≤ c ∧ c ≤ 0x39 then some (c - 0x30)
  else if 0x61 ≤ c ∧ c ≤ 0x66 then some (c - 0x61 + 10)
  else if 0x41 ≤ c ∧ c ≤ 0x46 then some (c - 0x41 + 10)
  else none

/-- The UTF-8 encoding of a code point below 0x10000: one byte below 0x80, two
bytes below 0x800, three bytes otherwise. -/
def utf8Encode (r : Nat) : List Nat :=
  if r < 0x80 then [r]
  else if r < 0x800 then [0xC0 + r / 64, 0x80 + r % 64]
  else [0xE0 + r / 4096, 0x80 + r / 64 % 64, 0x80 + r % 64]

/-- Decoding of the body of a JSON string literal: `\\`, `\"`, `\n`, `\r`, `\t`
and `\u` with four hexadecimal digits are undone, every other byte is kept;
`none` for a quote that is not escaped and for a backslash that begins none of
these escapes. -/
def unescape : List Nat → Option (List Nat)
  | [] => some []
  | b :: t =>
    if b = 0x5C then
      match t with
      | [] => none
      | e :: t1 =>
        if e = 0x5C ∨ e = 0x22 then (unescape t1).map (fun l => e :: l)
        else if e = 0x6E then (unescape t1).map (fun l => 0x0A :: l)
        else if e = 0x72 then (unescape t1).map (fun l => 0x0D :: l)
        else if e = 0x74 then (unescape t1).map (fun l => 0x09 :: l)
        else if e = 0x75 then
          match t1 with
          | h1 :: h2 :: h3 :: h4 :: t2 =>
            match hexValue h1, hexValue h2, hexValue h3, hexValue h4 with
            | some d1, some d2, some d3, some d4 =>
              (unescape t2).map (fun l => utf8Encode (((d1 * 16 + d2) * 16 + d3) * 16 + d4) ++ l)
            | _, _, _, _ => none
          | _ => none
        else none
    else if b = 0x22 then none
    else (unescape t).map (fun l => b :: l)

/-- Decoding of a JSON string literal: the opening and the closing quote are
stripped and the body between them is decoded. -/
def jsonUnquote (s : List Nat) : Option (List Nat) :=
  match s with
  | [] => none
  | q :: rest =>
    if q = 0x22 ∧ rest.getLast? = some 0x22 then unescape rest.dropLast else none

/-- Whether the byte `b`, which is not ASCII, and the bytes `t` after it begin
with a well-formed multi-byte encoding, by the tests of `utf8.ValidString`: `b`
is a valid first byte, the encoding is complete, the second byte is in the range
accepted after `b`, and the third and fourth bytes, when there are any, are
continuation bytes. -/
def seqOK (b : Nat) (t : List Nat) : Bool :=
  decide (first b ≠ 0xF1) && decide ((first b &&& 7) ≤ t.length + 1) &&
    !decide (t.getD 0 0 < (acceptRanges (first b >>> 4)).1 ∨
      (acceptRanges (first b >>> 4)).2 < t.getD 0 0) &&
    (decide ((first b &&& 7) = 2) ||
      (!decide (t.getD 1 0 < 0x80 ∨ 0xBF < t.getD 1 0) &&
        (decide ((first b &&& 7) = 3) || !decide (t.getD 2 0 < 0x80 ∨ 0xBF < t.getD 2 0))))

/-- Whether a byte string is the body of a JSON string literal as far as quotes
and escapes go: no quote that is not escaped, and every backslash begins one of
`\\`, `\"`, `\n`, `\r`, `\t` or `\u` followed by four hexadecimal digits. -/
def escapesOK : List Nat → Bool
  | [] => true
  | b :: t =>
    if b = 0x5C then
      match t with
      | [] => false
      | e :: t1 =>
        if e = 0x5C ∨ e = 0x22 ∨ e = 0x6E ∨ e = 0x72 ∨ e = 0x74 then escapesOK t1
        else if e = 0x75 then
          match t1 with
          | h1 :: h2 :: h3 :: h4 :: t2 =>
            (hexValue h1).isSome && (hexValue h2).isSome && (hexValue h3).isSome &&
              (hexValue h4).isSome && escapesOK t2
          | _ => false
        else false
    else if b = 0x22 then false
    else escapesOK t

/-- Method `Unwrap()` of an error value: the wrapped error, if any. -/
def GoError.Unwrap : GoError → Option GoError
  | .wrap _ inner => some inner
  | _ => none

/-- The unwrap chain of an error: `e`, `Unwrap(e)`, and so on, up to and including
the first error that wraps nothing. -/
def GoError.chain : GoError → List GoError
  | .plain text => [.plain text]
  | .wrap text inner => .wrap text inner :: GoError.chain inner
  | .jsonOk text content => [.jsonOk text content]
  | .jsonFail text err => [.jsonFail text err]

/-- Whether an error value also implements `json.Marshaler` (interface `jsonErr`). -/
def GoError.isJsonErr : GoError → Bool
  | .jsonOk _ _ => true
  | .jsonFail _ _ => true
  | _ => false

/-- What method `MarshalJSON` of an error value returns, for an error that
implements `json.Marshaler`: the bytes and the error. -/
def GoError.MarshalJSON : GoError → Option (List Nat × Status)
  | .jsonOk _ content => some (content, Status.nil)
  | .jsonFail _ err => some ([], Status.err err)
  | _ => none

/-- The last field of a list that carries the key `k`, if any. -/
def lastWithKey : List Field → List Nat → Option Field
  | [], _ => none
  | x :: rest, k =>
    match lastWithKey rest k with
    | some y => some y
    | none => if x.Key = k then some x else none

/-- The bytes `<`, `>` and `&`. -/
def isHTMLByte (b : Nat) : Prop := b = 0x3C ∨ b = 0x3E ∨ b = 0x26

instance isHTMLByte_decidable (b : Nat) : Decidable (isHTMLByte b) :=
  inferInstanceAs (Decidable (b = 0x3C ∨ b = 0x3E ∨ b = 0x26))

/-! ## Facts about the UTF-8 decoder -/

theorem first_lt_iff (a : Nat) : first a < 0xF0 ↔ (0xC2 ≤ a ∧ a ≤ 0xF4) := by
  unfold first
  split_ifs <;> omega

theorem first_lead (a : Nat) (h : first a < 0xF0) :
    0x80 ≤ (acceptRanges (first a >>> 4)).1 ∧ (acceptRanges (first a >>> 4)).2 ≤ 0xBF ∧
    2 ≤ first a &&& 7 ∧ first a &&& 7 ≤ 4 := by
  have h1 := (first_lt_iff a).1 h
  clear h
  unfold first
  split_ifs
  all_goals first | decide | (exfalso; omega)

theorem first_invalid (a : Nat) (h : (0x80 ≤ a ∧ a < 0xC2) ∨ 0xF4 < a) : first a = 0xF1 := by
  unfold first
  split_ifs <;> omega

theorem first_ascii (a : Nat) (ha : a < 0x80) : first a = 0xF0 := by
  unfold first
  simp [ha]

theorem Decode_cons (s0 : Nat) (rest : List Nat) :
    DecodeRuneInString (s0 :: rest) =
      if first s0 ≥ 0xF0 then (if first s0 % 2 = 1 then (RuneError, 1) else (s0, 1))
      else decodeMulti (first s0 &&& 7) (acceptRanges (first s0 >>> 4)).1
        (acceptRanges (first s0 >>> 4)).2 s0 rest := by
  rfl

theorem decodeMulti_take (sz lo hi s0 : Nat) (rest : List Nat) (m : Nat)
    (hsz : 2 ≤ sz ∧ sz ≤ 4) (hm : (decodeMulti sz lo hi s0 rest).2 ≤ m + 1) :
    decodeMulti sz lo hi s0 (rest.take m) = decodeMulti sz lo hi s0 rest := by
  have hs : sz = 2 ∨ sz = 3 ∨ sz = 4 := by omega
  clear hsz
  rcases hs with rfl | rfl | rfl <;>
  rcases rest with _ | ⟨a1, _ | ⟨a2, _ | ⟨a3, r⟩⟩⟩ <;>
  rcases m with _ | _ | _ | m <;>
  simp [decodeMulti] at hm ⊢ <;>
  (split_ifs at hm ⊢ <;>
    first | (with_reducible rfl) | (exfalso; dsimp only at hm; omega))

theorem decodeMulti_size (sz lo hi s0 : Nat) (rest : List Nat) :
    1 ≤ (decodeMulti sz lo hi s0 rest).2 ∧ (decodeMulti sz lo hi s0 rest).2 ≤ 4 ∧
    (decodeMulti sz lo hi s0 rest).2 ≤ rest.length + 1 := by
  rcases rest with _ | ⟨a1, _ | ⟨a2, _ | ⟨a3, r⟩⟩⟩ <;>
  simp only [decodeMulti, List.length] <;>
  (split_ifs <;> (dsimp only; omega))

theorem Decode_size (s : List Nat) (h : s ≠ []) :
    1 ≤ (DecodeRuneInString s).2 ∧ (DecodeRuneInString s).2 ≤ 4 ∧
    (DecodeRuneInString s).2 ≤ s.length := by
  rcases s with _ | ⟨a, rest⟩
  · exact absurd rfl h
  · rw [Decode_cons]
    split_ifs
    · simp
    · simp
    · simpa using decodeMulti_size _ _ _ a rest

theorem Decode_take (s : List Nat) (m : Nat) (hm : (DecodeRuneInString s).2 ≤ m) :
    DecodeRuneInString (s.take m) = DecodeRuneInString s := by
  rcases s with _ | ⟨a, rest⟩
  · simp
  · rcases m with _ | m
    · have := (Decode_size (a :: rest) (by simp)).1
      omega
    · rw [List.take_succ_cons, Decode_cons, Decode_cons]
      rw [Decode_cons] at hm
      by_cases hf : first a ≥ 0xF0
      · simp only [hf, if_true]
      · simp only [hf, if_false] at hm ⊢
        have hl := first_lead a (by omega)
        exact decodeMulti_take _ _ _ a rest m ⟨hl.2.2.1, hl.2.2.2⟩ hm

theorem decodeMulti_append (sz lo hi s0 : Nat) (p q : List Nat) (b : Nat)
    (hsz : 2 ≤ sz ∧ sz ≤ 4) (hlo : 0x80 ≤ lo) (hhi : hi ≤ 0xBF) (hb : ¬ isCont b) :
    (decodeMulti sz lo hi s0 (p ++ b :: q)).2 ≤ p.length + 1 := by
  unfold isCont at hb
  have hs : sz = 2 ∨ sz = 3 ∨ sz = 4 := by omega
  clear hsz
  rcases hs with rfl | rfl | rfl <;>
  rcases p with _ | ⟨a1, _ | ⟨a2, _ | ⟨a3, r⟩⟩⟩ <;>
  simp [decodeMulti] <;>
  (split_ifs <;> first | (exfalso; omega) | (dsimp only; omega))

theorem Decode_append (p q : List Nat) (b : Nat) (hp : p ≠ []) (hb : ¬ isCont b) :
    DecodeRuneInString (p ++ b :: q) = DecodeRuneInString p := by
  have key : (DecodeRuneInString (p ++ b :: q)).2 ≤ p.length := by
    rcases p with _ | ⟨a, rest⟩
    · exact absurd rfl hp
    · rw [List.cons_append, Decode_cons]
      by_cases hf : first a ≥ 0xF0
      · simp only [hf, if_true]
        split_ifs <;> simp
      · simp only [hf, if_false]
        have hl := first_lead a (by omega)
        simpa using decodeMulti_append _ _ _ a rest q b ⟨hl.2.2.1, hl.2.2.2⟩ hl.1 hl.2.1 hb
  have := Decode_take (p ++ b :: q) p.length key
  rw [List.take_left' rfl] at this
  exact this.symm

/-! ## The loop of `appendString` as a function of the remaining input -/

theorem escStep_size (esc : Bool) (s : List Nat) (h : s ≠ []) :
    1 ≤ (escStep esc s).2 ∧ (escStep esc s).2 ≤ s.length := by
  rcases s with _ | ⟨b, t⟩
  · exact absurd rfl h
  · have hd := Decode_size ((b :: t).take UTFMax) (by simp [UTFMax])
    have hl : ((b :: t).take UTFMax).length ≤ (b :: t).length := by
      simp [List.length_take]
    simp only [escStep]
    split_ifs <;> (dsimp only; omega)

theorem escBody_fuel (esc : Bool) (n m : Nat) (s : List Nat) (hn : s.length ≤ n)
    (hm : s.length ≤ m) : escBody esc n s = escBody esc m s := by
  induction n generalizing m s with
  | zero =>
    have : s = [] := List.length_eq_zero.mp (by omega)
    subst this
    cases m <;> rfl
  | succ n ih =>
    rcases s with _ | ⟨b, t⟩
    · cases m <;> rfl
    · rcases m with _ | m
      · simp at hm
      · simp only [escBody]
        have hs := escStep_size esc (b :: t) (by simp)
        have hlen : ((b :: t).drop (escStep esc (b :: t)).2).length ≤ t.length := by
          simp only [List.length_drop, List.length_cons]; omega
        simp only [List.length_cons] at hn hm
        rw [ih m _ (by omega) (by omega)]

theorem slice_self (src : List Nat) (i : Nat) : slice src i i = [] := by
  simp [slice]

theorem slice_extend (src : List Nat) (a i k : Nat) (h : a ≤ i) :
    slice src a (i + k) = slice src a i ++ (src.drop i).take k := by
  unfold slice
  have h1 : i + k - a = (i - a) + k := by omega
  rw [h1, List.take_add, List.drop_drop]
  congr 3
  omega

theorem slice_to_end (src : List Nat) (a i : Nat) (h : src.length ≤ i) :
    slice src a i = src.drop a := by
  unfold slice
  apply List.take_of_length_le
  simp only [List.length_drop]; omega

theorem escBody_nil (esc : Bool) (n : Nat) : escBody esc n [] = [] := by
  cases n <;> rfl

theorem escBody_step (esc : Bool) (n : Nat) (s : List Nat) (hs : s ≠ []) (hn : s.length ≤ n) :
    escBody esc n s = (escStep esc s).1 ++ escBody esc n (s.drop (escStep esc s).2) := by
  rcases s with _ | ⟨b, t⟩
  · exact absurd rfl hs
  · rcases n with _ | n
    · simp at hn
    · have hsz := escStep_size esc (b :: t) (by simp)
      have h0 : escBody esc (n + 1) (b :: t) = (escStep esc (b :: t)).1 ++
          escBody esc n ((b :: t).drop (escStep esc (b :: t)).2) := rfl
      rw [h0]
      congr 1
      apply escBody_fuel
      · simp only [List.length_drop, List.length_cons] at hn ⊢; omega
      · simp only [List.length_drop, List.length_cons] at hn ⊢; omega

theorem drop_eq_cons (src : List Nat) (i : Nat) (hi : i < src.length) :
    src.drop i = src.getD i 0 :: src.drop (i + 1) := by
  rw [List.drop_eq_getElem_cons hi]
  simp [List.getD_eq_getElem?_getD, List.getElem?_eq_getElem hi]

theorem window_eq (src : List Nat) (i : Nat) :
    slice src i (i + (if src.length - i > UTFMax then UTFMax else src.length - i)) =
      (src.drop i).take UTFMax := by
  unfold slice
  split_ifs with h
  · congr 1; omega
  · have h1 : i + (src.length - i) - i = src.length - i := by omega
    rw [h1, List.take_of_length_le (by simp), List.take_of_length_le (by simp; omega)]

theorem appendEscape_eq (dst : List Nat) (b : Nat) :
    appendEscape dst b = dst ++ appendEscape [] b := by
  unfold appendEscape
  split_ifs <;> simp

theorem drop_add_eq (src : List Nat) (i k : Nat) :
    (src.drop i).drop k = src.drop (i + k) := by
  rw [List.drop_drop]

theorem appendStringLoop_spec (src : List Nat) (esc : Bool) :
    ∀ (fuel : Nat) (dst : List Nat) (start i : Nat), start ≤ i → src.length - i ≤ fuel →
      (appendStringLoop src esc fuel dst start i).1 ++
          src.drop (appendStringLoop src esc fuel dst start i).2 =
        dst ++ slice src start i ++ escBody esc src.length (src.drop i) := by
  intro fuel
  induction fuel with
  | zero =>
    intro dst start i hsi hf
    have hi : src.length ≤ i := by omega
    simp only [appendStringLoop, List.drop_of_length_le hi, escBody_nil, List.append_nil,
      slice_to_end src start i hi]
  | succ fuel ih =>
    intro dst start i hsi hf
    by_cases hi : i < src.length
    · have hne : src.drop i ≠ [] := by
        intro h; have := congrArg List.length h; simp at this; omega
      have hstep := escBody_step esc src.length (src.drop i) hne (by simp)
      have hsz := escStep_size esc (src.drop i) hne
      have hcons := drop_eq_cons src i hi
      rw [hstep, drop_add_eq]
      simp only [appendStringLoop, hi, if_true, window_eq]
      generalize hb0 : src.getD i 0 = b at hcons ⊢
      by_cases hb : b < RuneSelf
      · by_cases hsafe : (htmlSafeSet b || (!esc && safeSet b)) = true
        · have hE : escStep esc (src.drop i) = ([b], 1) := by
            rw [hcons]; simp [escStep, hb, hsafe]
          simp only [hb, hsafe, if_true, hE]
          rw [ih dst start (i + 1) (by omega) (by omega), slice_extend src start i 1 hsi, hcons]
          simp
        · have hE : escStep esc (src.drop i) = (appendEscape [] b, 1) := by
            rw [hcons]; simp [escStep, hb, hsafe]
          simp only [hb, hsafe, if_true, if_false, Bool.false_eq_true, hE]
          rw [ih _ (i + 1) (i + 1) le_rfl (by omega), slice_self, appendEscape_eq]
          simp
      · generalize hr : DecodeRuneInString ((src.drop i).take UTFMax) = r at *
        by_cases he : r.1 = RuneError ∧ r.2 = 1
        · have hE : escStep esc (src.drop i) = ([0x5C, 0x75, 0x66, 0x66, 0x66, 0x64], 1) := by
            rw [hcons] at hr ⊢; simp [escStep, hb, hr, he]
          simp only [hb, he, if_false, hE, and_self, if_true]
          rw [ih _ (i + 1) (i + 1) le_rfl (by omega), slice_self]
          simp
        · by_cases hl : r.1 = 0x2028 ∨ r.1 = 0x2029
          · have hE : escStep esc (src.drop i) =
                ([0x5C, 0x75, 0x32, 0x30, 0x32, hex.getD (r.1 &&& 0xF) 0], r.2) := by
              rw [hcons] at hr ⊢; simp [escStep, hb, hr, he, hl]
            rw [hE] at hsz
            simp only [hb, he, hl, if_false, hE, if_true]
            rw [ih _ (i + r.2) (i + r.2) le_rfl (by omega), slice_self]
            simp
          · have hE : escStep esc (src.drop i) = ((src.drop i).take r.2, r.2) := by
              rw [hcons] at hr ⊢; simp [escStep, hb, hr, he, hl]
            rw [hE] at hsz
            simp only [hb, he, hl, if_false, hE]
            rw [ih _ start (i + r.2) (by omega) (by omega), slice_extend src start i r.2 hsi]
            simp
    · have hi2 : src.length ≤ i := by omega
      simp only [appendStringLoop, hi, if_false, List.drop_of_length_le hi2, escBody_nil,
        List.append_nil, slice_to_end src start i hi2]

theorem appendString_eq (dst src : List Nat) (esc : Bool) :
    appendString dst src esc = dst ++ 0x22 :: (escBody esc src.length src ++ [0x22]) := by
  unfold appendString
  have h := appendStringLoop_spec src esc src.length (dst ++ [0x22]) 0 0 le_rfl (by omega)
  simp only [List.drop_zero, slice_self, List.append_nil] at h
  simp only [h]
  simp

/-! ## Composition of the loop over the input -/

theorem body_step (esc : Bool) (s : List Nat) (hs : s ≠ []) :
    escBody esc s.length s =
      (escStep esc s).1 ++ escBody esc (s.drop (escStep esc s).2).length
        (s.drop (escStep esc s).2) := by
  rw [escBody_step esc s.length s hs le_rfl]
  congr 1
  apply escBody_fuel
  · simp
  · exact le_rfl

theorem Decode_take4 (s : List Nat) :
    DecodeRuneInString (s.take UTFMax) = DecodeRuneInString s := by
  by_cases hs : s = []
  · subst hs; simp
  · exact Decode_take s UTFMax (Decode_size s hs).2.1

theorem escStep_append (esc : Bool) (p q : List Nat) (b : Nat) (hp : p ≠ []) (hb : ¬ isCont b) :
    escStep esc (p ++ b :: q) = escStep esc p := by
  rcases p with _ | ⟨a, t⟩
  · exact absurd rfl hp
  · have h1 : DecodeRuneInString (((a :: t) ++ b :: q).take UTFMax) =
        DecodeRuneInString ((a :: t).take UTFMax) := by
      rw [Decode_take4, Decode_append _ _ _ hp hb, Decode_take4]
    have h2 := (Decode_size ((a :: t).take UTFMax) (by simp [UTFMax])).2.2
    have h3 : (DecodeRuneInString ((a :: t).take UTFMax)).2 ≤ (a :: t).length := by
      have : ((a :: t).take UTFMax).length ≤ (a :: t).length := by simp [List.length_take]
      omega
    have h4 : ((a :: t) ++ b :: q).take (DecodeRuneInString ((a :: t).take UTFMax)).2 =
        (a :: t).take (DecodeRuneInString ((a :: t).take UTFMax)).2 :=
      List.take_append_of_le_length h3
    rw [List.cons_append] at h1 h4 ⊢
    simp only [escStep, h1, h4]

theorem body_append (esc : Bool) (b : Nat) (q : List Nat) (hb : ¬ isCont b) :
    ∀ (n : Nat) (p : List Nat), p.length ≤ n →
      escBody esc (p ++ b :: q).length (p ++ b :: q) =
        escBody esc p.length p ++ escBody esc (b :: q).length (b :: q) := by
  intro n
  induction n with
  | zero =>
    intro p hp
    have : p = [] := List.length_eq_zero.mp (by omega)
    subst this
    simp [escBody_nil]
  | succ n ih =>
    intro p hp
    by_cases hp0 : p = []
    · subst hp0; simp [escBody_nil]
    · have hs := escStep_size esc p hp0
      rw [body_step esc (p ++ b :: q) (by simp), body_step esc p hp0,
        escStep_append esc p q b hp0 hb, List.drop_append_of_le_length hs.2,
        ih (p.drop (escStep esc p).2) (by simp only [List.length_drop]; omega)]
      simp

theorem escStep_take (esc : Bool) (s : List Nat) (m : Nat) (hm : (escStep esc s).2 ≤ m) :
    escStep esc (s.take m) = escStep esc s := by
  rcases s with _ | ⟨a, t⟩
  · simp
  · rcases m with _ | m
    · have := (escStep_size esc (a :: t) (by simp)).1
      omega
    · by_cases ha : a < RuneSelf
      · simp [escStep, ha]
      · have hr : (DecodeRuneInString ((a :: t).take UTFMax)).2 ≤ m + 1 := by
          have hd := (Decode_size ((a :: t).take UTFMax) (by simp [UTFMax])).1
          simp only [escStep, ha, if_false] at hm
          split_ifs at hm <;> (dsimp only at hm; omega)
        have h1 : DecodeRuneInString (((a :: t).take (m + 1)).take UTFMax) =
            DecodeRuneInString ((a :: t).take UTFMax) := by
          rw [List.take_take, Nat.min_comm, ← List.take_take, Decode_take _ _ hr]
        have h4 : ((a :: t).take (m + 1)).take (DecodeRuneInString ((a :: t).take UTFMax)).2 =
            (a :: t).take (DecodeRuneInString ((a :: t).take UTFMax)).2 := by
          rw [List.take_take, Nat.min_eq_left hr]
        rw [List.take_succ_cons] at h1 h4 ⊢
        simp only [escStep, h1, h4]

theorem advance_eq (esc : Bool) (src : List Nat) (i : Nat) (hi : i < src.length) :
    advance src i = (escStep esc (src.drop i)).2 := by
  unfold advance
  rw [window_eq, drop_eq_cons src i hi]
  generalize src.getD i 0 = b
  simp only [escStep]
  split_ifs <;> simp_all

theorem body_at_position (esc : Bool) (src : List Nat) :
    ∀ (fuel i j : Nat), j ∈ loopPositions src fuel i →
      i ≤ j ∧ j < src.length ∧
      escBody esc (src.drop i).length (src.drop i) =
        escBody esc (slice src i j).length (slice src i j) ++
          escBody esc (src.drop j).length (src.drop j) := by
  intro fuel
  induction fuel with
  | zero => intro i j h; simp [loopPositions] at h
  | succ fuel ih =>
    intro i j h
    simp only [loopPositions] at h
    split_ifs at h with hi
    · rcases List.mem_cons.mp h with rfl | h
      · simp [slice_self, escBody_nil, hi]
      · obtain ⟨h1, h2, h3⟩ := ih _ _ h
        have hne : src.drop i ≠ [] := by
          intro h; have := congrArg List.length h; simp at this; omega
        have hsz := escStep_size esc (src.drop i) hne
        rw [advance_eq esc src i hi] at h1 h3
        refine ⟨by omega, h2, ?_⟩
        have hsl : slice src i j ≠ [] := by
          intro h; have := congrArg List.length h
          simp [slice, List.length_take] at this; omega
        have ht : escStep esc (slice src i j) = escStep esc (src.drop i) := by
          unfold slice; exact escStep_take esc _ _ (by omega)
        have hd : (slice src i j).drop (escStep esc (src.drop i)).2 =
            slice src (i + (escStep esc (src.drop i)).2) j := by
          unfold slice
          rw [List.drop_take, drop_add_eq]
          congr 1; omega
        rw [body_step esc (src.drop i) hne, body_step esc (slice src i j) hsl, ht, hd,
          drop_add_eq, h3]
        simp
    · simp at h

theorem appendStringBody_eq (src : List Nat) (esc : Bool) :
    appendStringBody src esc = escBody esc src.length src := by
  unfold appendStringBody
  rw [appendString_eq]
  simp [List.dropLast_concat]

theorem appendString_quotes (dst src : List Nat) (esc : Bool) :
    appendString dst src esc = dst ++ [0x22] ++ appendStringBody src esc ++ [0x22] := by
  rw [appendStringBody_eq, appendString_eq]
  simp

theorem body_cons_ascii (esc : Bool) (b : Nat) (q : List Nat) (hb : b < RuneSelf) :
    escBody esc (b :: q).length (b :: q) =
      (if htmlSafeSet b || (!esc && safeSet b) then [b] else appendEscape [] b) ++
        escBody esc q.length q := by
  rw [body_step esc (b :: q) (by simp)]
  have hE : escStep esc (b :: q) =
      (if htmlSafeSet b || (!esc && safeSet b) then [b] else appendEscape [] b, 1) := by
    simp only [escStep, hb, if_true]
    split_ifs <;> rfl
  rw [hE]
  simp

theorem not_isCont_of_lt (b : Nat) (hb : b < RuneSelf) : ¬ isCont b := by
  unfold isCont; unfold RuneSelf at hb; omega

theorem appendStringBody_ascii (esc : Bool) (p q : List Nat) (b : Nat) (hb : b < RuneSelf) :
    appendStringBody (p ++ b :: q) esc =
      appendStringBody p esc ++
        (if htmlSafeSet b || (!esc && safeSet b) then [b] else appendEscape [] b) ++
        appendStringBody q esc := by
  simp only [appendStringBody_eq]
  rw [body_append esc b q (not_isCont_of_lt b hb) p.length p le_rfl, body_cons_ascii esc b q hb]
  simp

theorem hex_getD (d : Nat) (hd : d < 16) : hex.getD d 0 = hexDigit d := by
  interval_cases d <;> rfl

theorem control_escape (b : Nat) (hb : b < 0x20) (h1 : b ≠ 0x0A) (h2 : b ≠ 0x0D)
    (h3 : b ≠ 0x09) (esc : Bool) :
    (if htmlSafeSet b || (!esc && safeSet b) then [b] else appendEscape [] b) =
      [0x5C, 0x75, 0x30, 0x30, hexDigit (b / 16), hexDigit (b % 16)] := by
  interval_cases b <;> first | (exfalso; omega) | (cases esc <;> rfl)

/-! ## The string encoder: claims C7 to C10 -/

/-- C7, counterexample: `appendJsonStringBuf`, the encoder of keys and of string
contents, writes the one-byte string `<` as the three bytes `"<"`: the byte `<`
appears raw and is not replaced by a Unicode escape. -/
theorem appendJsonStringBuf_lt_raw :
    (appendJsonStringBuf bytesBuffer [0x3C]).1.data = [0x22, 0x3C, 0x22] ∧
    (Content.EncodeJSON (Content.StringContent [0x3C]) bytesBuffer).1.data = [0x22, 0x3C, 0x22] ∧
    (Field.EncodeJSON ⟨[0x3C], some Content.NilContent⟩ bytesBuffer).1.data =
      [0x22, 0x3C, 0x22, 0x3A, 0x6E, 0x75, 0x6C, 0x6C] := by
  decide

/-- C7, amended: `appendJsonStringBuf` (used by `StringContent.EncodeJSON` and for
the key by `Field.EncodeJSON`) calls `appendString` with `escapeHTML = false`, and
in that mode every occurrence of `<`, `>` and `&` is copied to the output
unchanged. -/
theorem appendJsonStringBuf_html_raw (w : Buffer) (s p q : List Nat) (b : Nat)
    (hb : b = 0x3C ∨ b = 0x3E ∨ b = 0x26) :
    appendJsonStringBuf w s = w.Write ([0x22] ++ appendStringBody s false ++ [0x22]) ∧
    Content.EncodeJSON (Content.StringContent s) w = appendJsonStringBuf w s ∧
    appendStringBody (p ++ b :: q) false =
      appendStringBody p false ++ [b] ++ appendStringBody q false := by
  refine ⟨?_, ?_, ?_⟩
  · unfold appendJsonStringBuf
    rw [appendString_quotes]
    simp
  · simp [Content.EncodeJSON]
  · have hlt : b < RuneSelf := by unfold RuneSelf; omega
    rw [appendStringBody_ascii false p q b hlt]
    rcases hb with rfl | rfl | rfl <;> rfl

/-- Witness of `appendJsonStringBuf_html_raw` at the string `a<b`. -/
theorem appendJsonStringBuf_html_raw_witness :
    (0x3C = 0x3C ∨ 0x3C = 0x3E ∨ 0x3C = 0x26) ∧
    appendStringBody ([0x61] ++ 0x3C :: [0x62]) false =
      appendStringBody [0x61] false ++ [0x3C] ++ appendStringBody [0x62] false :=
  ⟨by decide,
    (appendJsonStringBuf_html_raw bytesBuffer [] [0x61] [0x62] 0x3C (by decide)).2.2⟩

/-- C8: in either mode `appendString` emits the opening and the closing quote, and
every occurrence of an ASCII byte of the following kinds is mapped as stated:
backslash to `\\`, quote to `\"`, 0x0A to `\n`, 0x0D to `\r`, 0x09 to `\t`, and any
other byte below 0x20 to `\u00` followed by its two lowercase hexadecimal digits. -/
theorem appendString_ascii_escapes (dst src p q : List Nat) (escapeHTML : Bool) :
    appendString dst src escapeHTML =
      dst ++ [0x22] ++ appendStringBody src escapeHTML ++ [0x22] ∧
    appendStringBody (p ++ 0x5C :: q) escapeHTML =
      appendStringBody p escapeHTML ++ [0x5C, 0x5C] ++ appendStringBody q escapeHTML ∧
    appendStringBody (p ++ 0x22 :: q) escapeHTML =
      appendStringBody p escapeHTML ++ [0x5C, 0x22] ++ appendStringBody q escapeHTML ∧
    appendStringBody (p ++ 0x0A :: q) escapeHTML =
      appendStringBody p escapeHTML ++ [0x5C, 0x6E] ++ appendStringBody q escapeHTML ∧
    appendStringBody (p ++ 0x0D :: q) escapeHTML =
      appendStringBody p escapeHTML ++ [0x5C, 0x72] ++ appendStringBody q escapeHTML ∧
    appendStringBody (p ++ 0x09 :: q) escapeHTML =
      appendStringBody p escapeHTML ++ [0x5C, 0x74] ++ appendStringBody q escapeHTML ∧
    (∀ b : Nat, b < 0x20 → b ≠ 0x0A → b ≠ 0x0D → b ≠ 0x09 →
      appendStringBody (p ++ b :: q) escapeHTML =
        appendStringBody p escapeHTML ++
          [0x5C, 0x75, 0x30, 0x30, hexDigit (b / 16), hexDigit (b % 16)] ++
          appendStringBody q escapeHTML) ∧
    appendStringBody [0x08, 0x0C, 0x1F] escapeHTML =
      [0x5C, 0x75, 0x30, 0x30, 0x30, 0x38, 0x5C, 0x75, 0x30, 0x30, 0x30, 0x63,
       0x5C, 0x75, 0x30, 0x30, 0x31, 0x66] := by
  refine ⟨appendString_quotes dst src escapeHTML, ?_, ?_, ?_, ?_, ?_, ?_, ?_⟩
  · rw [appendStringBody_ascii escapeHTML p q _ (by decide)]
    cases escapeHTML <;> rfl
  · rw [appendStringBody_ascii escapeHTML p q _ (by decide)]
    cases escapeHTML <;> rfl
  · rw [appendStringBody_ascii escapeHTML p q _ (by decide)]
    cases escapeHTML <;> rfl
  · rw [appendStringBody_ascii escapeHTML p q _ (by decide)]
    cases escapeHTML <;> rfl
  · rw [appendStringBody_ascii escapeHTML p q _ (by decide)]
    cases escapeHTML <;> rfl
  · intro b hb h1 h2 h3
    rw [appendStringBody_ascii escapeHTML p q b (by unfold RuneSelf; omega),
      control_escape b hb h1 h2 h3]
  · cases escapeHTML <;> decide

/-- Witness of `appendString_ascii_escapes` at the control byte 0x1F inside `a?b`. -/
theorem appendString_ascii_escapes_witness :
    appendStringBody ([0x61] ++ 0x1F :: [0x62]) true =
      appendStringBody [0x61] true ++
        [0x5C, 0x75, 0x30, 0x30, hexDigit (0x1F / 16), hexDigit (0x1F % 16)] ++
        appendStringBody [0x62] true :=
  (appendString_ascii_escapes [] [] [0x61] [0x62] true).2.2.2.2.2.2.1 0x1F
    (by decide) (by decide) (by decide) (by decide)

theorem escStep_fail (esc : Bool) (b : Nat) (t : List Nat) (hb : ¬ b < RuneSelf)
    (hf : DecodeRuneInString (b :: t) = (RuneError, 1)) :
    escStep esc (b :: t) = (escFFFD, 1) := by
  have h := Decode_take4 (b :: t)
  rw [hf] at h
  simp only [escStep, hb, if_false, h, and_self, if_true]
  rfl

theorem body_all_cont (esc : Bool) (l : List Nat) (hl : ∀ c ∈ l, isCont c) :
    escBody esc l.length l = (List.replicate l.length escFFFD).flatten := by
  induction l with
  | nil => simp [escBody_nil]
  | cons c l ih =>
    have hc := hl c (List.mem_cons_self _ _)
    unfold isCont at hc
    have hf : DecodeRuneInString (c :: l) = (RuneError, 1) := by
      rw [Decode_cons, first_invalid c (Or.inl ⟨hc.1, by omega⟩)]
      rfl
    rw [body_step esc (c :: l) (by simp),
      escStep_fail esc c l (by unfold RuneSelf; omega) hf]
    simp only [List.drop_succ_cons, List.drop_zero, List.length_cons, List.replicate_succ,
      List.flatten_cons]
    rw [ih (fun x hx => hl x (List.mem_cons_of_mem _ hx))]

theorem body_split_at (esc : Bool) (src : List Nat) (i : Nat)
    (hpos : i ∈ loopPositions src src.length 0) :
    i < src.length ∧
    escBody esc src.length src =
      escBody esc (src.take i).length (src.take i) ++
        escBody esc (src.drop i).length (src.drop i) := by
  obtain ⟨_, h2, h3⟩ := body_at_position esc src src.length 0 i hpos
  refine ⟨h2, ?_⟩
  simpa [slice] using h3

/-- C9: at every position `i` that the loop of `appendString` reaches and where
UTF-8 decoding fails (the byte is at least 0x80 and `DecodeRuneInString` on the
remaining input returns `(RuneError, 1)`), the six bytes of the escape of U+FFFD (`escFFFD`) are emitted in
place of exactly that byte and encoding resumes at the next byte. When the input
ends in a truncated multi-byte sequence starting at `i` (a lead byte followed by
fewer continuation bytes than its encoding needs), one such escape is emitted for
each remaining byte. -/
theorem appendString_invalid_utf8 (src : List Nat) (escapeHTML : Bool) (i : Nat)
    (hpos : i ∈ loopPositions src src.length 0) :
    (0x80 ≤ src.getD i 0 → DecodeRuneInString (src.drop i) = (RuneError, 1) →
      appendStringBody src escapeHTML =
        appendStringBody (src.take i) escapeHTML ++ escFFFD ++
          appendStringBody (src.drop (i + 1)) escapeHTML) ∧
    (first (src.getD i 0) < 0xF0 → src.length - i < first (src.getD i 0) &&& 7 →
      (∀ c ∈ src.drop (i + 1), 0x80 ≤ c ∧ c ≤ 0xBF) →
      appendStringBody src escapeHTML =
        appendStringBody (src.take i) escapeHTML ++
          (List.replicate (src.length - i) escFFFD).flatten) := by
  obtain ⟨hi, hsplit⟩ := body_split_at escapeHTML src i hpos
  have hcons := drop_eq_cons src i hi
  simp only [appendStringBody_eq]
  rw [hsplit]
  constructor
  · intro hb hf
    rw [hcons] at hf
    have hE := escStep_fail escapeHTML _ _ (by unfold RuneSelf; omega) hf
    rw [← hcons] at hE
    rw [body_step escapeHTML (src.drop i) (by rw [hcons]; simp), hE, drop_add_eq]
    simp
  · intro hlead hlen hcont
    have hl := (first_lt_iff _).1 hlead
    have hf : DecodeRuneInString (src.getD i 0 :: src.drop (i + 1)) = (RuneError, 1) := by
      rw [Decode_cons]
      have hlen2 : (src.getD i 0 :: src.drop (i + 1)).length < first (src.getD i 0) &&& 7 := by
        simp only [List.length_cons, List.length_drop]; omega
      simp only [ge_iff_le, Nat.not_le.mpr hlead, if_false, decodeMulti, hlen2, if_true]
    have hE := escStep_fail escapeHTML _ _ (by unfold RuneSelf; omega) hf
    rw [← hcons] at hE
    rw [body_step escapeHTML (src.drop i) (by rw [hcons]; simp), hE, drop_add_eq,
      body_all_cont escapeHTML _ hcont]
    have : src.length - i = (src.drop (i + 1)).length + 1 := by
      simp only [List.length_drop]; omega
    rw [this, List.replicate_succ, List.flatten_cons]

/-- Witness of `appendString_invalid_utf8`: the input 0xFF 0xFF at position 1, and
the input `a` 0xE2 0x80, which ends in a truncated three-byte sequence. -/
theorem appendString_invalid_utf8_witness :
    (1 ∈ loopPositions [0xFF, 0xFF] 2 0 ∧ 0x80 ≤ [0xFF, 0xFF].getD 1 0 ∧
      DecodeRuneInString ([0xFF, 0xFF].drop 1) = (RuneError, 1) ∧
      appendStringBody [0xFF, 0xFF] false =
        appendStringBody ([0xFF, 0xFF].take 1) false ++ escFFFD ++
          appendStringBody ([0xFF, 0xFF].drop (1 + 1)) false) ∧
    appendString [] [0xFF, 0xFF] false =
      [0x22, 0x5C, 0x75, 0x66, 0x66, 0x66, 0x64, 0x5C, 0x75, 0x66, 0x66, 0x66, 0x64, 0x22] ∧
    appendStringBody [0x61, 0xE2, 0x80] false =
      appendStringBody ([0x61, 0xE2, 0x80].take 1) false ++
        (List.replicate ([0x61, 0xE2, 0x80].length - 1) escFFFD).flatten :=
  ⟨⟨by decide, by decide, by decide,
    (appendString_invalid_utf8 [0xFF, 0xFF] false 1 (by decide)).1 (by decide) (by decide)⟩,
   by decide,
   (appendString_invalid_utf8 [0x61, 0xE2, 0x80] false 1 (by decide)).2 (by decide) (by decide)
     (by decide)⟩

/-! ## Line and paragraph separators -/

theorem noRawSep_nil : NoRawSep [] := by
  simp [NoRawSep]

theorem noRawSep_cons (x : Nat) (l : List Nat) (hx : x ≠ 0xE2) (h : NoRawSep l) :
    NoRawSep (x :: l) := by
  unfold NoRawSep at h ⊢
  simp only [List.infix_cons_iff, List.cons_prefix_cons]
  refine ⟨?_, ?_⟩
  · rintro (⟨h1, _⟩ | h1)
    · exact hx h1.symm
    · exact h.1 h1
  · rintro (⟨h1, _⟩ | h1)
    · exact hx h1.symm
    · exact h.2 h1

theorem noRawSep_append (c l : List Nat) (hc : ∀ x ∈ c, x ≠ 0xE2) (h : NoRawSep l) :
    NoRawSep (c ++ l) := by
  induction c with
  | nil => simpa using h
  | cons x c ih =>
    rw [List.cons_append]
    exact noRawSep_cons x _ (hc x (List.mem_cons_self _ _))
      (ih (fun y hy => hc y (List.mem_cons_of_mem _ hy)))

theorem noRawSep_E2 (a1 a2 : Nat) (l : List Nat) (h : NoRawSep (a1 :: a2 :: l))
    (hne : ¬ (a1 = 0x80 ∧ (a2 = 0xA8 ∨ a2 = 0xA9))) : NoRawSep (0xE2 :: a1 :: a2 :: l) := by
  unfold NoRawSep at h ⊢
  simp only [List.infix_cons_iff (a := 0xE2), List.cons_prefix_cons]
  refine ⟨?_, ?_⟩
  · rintro (⟨_, h1, h2, _⟩ | h1)
    · exact hne ⟨h1.symm, Or.inl h2.symm⟩
    · exact h.1 h1
  · rintro (⟨_, h1, h2, _⟩ | h1)
    · exact hne ⟨h1.symm, Or.inr h2.symm⟩
    · exact h.2 h1

theorem hex_getD_lt (k : Nat) : hex.getD k 0 < 0x80 := by
  by_cases hk : k < 16
  · interval_cases k <;> decide
  · rw [List.getD_eq_default _ _ (by simp [hex]; omega)]
    decide

theorem appendEscape_lt (b : Nat) (hb : b < 0x80) : ∀ x ∈ appendEscape [] b, x < 0x80 := by
  have h1 := hex_getD_lt (b >>> 4)
  have h2 := hex_getD_lt (b &&& 0xF)
  unfold appendEscape
  generalize hex.getD (b >>> 4) 0 = u at h1
  generalize hex.getD (b &&& 0xF) 0 = v at h2
  split_ifs <;> simp <;> omega

theorem decodeMulti_conts (sz lo hi s0 : Nat) (rest : List Nat)
    (hsz : 2 ≤ sz ∧ sz ≤ 4) (hlo : 0x80 ≤ lo) (hhi : hi ≤ 0xBF) :
    ∀ x ∈ rest.take ((decodeMulti sz lo hi s0 rest).2 - 1), 0x80 ≤ x ∧ x ≤ 0xBF := by
  have hs : sz = 2 ∨ sz = 3 ∨ sz = 4 := by omega
  clear hsz
  rcases hs with rfl | rfl | rfl <;>
  rcases rest with _ | ⟨a1, _ | ⟨a2, _ | ⟨a3, r⟩⟩⟩ <;>
  simp [decodeMulti] <;>
  (split_ifs <;> simp <;> omega)

theorem Decode_E2 (t : List Nat) :
    DecodeRuneInString (0xE2 :: t) = (RuneError, 1) ∨
    ∃ a1 a2 t', t = a1 :: a2 :: t' ∧ (0x80 ≤ a1 ∧ a1 ≤ 0xBF) ∧ (0x80 ≤ a2 ∧ a2 ≤ 0xBF) ∧
      DecodeRuneInString (0xE2 :: t) =
        (((0xE2 &&& 0x0F) <<< 12) ||| ((a1 &&& 0x3F) <<< 6) ||| (a2 &&& 0x3F), 3) := by
  rw [Decode_cons]
  have h1 : first 0xE2 = 0x03 := by decide
  have h2 : (0x03 &&& 7 : Nat) = 3 := by decide
  have h3 : (0x03 >>> 4 : Nat) = 0 := by decide
  simp only [h1, h2, h3]
  rcases t with _ | ⟨a1, _ | ⟨a2, t'⟩⟩
  · left; rfl
  · left
    simp [decodeMulti, acceptRanges]
  · by_cases hb1 : a1 < 0x80 ∨ 0xBF < a1
    · left; simp [decodeMulti, acceptRanges, hb1]
    · by_cases hb2 : a2 < 0x80 ∨ 0xBF < a2
      · left; simp [decodeMulti, acceptRanges, hb1, hb2]
      · right
        refine ⟨a1, a2, t', rfl, by omega, by omega, ?_⟩
        simp [decodeMulti, acceptRanges, hb1, hb2]

theorem escStep_noRawSep (esc : Bool) (s l : List Nat) (h : NoRawSep l) :
    NoRawSep ((escStep esc s).1 ++ l) := by
  rcases s with _ | ⟨b, t⟩
  · simpa [escStep] using h
  · by_cases hb : b < RuneSelf
    · have hb2 : b < 0x80 := hb
      have hE : (escStep esc (b :: t)).1 =
          if htmlSafeSet b || (!esc && safeSet b) then [b] else appendEscape [] b := by
        simp only [escStep, hb, if_true]
        split_ifs <;> rfl
      rw [hE]
      apply noRawSep_append _ _ _ h
      split_ifs
      · intro x hx
        simp only [List.mem_singleton] at hx
        omega
      · intro x hx
        have := appendEscape_lt b hb2 x hx
        omega
    · have h4 := Decode_take4 (b :: t)
      simp only [escStep, hb, if_false, h4]
      split_ifs with h1 h2
      · exact noRawSep_append _ _ (by decide) h
      · apply noRawSep_append _ _ _ h
        intro x hx
        have := hex_getD_lt ((DecodeRuneInString (b :: t)).1 &&& 0xF)
        simp only [List.mem_cons, List.mem_singleton, List.not_mem_nil, or_false] at hx
        rcases hx with rfl | rfl | rfl | rfl | rfl | rfl <;> omega
      · by_cases hE2 : b = 0xE2
        · subst hE2
          rcases Decode_E2 t with hd | ⟨a1, a2, t', rfl, hc1, hc2, hd⟩
          · exact absurd ⟨congrArg Prod.fst hd, congrArg Prod.snd hd⟩ h1
          · rw [hd] at h2 ⊢
            simp only [List.take_succ_cons, List.take_zero, List.cons_append, List.nil_append]
            apply noRawSep_E2
            · exact noRawSep_cons _ _ (by omega) (noRawSep_cons _ _ (by omega) h)
            · rintro ⟨rfl, rfl | rfl⟩
              · exact h2 (Or.inl (by decide))
              · exact h2 (Or.inr (by decide))
        · have hsz := Decode_size (b :: t) (by simp)
          have hk : (b :: t).take (DecodeRuneInString (b :: t)).2 =
              b :: t.take ((DecodeRuneInString (b :: t)).2 - 1) := by
            obtain ⟨k, hk⟩ : ∃ k, (DecodeRuneInString (b :: t)).2 = k + 1 :=
              ⟨(DecodeRuneInString (b :: t)).2 - 1, by omega⟩
            rw [hk]; simp
          rw [hk, List.cons_append]
          apply noRawSep_cons _ _ hE2
          apply noRawSep_append _ _ _ h
          intro x hx
          rw [Decode_cons] at hx
          by_cases hf : first b ≥ 0xF0
          · simp only [hf, if_true] at hx
            split_ifs at hx <;> simp at hx
          · simp only [hf, if_false] at hx
            have hl := first_lead b (by omega)
            have := decodeMulti_conts _ _ _ b t ⟨hl.2.2.1, hl.2.2.2⟩ hl.1 hl.2.1 x hx
            omega

theorem body_noRawSep (esc : Bool) (l : List Nat) (h : NoRawSep l) :
    ∀ (n : Nat) (s : List Nat), s.length ≤ n → NoRawSep (escBody esc s.length s ++ l) := by
  intro n
  induction n with
  | zero =>
    intro s hs
    have : s = [] := List.length_eq_zero.mp (by omega)
    subst this
    simpa [escBody_nil] using h
  | succ n ih =>
    intro s hs
    by_cases hs0 : s = []
    · subst hs0; simpa [escBody_nil] using h
    · have hsz := escStep_size esc s hs0
      rw [body_step esc s hs0, List.append_assoc]
      exact escStep_noRawSep esc s _
        (ih (s.drop (escStep esc s).2) (by simp only [List.length_drop]; omega))

theorem Decode_2028 (c : Nat) (q : List Nat) (hc : c = 0xA8 ∨ c = 0xA9) :
    DecodeRuneInString (0xE2 :: 0x80 :: c :: q) = (0x2000 + (c - 0x80), 3) := by
  rcases hc with rfl | rfl <;> rfl

theorem body_separator (esc : Bool) (p q : List Nat) (c : Nat) (hc : c = 0xA8 ∨ c = 0xA9) :
    appendStringBody (p ++ [0xE2, 0x80, c] ++ q) esc =
      appendStringBody p esc ++ [0x5C, 0x75, 0x32, 0x30, 0x32, hexDigit (c - 0xA0)] ++
        appendStringBody q esc := by
  simp only [appendStringBody_eq]
  have hnc : ¬ isCont 0xE2 := by unfold isCont; omega
  have h4 := Decode_take4 (0xE2 :: 0x80 :: c :: q)
  rw [Decode_2028 c q hc] at h4
  have hE : escStep esc (0xE2 :: 0x80 :: c :: q) =
      ([0x5C, 0x75, 0x32, 0x30, 0x32, hexDigit (c - 0xA0)], 3) := by
    rcases hc with rfl | rfl <;> simp [escStep, h4, RuneSelf, RuneError] <;> rfl
  rw [List.append_assoc, List.cons_append, List.cons_append, List.cons_append, List.nil_append,
    body_append esc 0xE2 (0x80 :: c :: q) hnc p.length p le_rfl,
    body_step esc (0xE2 :: 0x80 :: c :: q) (by simp), hE]
  simp

/-- C10: in either mode every occurrence of U+2028 (bytes E2 80 A8) in the input
is emitted by `appendString` as the six ASCII bytes of its `u2028` escape and every
occurrence of U+2029 (bytes E2 80 A9) as those of its `u2029` escape, and the raw
three-byte encodings never appear in the output. -/
theorem appendString_line_separators (p q s : List Nat) (escapeHTML : Bool) :
    appendStringBody (p ++ [0xE2, 0x80, 0xA8] ++ q) escapeHTML =
      appendStringBody p escapeHTML ++ [0x5C, 0x75, 0x32, 0x30, 0x32, 0x38] ++
        appendStringBody q escapeHTML ∧
    appendStringBody (p ++ [0xE2, 0x80, 0xA9] ++ q) escapeHTML =
      appendStringBody p escapeHTML ++ [0x5C, 0x75, 0x32, 0x30, 0x32, 0x39] ++
        appendStringBody q escapeHTML ∧
    ¬ [0xE2, 0x80, 0xA8] <:+: appendString [] s escapeHTML ∧
    ¬ [0xE2, 0x80, 0xA9] <:+: appendString [] s escapeHTML := by
  refine ⟨body_separator escapeHTML p q 0xA8 (Or.inl rfl),
    body_separator escapeHTML p q 0xA9 (Or.inr rfl), ?_⟩
  have h : NoRawSep (appendString [] s escapeHTML) := by
    rw [appendString_eq, List.nil_append]
    apply noRawSep_cons _ _ (by decide)
    exact body_noRawSep escapeHTML _ (noRawSep_cons _ _ (by decide) noRawSep_nil) s.length s
      le_rfl
  exact h

/-! ## Encoding into a sink that accepts every write -/

theorem Write_accepting (w : Buffer) (p : List Nat) (hw : w.budget = none) :
    w.Write p = (⟨w.data ++ p, none, w.failure⟩, Status.nil) := by
  unfold Buffer.Write
  rw [hw]

theorem framing_Write (p : List Nat) : Framing (fun w => w.Write p) := by
  intro w hw
  show w.Write p = (⟨w.data ++ (bytesBuffer.Write p).1.data, none, w.failure⟩,
    (bytesBuffer.Write p).2)
  rw [Write_accepting w p hw, Write_accepting bytesBuffer p rfl]
  simp [bytesBuffer]

theorem framing_id : Framing (fun w => (w, Status.nil)) := by
  intro w hw
  rcases w with ⟨d, b, f⟩
  simp only at hw
  subst hw
  simp [bytesBuffer]

theorem framing_const (st : Status) : Framing (fun w => (w, st)) := by
  intro w hw
  rcases w with ⟨d, b, f⟩
  simp only at hw
  subst hw
  simp [bytesBuffer]

theorem framing_seqE (f g : Buffer → Buffer × Status) (hf : Framing f) (hg : Framing g) :
    Framing (seqE f g) := by
  intro w hw
  have h1 := hf w hw
  have h2 := hf bytesBuffer rfl
  generalize hF : (f bytesBuffer).1.data = F at h1 h2
  generalize hS : (f bytesBuffer).2 = S at h1 h2
  simp only [bytesBuffer, List.nil_append] at h2
  unfold seqE
  rw [h1]
  have h2' : f bytesBuffer = (⟨F, none, GoError.plain []⟩, S) := h2
  rw [h2']
  cases S with
  | nil =>
    simp only
    rw [hg ⟨w.data ++ F, none, w.failure⟩ rfl, hg ⟨F, none, GoError.plain []⟩ rfl]
    simp
  | err e => simp
  | panic => simp

theorem seqE_bytes (f g : Buffer → Buffer × Status) (hf : Framing f) (hg : Framing g)
    (hs : (f bytesBuffer).2 = Status.nil) :
    (seqE f g bytesBuffer).1.data = (f bytesBuffer).1.data ++ (g bytesBuffer).1.data ∧
    (seqE f g bytesBuffer).2 = (g bytesBuffer).2 := by
  have h2 := hf bytesBuffer rfl
  rw [hs] at h2
  unfold seqE
  rw [h2]
  simp only
  rw [hg _ rfl]
  simp [bytesBuffer]

theorem seqE_fail (f g : Buffer → Buffer × Status) (hs : (f bytesBuffer).2 ≠ Status.nil) :
    seqE f g bytesBuffer = f bytesBuffer := by
  unfold seqE
  rcases h : f bytesBuffer with ⟨b, s⟩
  rw [h] at hs
  cases s with
  | nil => exact absurd rfl hs
  | err e => rfl
  | panic => rfl

theorem EncodeJSON_Array (xs : List Content) :
    Content.EncodeJSON (Content.ArrayContent xs) =
      seqE (fun w => w.WriteByte 0x5B)
        (seqE (ArrayContent_loop xs 0) (fun w => w.WriteByte 0x5D)) := by
  funext w
  simp only [Content.EncodeJSON, seqE]

theorem ArrayContent_loop_cons (c : Content) (rest : List Content) (i : Nat) :
    ArrayContent_loop (c :: rest) i =
      seqE (fun w => if i > 0 then w.WriteByte 0x2C else (w, Status.nil))
        (seqE c.EncodeJSON (ArrayContent_loop rest (i + 1))) := by
  funext w
  simp only [ArrayContent_loop, seqE]

theorem framing_comma (i : Nat) :
    Framing (fun w => if i > 0 then w.WriteByte 0x2C else (w, Status.nil)) := by
  by_cases hi : i > 0
  · simp only [hi, if_true]
    exact framing_Write [0x2C]
  · simp only [hi, if_false]
    exact framing_id

theorem framing_base64EncoderWrite :
    ∀ (fuel : Nat) (p : List Nat) (w : Buffer), w.budget = none →
      base64EncoderWrite fuel w p =
        (⟨w.data ++ (base64EncoderWrite fuel bytesBuffer p).1.data, none, w.failure⟩,
          Status.nil, (base64EncoderWrite fuel bytesBuffer p).2.2) := by
  intro fuel
  induction fuel with
  | zero =>
    intro p w hw
    rcases w with ⟨d, b, f⟩
    simp only at hw
    subst hw
    simp [base64EncoderWrite, bytesBuffer]
  | succ fuel ih =>
    intro p w hw
    simp only [base64EncoderWrite]
    generalize (if 768 > p.length then p.length - p.length % 3 else 768) = nn
    by_cases h3 : p.length ≥ 3
    · simp only [h3, if_true]
      rw [Write_accepting w _ hw, Write_accepting bytesBuffer _ rfl]
      simp only
      rw [ih _ ⟨w.data ++ _, none, w.failure⟩ rfl, ih _ ⟨bytesBuffer.data ++ _, none, _⟩ rfl]
      simp [bytesBuffer]
    · simp only [h3, if_false]
      rcases w with ⟨d, b, f⟩
      simp only at hw
      subst hw
      simp [bytesBuffer]

theorem framing_Binary (raw : List Nat) : Framing (BinaryContent_EncodeJSON raw) := by
  intro w hw
  unfold BinaryContent_EncodeJSON Buffer.WriteString Buffer.WriteByte base64EncoderClose
  rw [Write_accepting w _ hw, Write_accepting bytesBuffer _ rfl]
  simp only
  rw [framing_base64EncoderWrite _ _ ⟨w.data ++ _, none, w.failure⟩ rfl,
    framing_base64EncoderWrite _ _ ⟨bytesBuffer.data ++ _, none, _⟩ rfl]
  simp only
  split_ifs
  · rw [Write_accepting _ _ rfl, Write_accepting _ _ rfl]
    simp only
    rw [Write_accepting _ _ rfl, Write_accepting _ _ rfl]
    simp [bytesBuffer]
  · simp only
    rw [Write_accepting _ _ rfl, Write_accepting _ _ rfl]
    simp [bytesBuffer]

theorem framing_Error (data : Option GoError) : Framing (ErrorContent_EncodeJSON data) := by
  unfold ErrorContent_EncodeJSON
  rcases data with _ | e
  · exact framing_Write _
  · simp only
    rcases asJsonErrMarshaler_MarshalJSON e with ⟨content, s⟩
    cases s with
    | nil => exact framing_Write content
    | err x => exact framing_const _
    | panic => exact framing_const _

theorem framing_appendJsonStringBuf (s : List Nat) :
    Framing (fun w => appendJsonStringBuf w s) := framing_Write _

mutual
theorem framing_Content : (c : Content) → Framing c.EncodeJSON
  | .ArrayContent xs => by
    rw [EncodeJSON_Array]
    exact framing_seqE _ _ (framing_Write _)
      (framing_seqE _ _ (framing_loop xs 0) (framing_Write _))
  | .NilContent => framing_Write _
  | .JSONContent raw => framing_Write raw
  | .BinaryContent raw => framing_Binary raw
  | .BoolContent f => by
    cases f
    · exact framing_Write _
    · exact framing_Write _
  | .Complex128Content f => framing_Write _
  | .Complex64Content f => framing_Write _
  | .ErrorContent data => framing_Error data
  | .Float32Content f => framing_Write _
  | .Float64Content f => framing_Write _
  | .IntContent _ data => framing_Write _
  | .UintContent _ data => framing_Write _
  | .UintptrContent f => framing_Write _
  | .StringContent f => framing_Write _
  | .StringerContent data => by
    rcases data with _ | d
    · exact framing_Write _
    · exact framing_Write _
  | .TimeContent f => framing_Write _
theorem framing_loop : (xs : List Content) → (i : Nat) → Framing (ArrayContent_loop xs i)
  | [], _ => framing_id
  | c :: rest, i => by
    rw [ArrayContent_loop_cons]
    exact framing_seqE _ _ (framing_comma i)
      (framing_seqE _ _ (framing_Content c) (framing_loop rest (i + 1)))
end

theorem Field_EncodeJSON_eq (x : Field) :
    x.EncodeJSON =
      seqE (fun w => appendJsonStringBuf w x.Key)
        (seqE (fun w => w.WriteByte 0x3A)
          (fun w => match x.Content with
            | some c => c.EncodeJSON w
            | none => (w, Status.panic))) := by
  funext w
  rcases x with ⟨k, _ | c⟩ <;>
  simp only [Field.EncodeJSON, seqE]

theorem framing_optContent (oc : Option Content) :
    Framing (fun w => match oc with
      | some c => c.EncodeJSON w
      | none => (w, Status.panic)) := by
  rcases oc with _ | c
  · exact framing_const _
  · exact framing_Content c

theorem framing_Field (x : Field) : Framing x.EncodeJSON := by
  rw [Field_EncodeJSON_eq]
  exact framing_seqE _ _ (framing_appendJsonStringBuf _)
    (framing_seqE _ _ (framing_Write _) (framing_optContent _))

theorem Fields_loop_cons (x : Field) (rest : List Field) (i : Nat) :
    Fields_loop (x :: rest) i =
      seqE (fun w => if i > 0 then w.WriteByte 0x2C else (w, Status.nil))
        (seqE x.EncodeJSON (Fields_loop rest (i + 1))) := by
  funext w
  simp only [Fields_loop, seqE]

theorem framing_Fields_loop : ∀ (xs : List Field) (i : Nat), Framing (Fields_loop xs i) := by
  intro xs
  induction xs with
  | nil => intro i; exact framing_id
  | cons x rest ih =>
    intro i
    rw [Fields_loop_cons]
    exact framing_seqE _ _ (framing_comma i) (framing_seqE _ _ (framing_Field x) (ih (i + 1)))

theorem ArrayContent_loop_eq : ∀ (xs : List Content) (i : Nat),
    ArrayContent_loop xs i = joinLoop (xs.map Content.EncodeJSON) i := by
  intro xs
  induction xs with
  | nil => intro i; funext w; rfl
  | cons c rest ih => intro i; rw [ArrayContent_loop_cons, ih]; rfl

theorem Fields_loop_eq : ∀ (xs : List Field) (i : Nat),
    Fields_loop xs i = joinLoop (xs.map Field.EncodeJSON) i := by
  intro xs
  induction xs with
  | nil => intro i; funext w; rfl
  | cons c rest ih => intro i; rw [Fields_loop_cons, ih]; rfl

theorem framing_joinLoop : ∀ (enc : List (Buffer → Buffer × Status)) (i : Nat),
    (∀ e ∈ enc, Framing e) → Framing (joinLoop enc i) := by
  intro enc
  induction enc with
  | nil => intro i _; exact framing_id
  | cons e rest ih =>
    intro i h
    exact framing_seqE _ _ (framing_comma i)
      (framing_seqE _ _ (h e (List.mem_cons_self _ _))
        (ih (i + 1) (fun x hx => h x (List.mem_cons_of_mem _ hx))))

theorem joinLoop_tail : ∀ (enc : List (Buffer → Buffer × Status)) (i : Nat),
    (∀ e ∈ enc, Framing e) → (∀ e ∈ enc, (e bytesBuffer).2 = Status.nil) → 0 < i →
    (joinLoop enc i bytesBuffer).1.data =
        (enc.map (fun e => 0x2C :: (e bytesBuffer).1.data)).flatten ∧
      (joinLoop enc i bytesBuffer).2 = Status.nil := by
  intro enc
  induction enc with
  | nil => intro i _ _ _; exact ⟨rfl, rfl⟩
  | cons e rest ih =>
    intro i hF hok hi
    have hFe := hF e (List.mem_cons_self _ _)
    have hFr : ∀ x ∈ rest, Framing x := fun x hx => hF x (List.mem_cons_of_mem _ hx)
    have hoke := hok e (List.mem_cons_self _ _)
    have hokr : ∀ x ∈ rest, (x bytesBuffer).2 = Status.nil :=
      fun x hx => hok x (List.mem_cons_of_mem _ hx)
    obtain ⟨ih1, ih2⟩ := ih (i + 1) hFr hokr (by omega)
    have hc := framing_comma i
    have hcs : ((fun w : Buffer => if i > 0 then w.WriteByte 0x2C else (w, Status.nil))
        bytesBuffer).2 = Status.nil := by
      simp only [hi, if_true]; rfl
    have hcd : ((fun w : Buffer => if i > 0 then w.WriteByte 0x2C else (w, Status.nil))
        bytesBuffer).1.data = [0x2C] := by
      simp only [hi, if_true]; rfl
    have h1 := seqE_bytes _ _ hFe (framing_joinLoop rest (i + 1) hFr) hoke
    have h2 := seqE_bytes _ (seqE e (joinLoop rest (i + 1))) hc
      (framing_seqE _ _ hFe (framing_joinLoop rest (i + 1) hFr)) hcs
    simp only [joinLoop]
    rw [h2.1, h2.2, h1.1, h1.2, hcd, ih1, ih2]
    simp

theorem intercalate_cons (x : List Nat) (rest : List (List Nat)) :
    List.intercalate [0x2C] (x :: rest) = x ++ (rest.map (fun e => 0x2C :: e)).flatten := by
  induction rest generalizing x with
  | nil => simp [List.intercalate]
  | cons y rest ih =>
    have := ih y
    simp only [List.intercalate, List.intersperse, List.flatten_cons, List.map_cons] at this ⊢
    rw [this]
    simp

theorem joinLoop_zero (enc : List (Buffer → Buffer × Status))
    (hF : ∀ e ∈ enc, Framing e) (hok : ∀ e ∈ enc, (e bytesBuffer).2 = Status.nil) :
    (joinLoop enc 0 bytesBuffer).1.data =
        List.intercalate [0x2C] (enc.map (fun e => (e bytesBuffer).1.data)) ∧
      (joinLoop enc 0 bytesBuffer).2 = Status.nil := by
  rcases enc with _ | ⟨e, rest⟩
  · exact ⟨rfl, rfl⟩
  · have hFe := hF e (List.mem_cons_self _ _)
    have hFr : ∀ x ∈ rest, Framing x := fun x hx => hF x (List.mem_cons_of_mem _ hx)
    have hoke := hok e (List.mem_cons_self _ _)
    have hokr : ∀ x ∈ rest, (x bytesBuffer).2 = Status.nil :=
      fun x hx => hok x (List.mem_cons_of_mem _ hx)
    obtain ⟨t1, t2⟩ := joinLoop_tail rest 1 hFr hokr (by omega)
    have h1 := seqE_bytes _ _ hFe (framing_joinLoop rest 1 hFr) hoke
    have h2 := seqE_bytes (fun w : Buffer => if 0 > 0 then w.WriteByte 0x2C else (w, Status.nil))
      (seqE e (joinLoop rest 1)) (framing_comma 0)
      (framing_seqE _ _ hFe (framing_joinLoop rest 1 hFr)) rfl
    simp only [joinLoop, List.map_cons]
    rw [intercalate_cons, h2.1, h2.2, h1.1, h1.2, t1, t2]
    simp [bytesBuffer, List.map_map, Function.comp_def]

/-! ## Field, array and field-set encoding: claims C1, C5, C6 -/

theorem framing_apply (f : Buffer → Buffer × Status) (hf : Framing f) (w : Buffer)
    (hw : w.budget = none) (out : List Nat) (st : Status)
    (h1 : (f bytesBuffer).1.data = out) (h2 : (f bytesBuffer).2 = st) :
    f w = (⟨w.data ++ out, none, w.failure⟩, st) := by
  rw [hf w hw, h1, h2]

theorem bracket_bytes (l r : Nat) (f : Buffer → Buffer × Status) (hf : Framing f)
    (hs : (f bytesBuffer).2 = Status.nil) :
    (seqE (fun w => w.WriteByte l) (seqE f (fun w => w.WriteByte r)) bytesBuffer).1.data =
        [l] ++ (f bytesBuffer).1.data ++ [r] ∧
      (seqE (fun w => w.WriteByte l) (seqE f (fun w => w.WriteByte r)) bytesBuffer).2 =
        Status.nil := by
  have h1 := seqE_bytes f (fun w => w.WriteByte r) hf (framing_Write [r]) hs
  have h2 := seqE_bytes (fun w => w.WriteByte l) (seqE f (fun w => w.WriteByte r))
    (framing_Write [l]) (framing_seqE _ _ hf (framing_Write [r])) rfl
  rw [h2.1, h2.2, h1.1, h1.2]
  exact ⟨by simp [Buffer.WriteByte, Buffer.Write, bytesBuffer], rfl⟩

/-- C6, counterexample: an array whose only element is an error content whose own
`MarshalJSON` fails. On a `bytes.Buffer`, which accepts every write,
`ArrayContent.EncodeJSON` writes only `[` and returns the error: no `]` follows. -/
theorem ArrayContent_EncodeJSON_failing_element :
    Content.EncodeJSON
        (Content.ArrayContent
          [Content.ErrorContent (some (GoError.jsonFail [0x65] (GoError.plain [0x78])))])
        bytesBuffer =
      (⟨[0x5B], none, GoError.plain []⟩, Status.err (GoError.plain [0x78])) := by
  decide

/-- C6, amended: for every list of Content elements each of whose `EncodeJSON`
returns a nil error, and a sink that accepts every write, `ArrayContent.EncodeJSON`
writes `[`, the elements' encodings in index order separated by single `,` bytes,
and `]`, and returns a nil error; the empty array encodes as `[]`; an element that
is opaque JSON is written verbatim, whatever its bytes. -/
theorem ArrayContent_EncodeJSON_spec (arrayRaw : List Content) (w : Buffer)
    (hw : w.budget = none) (hok : ∀ c ∈ arrayRaw, c.status = Status.nil) :
    Content.EncodeJSON (Content.ArrayContent arrayRaw) w =
      (⟨w.data ++ ([0x5B] ++ List.intercalate [0x2C] (arrayRaw.map Content.output) ++ [0x5D]),
        none, w.failure⟩, Status.nil) ∧
    Content.EncodeJSON (Content.ArrayContent []) w =
      (⟨w.data ++ [0x5B, 0x5D], none, w.failure⟩, Status.nil) ∧
    (∀ p : List Nat, (Content.JSONContent p).output = p ∧
      (Content.JSONContent p).status = Status.nil) := by
  have key : ∀ xs : List Content, (∀ c ∈ xs, c.status = Status.nil) →
      Content.EncodeJSON (Content.ArrayContent xs) w =
        (⟨w.data ++ ([0x5B] ++ List.intercalate [0x2C] (xs.map Content.output) ++ [0x5D]),
          none, w.failure⟩, Status.nil) := by
    intro xs hxs
    have hF : ∀ e ∈ xs.map Content.EncodeJSON, Framing e := by
      intro e he
      obtain ⟨c, _, rfl⟩ := List.mem_map.mp he
      exact framing_Content c
    have hS : ∀ e ∈ xs.map Content.EncodeJSON, (e bytesBuffer).2 = Status.nil := by
      intro e he
      obtain ⟨c, hc, rfl⟩ := List.mem_map.mp he
      exact hxs c hc
    obtain ⟨j1, j2⟩ := joinLoop_zero _ hF hS
    have hb := bracket_bytes 0x5B 0x5D (joinLoop (xs.map Content.EncodeJSON) 0)
      (framing_joinLoop _ 0 hF) j2
    apply framing_apply _ (framing_Content _) w hw
    · rw [EncodeJSON_Array, ArrayContent_loop_eq, hb.1, j1, List.map_map]
      rfl
    · rw [EncodeJSON_Array, ArrayContent_loop_eq, hb.2]
  refine ⟨key arrayRaw hok, ?_, ?_⟩
  · simpa using key [] (by simp)
  · intro p
    exact ⟨rfl, rfl⟩

/-- Witness of `ArrayContent_EncodeJSON_spec`: the array of the opaque JSON
elements `"test1"`, `true`, `undefined` encodes as `["test1",true,undefined]`. -/
theorem ArrayContent_EncodeJSON_spec_witness :
    Content.EncodeJSON
        (Content.ArrayContent [Content.JSONContent (str "\"test1\""),
          Content.JSONContent (str "true"), Content.JSONContent (str "undefined")])
        bytesBuffer =
      (⟨bytesBuffer.data ++ ([0x5B] ++ List.intercalate [0x2C]
          ([Content.JSONContent (str "\"test1\""), Content.JSONContent (str "true"),
            Content.JSONContent (str "undefined")].map Content.output) ++ [0x5D]),
        none, bytesBuffer.failure⟩, Status.nil) ∧
    [0x5B] ++ List.intercalate [0x2C]
        ([Content.JSONContent (str "\"test1\""), Content.JSONContent (str "true"),
          Content.JSONContent (str "undefined")].map Content.output) ++ [0x5D] =
      str "[\"test1\",true,undefined]" :=
  ⟨(ArrayContent_EncodeJSON_spec _ bytesBuffer rfl (by decide)).1, by decide⟩

/-- C5, counterexample: for the key `k` and an error content whose own
`MarshalJSON` fails, `Field.MarshalJSON` returns no bytes and the error, not the
bytes of `Field.EncodeJSON` wrapped in braces. -/
theorem Field_MarshalJSON_failing_content :
    Field.MarshalJSON
        ⟨[0x6B], some (Content.ErrorContent
          (some (GoError.jsonFail [0x65] (GoError.plain [0x78]))))⟩ =
      ([], Status.err (GoError.plain [0x78])) := by
  decide

/-- C5, amended: for every key `k`, Content `c` and sink that accepts every write,
`Field{k, c}.EncodeJSON` writes the string-encoder literal of `k` (the bytes a
string value `k` encodes to), then a single `:`, then exactly the bytes
`c.EncodeJSON` writes, and returns what `c.EncodeJSON` returns; when that is a nil
error, `Field.MarshalJSON` returns those bytes wrapped in `{` and `}`. -/
theorem Field_EncodeJSON_spec (k : List Nat) (c : Content) (w : Buffer)
    (hw : w.budget = none) :
    Field.EncodeJSON ⟨k, some c⟩ w =
      (⟨w.data ++ (appendString [] k false ++ [0x3A] ++ c.output), none, w.failure⟩,
        c.status) ∧
    appendString [] k false = (Content.StringContent k).output ∧
    (c.status = Status.nil →
      Field.MarshalJSON ⟨k, some c⟩ =
        ([0x7B] ++ (appendString [] k false ++ [0x3A] ++ c.output) ++ [0x7D], Status.nil)) := by
  have hk1 : ((fun w => appendJsonStringBuf w k) bytesBuffer).1.data =
      appendString [] k false := rfl
  have hk2 : ((fun w => appendJsonStringBuf w k) bytesBuffer).2 = Status.nil := rfl
  have hE : ∀ w : Buffer, w.budget = none → Field.EncodeJSON ⟨k, some c⟩ w =
      (⟨w.data ++ (appendString [] k false ++ [0x3A] ++ c.output), none, w.failure⟩,
        c.status) := by
    intro w hw
    have hc := framing_Content c
    have h1 := seqE_bytes (fun w => w.WriteByte 0x3A) c.EncodeJSON (framing_Write _) hc rfl
    have h2 := seqE_bytes (fun w => appendJsonStringBuf w k)
      (seqE (fun w => w.WriteByte 0x3A) c.EncodeJSON) (framing_appendJsonStringBuf k)
      (framing_seqE _ _ (framing_Write _) hc) hk2
    apply framing_apply _ (framing_Field _) w hw
    · rw [Field_EncodeJSON_eq]
      simp only
      rw [h2.1, h1.1, hk1]
      simp [Content.output, Buffer.WriteByte, Buffer.Write, bytesBuffer]
    · rw [Field_EncodeJSON_eq]
      simp only
      rw [h2.2, h1.2]
      rfl
  refine ⟨hE w hw, rfl, ?_⟩
  intro hs
  unfold Field.MarshalJSON
  rw [show bytesBuffer.WriteByte 0x7B = (⟨[0x7B], none, GoError.plain []⟩, Status.nil) from rfl]
  simp only
  rw [hE _ rfl, hs]
  simp only
  rw [show ∀ d : List Nat, (⟨d, none, GoError.plain []⟩ : Buffer).WriteByte 0x7D =
    (⟨d ++ [0x7D], none, GoError.plain []⟩, Status.nil) from fun d => rfl]

/-- Witness of `Field_EncodeJSON_spec`: `Bool("case1", true)` encodes as
`"case1":true` and marshals as `{"case1":true}`. -/
theorem Field_EncodeJSON_spec_witness :
    (New.Bool (str "case1") true).EncodeJSON bytesBuffer =
      (⟨str "\"case1\":true", none, GoError.plain []⟩, Status.nil) ∧
    Field.MarshalJSON (New.Bool (str "case1") true) = (str "\x7b\"case1\":true\x7d", Status.nil) ∧
    Field.MarshalJSON ⟨str "case1", some (Content.BoolContent true)⟩ =
      ([0x7B] ++ (appendString [] (str "case1") false ++ [0x3A] ++
        (Content.BoolContent true).output) ++ [0x7D], Status.nil) :=
  ⟨by decide, by decide,
    (Field_EncodeJSON_spec (str "case1") (Content.BoolContent true) bytesBuffer rfl).2.2
      (by decide)⟩

/-! ## Deduplication and sorting: `Fields.Unique` -/

theorem stringsCompare_lt_iff (a b : List Nat) :
    stringsCompare a b < 0 ↔ List.Lex (· < ·) a b := by
  induction a generalizing b with
  | nil =>
    cases b with
    | nil => simp [stringsCompare, List.Lex.not_nil_right]
    | cons b bs => simp [stringsCompare, List.Lex.nil]
  | cons a as ih =>
    cases b with
    | nil => simp [stringsCompare, List.Lex.not_nil_right]
    | cons b bs =>
      simp only [stringsCompare]
      split_ifs with h1 h2
      · exact ⟨fun _ => List.Lex.rel h1, fun _ => by decide⟩
      · constructor
        · intro h; exact absurd h (by decide)
        · intro h
          cases h with
          | cons h => exact absurd h2 (lt_irrefl _)
          | rel h => exact absurd h (by omega)
      · have hab : a = b := by omega
        subst hab
        rw [ih, List.Lex.cons_iff]

theorem stringsCompare_asymm (a b : List Nat) (h : stringsCompare a b < 0) :
    ¬ stringsCompare b a < 0 := by
  rw [stringsCompare_lt_iff] at h ⊢
  exact asymm h

theorem stringsCompare_trans (a b c : List Nat) (h1 : stringsCompare a b < 0)
    (h2 : stringsCompare b c < 0) : stringsCompare a c < 0 := by
  rw [stringsCompare_lt_iff] at h1 h2 ⊢
  exact IsTrans.trans _ _ _ h1 h2

theorem stringsCompare_trichotomy (a b : List Nat) :
    stringsCompare a b < 0 ∨ a = b ∨ stringsCompare b a < 0 := by
  simp only [stringsCompare_lt_iff]
  exact trichotomous a b

theorem keyLE_iff (a b : Field) : keyLE a b ↔ ¬ stringsCompare b.Key a.Key < 0 := by
  unfold keyLE; simp

theorem keyLE_total : IsTotal Field keyLE where
  total a b := by
    rw [keyLE_iff, keyLE_iff]
    by_cases h : stringsCompare b.Key a.Key < 0
    · exact Or.inr (stringsCompare_asymm _ _ h)
    · exact Or.inl h

theorem keyLE_trans : IsTrans Field keyLE where
  trans a b c := by
    rw [keyLE_iff, keyLE_iff, keyLE_iff]
    intro h1 h2 h3
    rcases stringsCompare_trichotomy a.Key b.Key with h | h | h
    · exact h2 (stringsCompare_trans _ _ _ h3 h)
    · rw [h] at h3; exact h2 h3
    · exact h1 h

theorem Unique_loop_eq (f : List Field) (m : List (List Nat)) (acc : List Field) :
    Unique_loop f m acc = acc ++ dedupFirst f m := by
  induction f generalizing m acc with
  | nil => simp [Unique_loop, dedupFirst]
  | cons x rest ih =>
    simp only [Unique_loop, dedupFirst]
    split_ifs
    · exact ih m acc
    · rw [ih]; simp

theorem Unique_eq (f : Fields) : Fields.Unique f = List.insertionSort keyLE (dedupFirst f []) := by
  unfold Fields.Unique sortSliceStable
  rw [Unique_loop_eq]
  rfl

theorem dedupFirst_first (f : List Field) : ∀ (seen : List (List Nat)) (x : Field),
    x ∈ dedupFirst f seen →
      x.Key ∉ seen ∧ f.find? (fun y => decide (y.Key = x.Key)) = some x := by
  induction f with
  | nil => intro seen x h; simp [dedupFirst] at h
  | cons y rest ih =>
    intro seen x h
    simp only [dedupFirst] at h
    split_ifs at h with hy
    · obtain ⟨h1, h2⟩ := ih seen x h
      refine ⟨h1, ?_⟩
      have hne : y.Key ≠ x.Key := fun e => h1 (e ▸ hy)
      simp [List.find?, hne, h2]
    · rcases List.mem_cons.mp h with rfl | h
      · exact ⟨hy, by simp [List.find?]⟩
      · obtain ⟨h1, h2⟩ := ih _ x h
        have hne : y.Key ≠ x.Key := fun e => h1 (by simp [e])
        exact ⟨fun hm => h1 (List.mem_cons_of_mem _ hm), by simp [List.find?, hne, h2]⟩

theorem dedupFirst_keys (f : List Field) : ∀ (seen : List (List Nat)) (k : List Nat),
    k ∈ (dedupFirst f seen).map Field.Key ↔ k ∈ f.map Field.Key ∧ k ∉ seen := by
  induction f with
  | nil => intro seen k; simp [dedupFirst]
  | cons y rest ih =>
    intro seen k
    simp only [dedupFirst]
    split_ifs with hy
    · rw [ih]
      simp only [List.map_cons, List.mem_cons]
      constructor
      · rintro ⟨h1, h2⟩; exact ⟨Or.inr h1, h2⟩
      · rintro ⟨h1 | h1, h2⟩
        · exact absurd (h1 ▸ hy) h2
        · exact ⟨h1, h2⟩
    · simp only [List.map_cons, List.mem_cons, ih]
      constructor
      · rintro (h | ⟨h1, h2⟩)
        · exact ⟨Or.inl h, h ▸ hy⟩
        · exact ⟨Or.inr h1, fun hm => h2 (Or.inr hm)⟩
      · rintro ⟨h1 | h1, h2⟩
        · exact Or.inl h1
        · by_cases hk : k = y.Key
          · exact Or.inl hk
          · exact Or.inr ⟨h1, fun hm => hm.elim hk h2⟩

theorem dedupFirst_nodup (f : List Field) : ∀ seen : List (List Nat),
    ((dedupFirst f seen).map Field.Key).Nodup := by
  induction f with
  | nil => intro seen; simp [dedupFirst]
  | cons y rest ih =>
    intro seen
    simp only [dedupFirst]
    split_ifs with hy
    · exact ih seen
    · rw [List.map_cons, List.nodup_cons]
      refine ⟨?_, ih _⟩
      intro hm
      have := ((dedupFirst_keys rest (y.Key :: seen) y.Key).1 hm).2
      exact this (List.mem_cons_self _ _)

theorem Unique_perm (f : Fields) : List.Perm (Fields.Unique f) (dedupFirst f []) := by
  rw [Unique_eq]
  exact List.perm_insertionSort keyLE _

theorem Unique_sorted (f : Fields) : List.Sorted keyLE (Fields.Unique f) := by
  rw [Unique_eq]
  exact @List.sorted_insertionSort _ keyLE _ keyLE_total keyLE_trans _

theorem Unique_keys_nodup (f : Fields) : ((Fields.Unique f).map Field.Key).Nodup :=
  ((Unique_perm f).map Field.Key).nodup_iff.mpr (dedupFirst_nodup f [])

theorem Unique_keys_mem (f : Fields) (k : List Nat) :
    k ∈ (Fields.Unique f).map Field.Key ↔ k ∈ f.map Field.Key := by
  rw [((Unique_perm f).map Field.Key).mem_iff, dedupFirst_keys]
  simp

theorem Unique_idempotent (f : Fields) : Fields.Unique (Fields.Unique f) = Fields.Unique f := by
  have hnd := Unique_keys_nodup f
  have hd : ∀ (l : List Field) (seen : List (List Nat)), (l.map Field.Key).Nodup →
      (∀ x ∈ l, x.Key ∉ seen) → dedupFirst l seen = l := by
    intro l
    induction l with
    | nil => intro seen _ _; rfl
    | cons y rest ih =>
      intro seen hn hs
      rw [List.map_cons, List.nodup_cons] at hn
      simp only [dedupFirst, hs y (List.mem_cons_self _ _), if_false]
      rw [ih _ hn.2]
      intro x hx hm
      rcases List.mem_cons.mp hm with h | h
      · exact hn.1 (h ▸ List.mem_map_of_mem _ hx)
      · exact hs x (List.mem_cons_of_mem _ hx) h
  rw [Unique_eq (Fields.Unique f), hd _ [] hnd (by simp)]
  exact (Unique_sorted f).insertionSort_eq

theorem Unique_append_dup (f : List Field) (x : Field) :
    ∀ (m : List (List Nat)) (acc : List Field), x.Key ∈ m ∨ x.Key ∈ f.map Field.Key →
      Unique_loop (f ++ [x]) m acc = Unique_loop f m acc := by
  induction f with
  | nil =>
    intro m acc h
    have hm : x.Key ∈ m := by simpa using h
    simp [Unique_loop, hm]
  | cons y rest ih =>
    intro m acc h
    simp only [List.cons_append, Unique_loop]
    split_ifs with hy
    · apply ih
      rcases h with h | h
      · exact Or.inl h
      · rcases List.mem_cons.mp h with h | h
        · exact Or.inl (h ▸ hy)
        · exact Or.inr h
    · apply ih
      rcases h with h | h
      · exact Or.inl (List.mem_cons_of_mem _ h)
      · rcases List.mem_cons.mp h with h | h
        · exact Or.inl (by simp [h])
        · exact Or.inr h

theorem Unique_strict (f : Fields) :
    List.Pairwise (fun a b => stringsCompare a b < 0) ((Fields.Unique f).map Field.Key) := by
  have hs := Unique_sorted f
  have hn := Unique_keys_nodup f
  unfold List.Sorted at hs
  unfold List.Nodup at hn
  rw [List.pairwise_map] at hn ⊢
  refine (hs.and hn).imp ?_
  intro a b ⟨h1, h2⟩
  rw [keyLE_iff] at h1
  rcases stringsCompare_trichotomy a.Key b.Key with h | h | h
  · exact h
  · exact absurd h h2
  · exact absurd h h1

theorem filter_key_length (l : List Field) (k : List Nat) (hn : (l.map Field.Key).Nodup)
    (hk : k ∈ l.map Field.Key) : (l.filter (fun x => decide (x.Key = k))).length = 1 := by
  induction l with
  | nil => simp at hk
  | cons y rest ih =>
    rw [List.map_cons, List.nodup_cons] at hn
    by_cases hy : y.Key = k
    · have hnil : rest.filter (fun x => decide (x.Key = k)) = [] := by
        rw [List.filter_eq_nil_iff]
        intro x hx hd
        have hxk : x.Key = k := of_decide_eq_true hd
        exact hn.1 (hy ▸ hxk ▸ List.mem_map_of_mem _ hx)
      simp [List.filter_cons, hy, hnil]
    · have hk2 : k ∈ rest.map Field.Key := by
        rcases List.mem_cons.mp hk with h | h
        · exact absurd h.symm hy
        · exact h
      simp [List.filter_cons, hy, ih hn.2 hk2]

/-! ## Field sets: claims C1 to C4 -/

/-- C2: `f.Unique()` contains exactly one Field for each key that occurs in `f`,
and each Field it contains is the first Field of `f` carrying that key;
`Fields.EncodeJSON` on `f` does what it does on `f.Unique()`, so for a duplicated
key it emits the content of the first occurrence. -/
theorem Unique_first_occurrence (f : Fields) :
    (∀ k, k ∈ f.map Field.Key →
      ((Fields.Unique f).filter (fun x => decide (x.Key = k))).length = 1) ∧
    (∀ x ∈ Fields.Unique f, f.find? (fun y => decide (y.Key = x.Key)) = some x) ∧
    (∀ buf : Buffer, Fields.EncodeJSON f buf = Fields.EncodeJSON (Fields.Unique f) buf) := by
  refine ⟨?_, ?_, ?_⟩
  · intro k hk
    exact filter_key_length _ k (Unique_keys_nodup f) ((Unique_keys_mem f k).2 hk)
  · intro x hx
    exact (dedupFirst_first f [] x ((Unique_perm f).mem_iff.1 hx)).2
  · intro buf
    unfold Fields.EncodeJSON
    rw [Unique_idempotent]

/-- Witness of `Unique_first_occurrence`: the key `k` carried by `true` and then
by `false`. -/
theorem Unique_first_occurrence_witness :
    (str "k" ∈ [New.Bool (str "k") true, New.Bool (str "k") false].map Field.Key ∧
      ((Fields.Unique [New.Bool (str "k") true, New.Bool (str "k") false]).filter
        (fun x => decide (x.Key = str "k"))).length = 1) ∧
    (Fields.EncodeJSON [New.Bool (str "k") true, New.Bool (str "k") false] bytesBuffer).1.data =
      str "\x7b\"k\":true\x7d" :=
  ⟨⟨by decide, (Unique_first_occurrence _).1 (str "k") (by decide)⟩, by decide⟩

/-- C3, counterexample: the key `k` is carried first by `true` and then by
`false`; `Fields.MarshalJSON` returns `{"k":true}`, the content of the first
Field with that key, not `{"k":false}`. -/
theorem MarshalJSON_duplicate_first_wins :
    Fields.MarshalJSON [New.Bool (str "k") true, New.Bool (str "k") false] =
      (str "\x7b\"k\":true\x7d", Status.nil) ∧
    Fields.MarshalJSON [New.Bool (str "k") true, New.Bool (str "k") false] ≠
      (str "\x7b\"k\":false\x7d", Status.nil) := by
  decide

/-- C3, amended: deduplication at encode time is first-wins-by-key: appending a
new Field with an already-present key changes neither `f.Unique()` nor what
`Fields.EncodeJSON` and `Fields.MarshalJSON` emit, and the Field that survives for
a key is the first Field of `f` with that key. -/
theorem append_duplicate_key_ignored (f : Fields) (x : Field) (buf : Buffer)
    (hx : x.Key ∈ f.map Field.Key) :
    Fields.Unique (f ++ [x]) = Fields.Unique f ∧
    Fields.EncodeJSON (f ++ [x]) buf = Fields.EncodeJSON f buf ∧
    Fields.MarshalJSON (f ++ [x]) = Fields.MarshalJSON f ∧
    (∀ y ∈ Fields.Unique (f ++ [x]), y.Key = x.Key →
      f.find? (fun z => decide (z.Key = x.Key)) = some y) := by
  have hU : Fields.Unique (f ++ [x]) = Fields.Unique f := by
    unfold Fields.Unique
    rw [Unique_append_dup f x [] [] (Or.inr hx)]
  refine ⟨hU, ?_, ?_, ?_⟩
  · unfold Fields.EncodeJSON; rw [hU]
  · unfold Fields.MarshalJSON Fields.EncodeJSON; rw [hU]
  · intro y hy hk
    rw [hU] at hy
    have := (dedupFirst_first f [] y ((Unique_perm f).mem_iff.1 hy)).2
    rw [hk] at this
    exact this

/-- Witness of `append_duplicate_key_ignored`: appending `Bool("k", false)` to the
set holding `Bool("k", true)`. -/
theorem append_duplicate_key_ignored_witness :
    str "k" ∈ [New.Bool (str "k") true].map Field.Key ∧
    Fields.MarshalJSON ([New.Bool (str "k") true] ++ [New.Bool (str "k") false]) =
      Fields.MarshalJSON [New.Bool (str "k") true] :=
  ⟨by decide,
    (append_duplicate_key_ignored [New.Bool (str "k") true] (New.Bool (str "k") false)
      bytesBuffer (by decide)).2.2.1⟩

/-- C4: the keys of `f.Unique()` are in strictly increasing byte-wise
lexicographic order (`strings.Compare` is negative exactly on that order), hence
pairwise distinct; the set of keys of `f.Unique()` equals the set of keys of `f`;
and the length of `f.Unique()` is the number of distinct keys of `f`. -/
theorem Unique_keys_sorted (f : Fields) :
    List.Pairwise (fun a b => stringsCompare a b < 0) ((Fields.Unique f).map Field.Key) ∧
    (∀ a b : List Nat, stringsCompare a b < 0 ↔ List.Lex (fun x y => x < y) a b) ∧
    ((Fields.Unique f).map Field.Key).Nodup ∧
    (∀ k, k ∈ (Fields.Unique f).map Field.Key ↔ k ∈ f.map Field.Key) ∧
    (Fields.Unique f).length = (f.map Field.Key).dedup.length := by
  refine ⟨Unique_strict f, stringsCompare_lt_iff, Unique_keys_nodup f, Unique_keys_mem f, ?_⟩
  have hp : List.Perm ((Fields.Unique f).map Field.Key) (f.map Field.Key).dedup := by
    rw [List.perm_ext_iff_of_nodup (Unique_keys_nodup f) (List.nodup_dedup _)]
    intro k
    rw [Unique_keys_mem, List.mem_dedup]
  simpa using hp.length_eq

theorem Fields_EncodeJSON_eq (f : Fields) :
    Fields.EncodeJSON f =
      seqE (fun w => w.WriteByte 0x7B)
        (seqE (Fields_loop (Fields.Unique f) 0) (fun w => w.WriteByte 0x7D)) := by
  funext w
  simp only [Fields.EncodeJSON, seqE]

theorem framing_Fields (f : Fields) : Framing (Fields.EncodeJSON f) := by
  rw [Fields_EncodeJSON_eq]
  exact framing_seqE _ _ (framing_Write _)
    (framing_seqE _ _ (framing_Fields_loop _ 0) (framing_Write _))

/-- C1, counterexample: a field set whose only field holds an error content whose
own `MarshalJSON` fails. On a `bytes.Buffer`, which accepts every write,
`Fields.EncodeJSON` writes `{"k":` and returns the error: no `}` follows. -/
theorem Fields_EncodeJSON_failing_field :
    Fields.EncodeJSON
        [New.Error (str "k") (some (GoError.jsonFail [0x65] (GoError.plain [0x78])))]
        bytesBuffer =
      (⟨str "\x7b\"k\":", none, GoError.plain []⟩, Status.err (GoError.plain [0x78])) := by
  decide

/-- C1, amended: for every Fields value `f` such that `EncodeJSON` of every field
of `f.Unique()` returns a nil error, and a sink that accepts every write,
`Fields.EncodeJSON` writes exactly `{`, the `Field.EncodeJSON` outputs of the
fields of `f.Unique()` in that order separated by single `,` bytes, and `}`, and
returns a nil error; for an empty `f` it writes exactly `{}`; `Fields.MarshalJSON`
returns those same bytes. -/
theorem Fields_EncodeJSON_spec (f : Fields) (w : Buffer) (hw : w.budget = none)
    (hok : ∀ x ∈ Fields.Unique f, x.status = Status.nil) :
    Fields.EncodeJSON f w =
      (⟨w.data ++ ([0x7B] ++ List.intercalate [0x2C] ((Fields.Unique f).map Field.output) ++
          [0x7D]), none, w.failure⟩, Status.nil) ∧
    Fields.MarshalJSON f =
      ([0x7B] ++ List.intercalate [0x2C] ((Fields.Unique f).map Field.output) ++ [0x7D],
        Status.nil) ∧
    Fields.EncodeJSON [] w = (⟨w.data ++ [0x7B, 0x7D], none, w.failure⟩, Status.nil) := by
  have key : ∀ (g : Fields) (w : Buffer), w.budget = none →
      (∀ x ∈ Fields.Unique g, x.status = Status.nil) →
      Fields.EncodeJSON g w =
        (⟨w.data ++ ([0x7B] ++ List.intercalate [0x2C] ((Fields.Unique g).map Field.output) ++
            [0x7D]), none, w.failure⟩, Status.nil) := by
    intro g w hw hg
    have hF : ∀ e ∈ (Fields.Unique g).map Field.EncodeJSON, Framing e := by
      intro e he
      obtain ⟨c, _, rfl⟩ := List.mem_map.mp he
      exact framing_Field c
    have hS : ∀ e ∈ (Fields.Unique g).map Field.EncodeJSON, (e bytesBuffer).2 = Status.nil := by
      intro e he
      obtain ⟨c, hc, rfl⟩ := List.mem_map.mp he
      exact hg c hc
    obtain ⟨j1, j2⟩ := joinLoop_zero _ hF hS
    have hb := bracket_bytes 0x7B 0x7D (joinLoop ((Fields.Unique g).map Field.EncodeJSON) 0)
      (framing_joinLoop _ 0 hF) j2
    apply framing_apply _ (framing_Fields _) w hw
    · rw [Fields_EncodeJSON_eq, Fields_loop_eq, hb.1, j1, List.map_map]
      rfl
    · rw [Fields_EncodeJSON_eq, Fields_loop_eq, hb.2]
  refine ⟨key f w hw hok, ?_, ?_⟩
  · unfold Fields.MarshalJSON
    rw [key f bytesBuffer rfl hok]
    simp [bytesBuffer]
  · have h := key [] w hw (by intro x hx; exact absurd hx (List.not_mem_nil x))
    simpa using h

/-- Witness of `Fields_EncodeJSON_spec`: the set built from
`Bool("fieldBool", true)` and `Strings("fieldStrings", ["aaa", "bbb"])` marshals as
`{"fieldBool":true,"fieldStrings":["aaa","bbb"]}`. -/
theorem Fields_EncodeJSON_spec_witness :
    Fields.MarshalJSON [New.Bool (str "fieldBool") true,
        New.Strings (str "fieldStrings") [str "aaa", str "bbb"]] =
      ([0x7B] ++ List.intercalate [0x2C]
        ((Fields.Unique [New.Bool (str "fieldBool") true,
          New.Strings (str "fieldStrings") [str "aaa", str "bbb"]]).map Field.output) ++ [0x7D],
        Status.nil) ∧
    Fields.MarshalJSON [New.Bool (str "fieldBool") true,
        New.Strings (str "fieldStrings") [str "aaa", str "bbb"]] =
      (str "\x7b\"fieldBool\":true,\"fieldStrings\":[\"aaa\",\"bbb\"]\x7d", Status.nil) :=
  ⟨(Fields_EncodeJSON_spec _ bytesBuffer rfl (by decide)).2.1, by decide⟩

/-! ## Bit operations as arithmetic -/

theorem and_mask (x n : Nat) : x &&& (2 ^ n - 1) = x % 2 ^ n :=
  Nat.and_pow_two_sub_one_eq_mod x n

theorem shl_or (a b i : Nat) (hb : b < 2 ^ i) : a <<< i ||| b = a * 2 ^ i + b := by
  rw [Nat.shiftLeft_eq, Nat.mul_comm a, Nat.mul_add_lt_is_or hb]

theorem rune2_eq (a b : Nat) :
    (a &&& 0x1F) <<< 6 ||| (b &&& 0x3F) = (a % 32) * 64 + b % 64 := by
  have h1 : a &&& 0x1F = a % 32 := and_mask a 5
  have h2 : b &&& 0x3F = b % 64 := and_mask b 6
  rw [h1, h2, shl_or _ _ 6 (by norm_num; omega)]
  norm_num

theorem rune3_eq (a b c : Nat) :
    (a &&& 0x0F) <<< 12 ||| (b &&& 0x3F) <<< 6 ||| (c &&& 0x3F) =
      (a % 16) * 4096 + (b % 64) * 64 + c % 64 := by
  have h1 : a &&& 0x0F = a % 16 := and_mask a 4
  have h2 : b &&& 0x3F = b % 64 := and_mask b 6
  have h3 : c &&& 0x3F = c % 64 := and_mask c 6
  rw [h1, h2, h3]
  have e1 : (b % 64) <<< 6 = (b % 64) * 64 := by rw [Nat.shiftLeft_eq]
  have e2 : (a % 16) <<< 12 ||| (b % 64) <<< 6 = (a % 16) * 4096 + (b % 64) * 64 := by
    rw [e1, shl_or _ _ 12 (by norm_num; omega)]; norm_num
  have e3 : (a % 16) * 4096 + (b % 64) * 64 = ((a % 16) * 64 + b % 64) <<< 6 := by
    rw [Nat.shiftLeft_eq]; norm_num; omega
  rw [e2, e3, shl_or _ _ 6 (by norm_num; omega)]
  norm_num; omega

theorem rune4_eq (a b c d : Nat) :
    (a &&& 0x07) <<< 18 ||| (b &&& 0x3F) <<< 12 ||| (c &&& 0x3F) <<< 6 ||| (d &&& 0x3F) =
      (a % 8) * 262144 + (b % 64) * 4096 + (c % 64) * 64 + d % 64 := by
  have h1 : a &&& 0x07 = a % 8 := and_mask a 3
  have h2 : b &&& 0x3F = b % 64 := and_mask b 6
  have h3 : c &&& 0x3F = c % 64 := and_mask c 6
  have h4 : d &&& 0x3F = d % 64 := and_mask d 6
  rw [h1, h2, h3, h4]
  have e0 : (b % 64) <<< 12 = (b % 64) * 4096 := by rw [Nat.shiftLeft_eq]
  have e1 : (c % 64) <<< 6 = (c % 64) * 64 := by rw [Nat.shiftLeft_eq]
  have e2 : (a % 8) <<< 18 ||| (b % 64) <<< 12 = (a % 8) * 262144 + (b % 64) * 4096 := by
    rw [e0, shl_or _ _ 18 (by norm_num; omega)]; norm_num
  have e3 : (a % 8) * 262144 + (b % 64) * 4096 = ((a % 8) * 64 + b % 64) <<< 12 := by
    rw [Nat.shiftLeft_eq]; norm_num; omega
  have e4 : ((a % 8) * 64 + b % 64) <<< 12 ||| (c % 64) <<< 6 =
      ((a % 8) * 64 + b % 64) * 4096 + (c % 64) * 64 := by
    rw [e1, shl_or _ _ 12 (by norm_num; omega)]; norm_num
  have e5 : ((a % 8) * 64 + b % 64) * 4096 + (c % 64) * 64 =
      (((a % 8) * 64 + b % 64) * 64 + c % 64) <<< 6 := by
    rw [Nat.shiftLeft_eq]; norm_num; omega
  rw [e2, e3, e4, e5, shl_or _ _ 6 (by norm_num; omega)]
  norm_num; omega

/-! ## Valid UTF-8 input -/

theorem first_size (a : Nat) (h : first a < 0xF0) :
    (first a &&& 7 = 2 ∧ 0xC2 ≤ a ∧ a ≤ 0xDF) ∨
    (first a &&& 7 = 3 ∧ 0xE0 ≤ a ∧ a ≤ 0xEF) ∨
    (first a &&& 7 = 4 ∧ 0xF0 ≤ a ∧ a ≤ 0xF4 ∧
      (a = 0xF0 → (acceptRanges (first a >>> 4)).1 = 0x90)) := by
  have h1 := (first_lt_iff a).1 h
  clear h
  unfold first
  split_ifs
  all_goals first
    | (exfalso; omega)
    | exact Or.inl ⟨by decide, by omega, by omega⟩
    | exact Or.inr (Or.inl ⟨by decide, by omega, by omega⟩)
    | exact Or.inr (Or.inr ⟨by decide, by omega, by omega, fun _ => by decide⟩)
    | exact Or.inr (Or.inr ⟨by decide, by omega, by omega, fun h0 => by omega⟩)

theorem first_not_xx (a : Nat) (ha : ¬ a < RuneSelf) (hx : first a ≠ 0xF1) : first a < 0xF0 := by
  unfold RuneSelf at ha
  by_cases h : 0xC2 ≤ a ∧ a ≤ 0xF4
  · exact (first_lt_iff a).2 h
  · exfalso
    apply hx
    apply first_invalid
    omega

theorem getD_drop_succ (s : List Nat) (i j : Nat) :
    s.getD (i + 1 + j) 0 = (s.drop (i + 1)).getD j 0 := by
  simp [List.getD_eq_getElem?_getD, List.getElem?_drop]


theorem valid_step (s : List Nat) (fuel i : Nat) (hi : i < s.length)
    (hsi : ¬ s.getD i 0 < RuneSelf) (hv : ValidString_loop s (fuel + 1) i = true) :
    ∃ size, 2 ≤ size ∧ ValidString_loop s fuel (i + size) = true ∧
      (DecodeRuneInString (s.drop i)).2 = size ∧
      ((DecodeRuneInString (s.drop i)).1 = 0x2028 → [0xE2, 0x80, 0xA8] <+: s.drop i) ∧
      ((DecodeRuneInString (s.drop i)).1 = 0x2029 → [0xE2, 0x80, 0xA9] <+: s.drop i) := by
  rw [drop_eq_cons s i hi]
  simp only [ValidString_loop, hi, if_true, hsi, if_false] at hv
  have e1 := getD_drop_succ s i 0
  have e2 := getD_drop_succ s i 1
  have e3 := getD_drop_succ s i 2
  have hl : (s.drop (i + 1)).length = s.length - (i + 1) := List.length_drop _ _
  simp only [Nat.add_zero] at e1
  rw [show i + 1 + 1 = i + 2 from rfl] at e2
  rw [show i + 1 + 2 = i + 3 from rfl] at e3
  rw [e1, e2, e3] at hv
  generalize s.drop (i + 1) = t at hv hl e1 e2 e3 ⊢
  generalize s.getD i 0 = b at hv hsi ⊢
  by_cases hx : first b = 0xF1
  · simp [hx] at hv
  · have hlt := first_not_xx b hsi hx
    have hge : ¬ first b ≥ 0xF0 := by omega
    have hlead := first_lead b hlt
    simp only [hx, if_false] at hv
    rw [Decode_cons]
    simp only [hge, if_false]
    rcases first_size b hlt with ⟨hs, hb1, hb2⟩ | ⟨hs, hb1, hb2⟩ | ⟨hs, hb1, hb2, hF0⟩
    · rw [hs] at hv ⊢
      generalize (acceptRanges (first b >>> 4)).1 = lo at hv hlead ⊢
      generalize (acceptRanges (first b >>> 4)).2 = hi' at hv hlead ⊢
      rcases t with _ | ⟨a1, r⟩
      · simp at hl; simp [show i + 2 > s.length by omega] at hv
      · simp only [List.getD_cons_zero] at hv
        split_ifs at hv with h1 h2
        refine ⟨2, le_refl _, hv, ?_⟩
        have hd : decodeMulti 2 lo hi' b (a1 :: r) =
            ((b &&& 0x1F) <<< 6 ||| (a1 &&& 0x3F), 2) := by
          simp [decodeMulti, h2]
        rw [hd, rune2_eq]
        refine ⟨rfl, ?_, ?_⟩ <;> (intro h; exfalso; dsimp only at h; omega)
    · rw [hs] at hv ⊢
      generalize (acceptRanges (first b >>> 4)).1 = lo at hv hlead ⊢
      generalize (acceptRanges (first b >>> 4)).2 = hi' at hv hlead ⊢
      rcases t with _ | ⟨a1, _ | ⟨a2, r⟩⟩
      · simp at hl; simp [show i + 3 > s.length by omega] at hv
      · simp at hl; simp [show i + 3 > s.length by omega] at hv
      · simp only [List.getD_cons_zero, List.getD_cons_succ, (by decide : ¬ (3 : Nat) = 2),
          if_false, eq_self_iff_true, if_true] at hv
        split_ifs at hv with h1 h2 h3
        refine ⟨3, by omega, hv, ?_⟩
        have hd : decodeMulti 3 lo hi' b (a1 :: a2 :: r) =
            ((b &&& 0x0F) <<< 12 ||| (a1 &&& 0x3F) <<< 6 ||| (a2 &&& 0x3F), 3) := by
          simp [decodeMulti, h2, h3]
        rw [hd, rune3_eq]
        refine ⟨rfl, ?_, ?_⟩
        · intro h
          dsimp only at h
          have hb : b = 0xE2 := by omega
          have ha1 : a1 = 0x80 := by omega
          have ha2 : a2 = 0xA8 := by omega
          subst hb ha1 ha2
          exact ⟨r, rfl⟩
        · intro h
          dsimp only at h
          have hb : b = 0xE2 := by omega
          have ha1 : a1 = 0x80 := by omega
          have ha2 : a2 = 0xA9 := by omega
          subst hb ha1 ha2
          exact ⟨r, rfl⟩
    · rw [hs] at hv ⊢
      generalize (acceptRanges (first b >>> 4)).1 = lo at hv hlead hF0 ⊢
      generalize (acceptRanges (first b >>> 4)).2 = hi' at hv hlead ⊢
      rcases t with _ | ⟨a1, _ | ⟨a2, _ | ⟨a3, r⟩⟩⟩
      · simp at hl; simp [show i + 4 > s.length by omega] at hv
      · simp at hl; simp [show i + 4 > s.length by omega] at hv
      · simp at hl; simp [show i + 4 > s.length by omega] at hv
      · simp only [List.getD_cons_zero, List.getD_cons_succ, (by decide : ¬ (4 : Nat) = 2),
          (by decide : ¬ (4 : Nat) = 3), if_false] at hv
        split_ifs at hv with h1 h2 h3 h4
        refine ⟨4, by omega, hv, ?_⟩
        have hd : decodeMulti 4 lo hi' b (a1 :: a2 :: a3 :: r) =
            ((b &&& 0x07) <<< 18 ||| (a1 &&& 0x3F) <<< 12 ||| (a2 &&& 0x3F) <<< 6 |||
              (a3 &&& 0x3F), 4) := by
          simp [decodeMulti, h2, h3, h4]
        rw [hd, rune4_eq]
        refine ⟨rfl, ?_, ?_⟩ <;>
        · intro h
          exfalso
          dsimp only at h
          by_cases hb0 : b = 0xF0
          · have := hF0 hb0
            omega
          · omega

theorem valid_body (s : List Nat) (esc : Bool)
    (hb : ∀ b ∈ s, 0x20 ≤ b ∧ b ≠ 0x22 ∧ b ≠ 0x5C ∧ b ≠ 0x3C ∧ b ≠ 0x3E ∧ b ≠ 0x26)
    (h28 : ¬ [0xE2, 0x80, 0xA8] <:+: s) (h29 : ¬ [0xE2, 0x80, 0xA9] <:+: s) :
    ∀ (fuel i : Nat), s.length - i ≤ fuel → ValidString_loop s fuel i = true →
      escBody esc (s.drop i).length (s.drop i) = s.drop i := by
  intro fuel
  induction fuel with
  | zero =>
    intro i hf _
    rw [List.drop_of_length_le (by omega)]
    rfl
  | succ fuel ih =>
    intro i hf hv
    by_cases hi : i < s.length
    · have hcons := drop_eq_cons s i hi
      have hmem : s.getD i 0 ∈ s := by
        have : s.getD i 0 ∈ s.drop i := by rw [hcons]; exact List.mem_cons_self _ _
        exact List.mem_of_mem_drop this
      by_cases hsi : s.getD i 0 < RuneSelf
      · have hv2 : ValidString_loop s fuel (i + 1) = true := by
          simpa only [ValidString_loop, hi, if_true, hsi] using hv
        have hc := hb _ hmem
        rw [hcons, body_cons_ascii esc _ _ hsi, ih (i + 1) (by omega) hv2]
        generalize s.getD i 0 = b at hsi hc ⊢
        have hsafe : htmlSafeSet b = true := by
          unfold RuneSelf at hsi
          simp [htmlSafeSet, safeSet, hc.1, hsi, hc.2.1, hc.2.2.1, hc.2.2.2.1, hc.2.2.2.2.1,
            hc.2.2.2.2.2]
        simp [hsafe]
      · obtain ⟨size, hs2, hv2, hd, hp28, hp29⟩ := valid_step s fuel i hi hsi hv
        have hne : s.drop i ≠ [] := by rw [hcons]; simp
        have h4 := Decode_take4 (s.drop i)
        have hE : escStep esc (s.drop i) = ((s.drop i).take size, size) := by
          have hnerr : ¬ ((DecodeRuneInString (s.drop i)).1 = RuneError ∧
              (DecodeRuneInString (s.drop i)).2 = 1) := by
            rintro ⟨_, h⟩; omega
          have hn28 : ¬ ((DecodeRuneInString (s.drop i)).1 = 0x2028 ∨
              (DecodeRuneInString (s.drop i)).1 = 0x2029) := by
            rintro (h | h)
            · exact h28 ((hp28 h).isInfix.trans (List.drop_suffix i s).isInfix)
            · exact h29 ((hp29 h).isInfix.trans (List.drop_suffix i s).isInfix)
          rw [hcons] at h4 hnerr hn28 hd ⊢
          generalize s.getD i 0 = b at hsi h4 hnerr hn28 hd ⊢
          simp only [escStep, hsi, if_false, h4, hnerr, hn28, hd]
          rw [if_neg (by rintro ⟨_, h⟩; omega)]
        rw [body_step esc _ hne, hE, drop_add_eq, ih (i + size) (by omega) hv2, ← drop_add_eq]
        exact List.take_append_drop _ _
    · rw [List.drop_of_length_le (by omega)]
      rfl

/-- C11: for every valid UTF-8 string `s` (`utf8.ValidString`) that contains no
byte below 0x20, no quote, no backslash, none of `<`, `>`, `&`, and neither the
encoding of U+2028 nor that of U+2029, `appendString` in either mode appends
exactly a quote, `s` unchanged, and a quote. -/
theorem appendString_plain (dst s : List Nat) (escapeHTML : Bool)
    (hvalid : ValidString s = true)
    (hbytes : ∀ b ∈ s, 0x20 ≤ b ∧ b ≠ 0x22 ∧ b ≠ 0x5C ∧ b ≠ 0x3C ∧ b ≠ 0x3E ∧ b ≠ 0x26)
    (h2028 : ¬ [0xE2, 0x80, 0xA8] <:+: s) (h2029 : ¬ [0xE2, 0x80, 0xA9] <:+: s) :
    appendString dst s escapeHTML = dst ++ [0x22] ++ s ++ [0x22] := by
  have h := valid_body s escapeHTML hbytes h2028 h2029 s.length 0 (by omega) hvalid
  rw [List.drop_zero] at h
  rw [appendString_eq, h]
  simp

theorem appendString_plain_witness :
    appendString [] [0x74, 0x30, 0x7F, 0xE6, 0xB5, 0x8B, 0xE8, 0xAF, 0x95] true =
      [] ++ [0x22] ++ [0x74, 0x30, 0x7F, 0xE6, 0xB5, 0x8B, 0xE8, 0xAF, 0x95] ++ [0x22] :=
  appendString_plain [] [0x74, 0x30, 0x7F, 0xE6, 0xB5, 0x8B, 0xE8, 0xAF, 0x95] true
    (by decide) (by decide) (by decide) (by decide)

/-! ## Encoding of a field and of an array on a sink that accepts every write -/

theorem field_encode (k : List Nat) (c : Content) (w : Buffer) (hw : w.budget = none) :
    Field.EncodeJSON ⟨k, some c⟩ w =
      (⟨w.data ++ (appendString [] k false ++ [0x3A] ++ c.output), none, w.failure⟩,
        c.status) := by
  have hc := framing_Content c
  have h1 := seqE_bytes (fun w => w.WriteByte 0x3A) c.EncodeJSON (framing_Write _) hc rfl
  have h2 := seqE_bytes (fun w => appendJsonStringBuf w k)
    (seqE (fun w => w.WriteByte 0x3A) c.EncodeJSON) (framing_appendJsonStringBuf k)
    (framing_seqE _ _ (framing_Write _) hc) rfl
  apply framing_apply _ (framing_Field _) w hw
  · rw [Field_EncodeJSON_eq]
    simp only
    rw [h2.1, h1.1]
    simp [Content.output, Buffer.WriteByte, Buffer.Write, bytesBuffer, appendJsonStringBuf]
  · rw [Field_EncodeJSON_eq]
    simp only
    rw [h2.2, h1.2]
    rfl

theorem array_output (xs : List Content) (hok : ∀ c ∈ xs, c.status = Status.nil) :
    (Content.ArrayContent xs).output =
        [0x5B] ++ List.intercalate [0x2C] (xs.map Content.output) ++ [0x5D] ∧
      (Content.ArrayContent xs).status = Status.nil := by
  have hF : ∀ e ∈ xs.map Content.EncodeJSON, Framing e := by
    intro e he
    obtain ⟨c, _, rfl⟩ := List.mem_map.mp he
    exact framing_Content c
  have hS : ∀ e ∈ xs.map Content.EncodeJSON, (e bytesBuffer).2 = Status.nil := by
    intro e he
    obtain ⟨c, hc, rfl⟩ := List.mem_map.mp he
    exact hok c hc
  obtain ⟨j1, j2⟩ := joinLoop_zero _ hF hS
  have hb := bracket_bytes 0x5B 0x5D (joinLoop (xs.map Content.EncodeJSON) 0)
    (framing_joinLoop _ 0 hF) j2
  unfold Content.output Content.status
  rw [EncodeJSON_Array, ArrayContent_loop_eq, hb.1, hb.2, j1, List.map_map]
  exact ⟨rfl, rfl⟩

theorem write_output (p : List Nat) :
    ((fun w : Buffer => w.Write p) bytesBuffer).1.data = p ∧
      ((fun w : Buffer => w.Write p) bytesBuffer).2 = Status.nil :=
  ⟨rfl, rfl⟩

/-! ## Resolution of a value: claims C12, C13, C15, C16, C17 -/

/-- C12: for every supported scalar kind and every value of it, `Any` returns the
Field of the direct constructor of that kind, hence the same `EncodeJSON` output
on every sink (for the nil `error`, which reaches `Any` as the nil interface, the
Fields differ and the output is the same); and `Any(k, nil)` is `Nil(k)`, which
a `bytes.Buffer` receives as the key literal followed by `:null`. In each of
these cases `Any` returns: it does not panic. -/
theorem Any_scalar (k : List Nat) (b : Bool) (c : GoComplex) (f : GoFloat) (i : Int)
    (s : List Nat) (u : Nat) (t : GoTime) (d : GoDuration) (e : GoError)
    (st : Option GoStringer) (mj mt mb : Option GoMarshal) (w : Buffer) :
    Any k (GoValue.bool b) = some (New.Bool k b) ∧
    Any k (GoValue.complex128 c) = some (New.Complex128 k c) ∧
    Any k (GoValue.complex64 c) = some (New.Complex64 k c) ∧
    Any k (GoValue.float64 f) = some (New.Float64 k f) ∧
    Any k (GoValue.float32 f) = some (New.Float32 k f) ∧
    Any k (GoValue.int IntKind.int i) = some (New.Int IntKind.int k i) ∧
    Any k (GoValue.int IntKind.int64 i) = some (New.Int64 k i) ∧
    Any k (GoValue.int IntKind.int32 i) = some (New.Int32 k i) ∧
    Any k (GoValue.int IntKind.int16 i) = some (New.Int16 k i) ∧
    Any k (GoValue.int IntKind.int8 i) = some (New.Int8 k i) ∧
    Any k (GoValue.string s) = some (New.String k s) ∧
    Any k (GoValue.uint UintKind.uint u) = some (New.Uint UintKind.uint k u) ∧
    Any k (GoValue.uint UintKind.uint64 u) = some (New.Uint64 k u) ∧
    Any k (GoValue.uint UintKind.uint32 u) = some (New.Uint32 k u) ∧
    Any k (GoValue.uint UintKind.uint16 u) = some (New.Uint16 k u) ∧
    Any k (GoValue.uint UintKind.uint8 u) = some (New.Uint8 k u) ∧
    Any k (GoValue.uintptr u) = some (New.Uintptr k u) ∧
    Any k (GoValue.time t) = some (New.Time k t) ∧
    Any k (GoValue.duration d) = some (New.Duration k d) ∧
    Any k (GoValue.other ⟨some e, st, mj, mt, mb⟩) = some (New.Error k (some e)) ∧
    Any k GoValue.nil = some (New.Nil k) ∧
    ((Any k GoValue.nil).map (fun x => x.EncodeJSON w) = some ((New.Nil k).EncodeJSON w)) ∧
    ((Any k (GoValue.ofError none)).map (fun x => x.EncodeJSON w) =
      some ((New.Error k none).EncodeJSON w)) ∧
    (Any k GoValue.nil).map (fun x => x.EncodeJSON bytesBuffer) =
      some (⟨appendString [] k false ++ [0x3A] ++ [0x6E, 0x75, 0x6C, 0x6C], none,
        GoError.plain []⟩, Status.nil) := by
  refine ⟨rfl, rfl, rfl, rfl, rfl, rfl, rfl, rfl, rfl, rfl, rfl, rfl, rfl, rfl, rfl, rfl, rfl,
    rfl, rfl, rfl, rfl, rfl, rfl, ?_⟩
  have h := field_encode k Content.NilContent bytesBuffer rfl
  have e : Any k GoValue.nil = some ⟨k, some Content.NilContent⟩ := rfl
  rw [e, Option.map_some', h]
  simp [bytesBuffer]
  exact ⟨rfl, rfl⟩

/-- C13: for every supported scalar kind, `Any` of the nil pointer is `Nil(k)`
(encoded as the key followed by `:null`), and `Any` of a pointer to `x` is the Field
that `Any` returns for `x` itself; for a pointer to a nil `error` the two Fields
differ but encode alike on every sink. `Any` returns for each of these values: it
does not panic. -/
theorem Any_pointer (k : List Nat) (b : Bool) (c : GoComplex) (f : GoFloat) (i : Int)
    (s : List Nat) (u : Nat) (t : GoTime) (d : GoDuration) (e : GoError) (TI : IntKind)
    (TU : UintKind) (st : Option GoStringer) (mj mt mb : Option GoMarshal)
    (w : Buffer) :
    (Any k (GoValue.boolPtr none) = some (New.Nil k) ∧
      Any k (GoValue.complex128Ptr none) = some (New.Nil k) ∧
      Any k (GoValue.complex64Ptr none) = some (New.Nil k) ∧
      Any k (GoValue.float64Ptr none) = some (New.Nil k) ∧
      Any k (GoValue.float32Ptr none) = some (New.Nil k) ∧
      Any k (GoValue.intPtr TI none) = some (New.Nil k) ∧
      Any k (GoValue.stringPtr none) = some (New.Nil k) ∧
      Any k (GoValue.uintPtr TU none) = some (New.Nil k) ∧
      Any k (GoValue.uintptrPtr none) = some (New.Nil k) ∧
      Any k (GoValue.timePtr none) = some (New.Nil k) ∧
      Any k (GoValue.durationPtr none) = some (New.Nil k) ∧
      Any k (GoValue.errorPtr none) = some (New.Nil k)) ∧
    (Any k (GoValue.boolPtr (some b)) = Any k (GoValue.bool b) ∧
      Any k (GoValue.complex128Ptr (some c)) = Any k (GoValue.complex128 c) ∧
      Any k (GoValue.complex64Ptr (some c)) = Any k (GoValue.complex64 c) ∧
      Any k (GoValue.float64Ptr (some f)) = Any k (GoValue.float64 f) ∧
      Any k (GoValue.float32Ptr (some f)) = Any k (GoValue.float32 f) ∧
      Any k (GoValue.intPtr TI (some i)) = Any k (GoValue.int TI i) ∧
      Any k (GoValue.stringPtr (some s)) = Any k (GoValue.string s) ∧
      Any k (GoValue.uintPtr TU (some u)) = Any k (GoValue.uint TU u) ∧
      Any k (GoValue.uintptrPtr (some u)) = Any k (GoValue.uintptr u) ∧
      Any k (GoValue.timePtr (some t)) = Any k (GoValue.time t) ∧
      Any k (GoValue.durationPtr (some d)) = Any k (GoValue.duration d) ∧
      Any k (GoValue.errorPtr (some (some e))) = Any k (GoValue.other ⟨some e, st, mj, mt, mb⟩) ∧
      (Any k (GoValue.errorPtr (some none))).map (fun x => x.EncodeJSON w) =
        (Any k GoValue.nil).map (fun x => x.EncodeJSON w)) ∧
    (∀ v ∈ [GoValue.bool b, GoValue.complex128 c, GoValue.complex64 c, GoValue.float64 f,
        GoValue.float32 f, GoValue.int TI i, GoValue.string s, GoValue.uint TU u,
        GoValue.uintptr u, GoValue.time t, GoValue.duration d,
        GoValue.other ⟨some e, st, mj, mt, mb⟩, GoValue.nil], (Any k v).isSome = true) ∧
    (New.Nil k).EncodeJSON bytesBuffer =
      (⟨appendString [] k false ++ [0x3A] ++ [0x6E, 0x75, 0x6C, 0x6C], none, GoError.plain []⟩,
        Status.nil) := by
  refine ⟨⟨rfl, rfl, rfl, rfl, rfl, ?_, rfl, ?_, rfl, rfl, rfl, rfl⟩,
    ⟨rfl, rfl, rfl, rfl, rfl, ?_, rfl, ?_, rfl, rfl, rfl, rfl, rfl⟩, ?_, ?_⟩
  · cases TI <;> rfl
  · cases TU <;> rfl
  · cases TI <;> rfl
  · cases TU <;> rfl
  · intro v hv
    simp only [List.mem_cons, List.mem_singleton, List.not_mem_nil, or_false] at hv
    rcases hv with rfl | rfl | rfl | rfl | rfl | rfl | rfl | rfl | rfl | rfl | rfl | rfl | rfl
    case inr.inr.inr.inr.inr.inl => cases TI <;> rfl
    case inr.inr.inr.inr.inr.inr.inr.inl => cases TU <;> rfl
    all_goals rfl
  · have h := field_encode k Content.NilContent bytesBuffer rfl
    simpa [bytesBuffer] using h

/-! ## Binary content: claim C20 -/

theorem shl_or3 (a b c : Nat) (hb : b < 256) (hc : c < 256) :
    a <<< 16 ||| b <<< 8 ||| c = a * 65536 + b * 256 + c := by
  have e1 : b <<< 8 = b * 256 := by rw [Nat.shiftLeft_eq]
  have e2 : a <<< 16 ||| b <<< 8 = a * 65536 + b * 256 := by
    rw [e1, shl_or _ _ 16 (by norm_num; omega)]; norm_num
  have e3 : a * 65536 + b * 256 = (a * 256 + b) <<< 8 := by
    rw [Nat.shiftLeft_eq]; norm_num; omega
  rw [e2, e3, shl_or _ _ 8 (by norm_num; omega)]
  norm_num; omega

theorem shl_or2 (a b : Nat) (hb : b < 256) :
    a <<< 16 ||| b <<< 8 = a * 65536 + b * 256 := by
  have e1 : b <<< 8 = b * 256 := by rw [Nat.shiftLeft_eq]
  rw [e1, shl_or _ _ 16 (by norm_num; omega)]; norm_num

theorem sextet0 (v : Nat) : v &&& 0x3F = v % 64 := and_mask v 6

theorem decodeStd_encodeStd (v : Nat) (hv : v < 64) : decodeStd (encodeStd v) = v := by
  unfold encodeStd decodeStd
  split_ifs <;> omega

theorem encodeStd_alphabet (v : Nat) (hv : v < 64) : isStdAlphabet (encodeStd v) := by
  unfold encodeStd isStdAlphabet
  split_ifs <;> omega

theorem base64_encode_cons3 (a b c : Nat) (rest : List Nat) (ha : a < 256) (hb : b < 256)
    (hc : c < 256) :
    base64RawStdEncode (a :: b :: c :: rest) =
      [encodeStd (a / 4), encodeStd ((a % 4) * 16 + b / 16), encodeStd ((b % 16) * 4 + c / 64),
        encodeStd (c % 64)] ++ base64RawStdEncode rest := by
  have h0 : (a * 65536 + b * 256 + c) / 2 ^ 18 % 64 = a / 4 := by norm_num; omega
  have h1 : (a * 65536 + b * 256 + c) / 2 ^ 12 % 64 = (a % 4) * 16 + b / 16 := by
    norm_num; omega
  have h2 : (a * 65536 + b * 256 + c) / 2 ^ 6 % 64 = (b % 16) * 4 + c / 64 := by
    norm_num; omega
  have h3 : (a * 65536 + b * 256 + c) % 64 = c % 64 := by omega
  simp only [base64RawStdEncode, sextet0, Nat.shiftRight_eq_div_pow, shl_or3 a b c hb hc, h0, h1, h2, h3]

theorem base64_encode_two (a b : Nat) (ha : a < 256) (hb : b < 256) :
    base64RawStdEncode [a, b] =
      [encodeStd (a / 4), encodeStd ((a % 4) * 16 + b / 16), encodeStd ((b % 16) * 4)] := by
  have h0 : (a * 65536 + b * 256) / 2 ^ 18 % 64 = a / 4 := by norm_num; omega
  have h1 : (a * 65536 + b * 256) / 2 ^ 12 % 64 = (a % 4) * 16 + b / 16 := by
    norm_num; omega
  have h2 : (a * 65536 + b * 256) / 2 ^ 6 % 64 = (b % 16) * 4 := by norm_num; omega
  simp only [base64RawStdEncode, sextet0, Nat.shiftRight_eq_div_pow, shl_or2 a b hb, h0, h1, h2]

theorem base64_encode_one (a : Nat) (ha : a < 256) :
    base64RawStdEncode [a] = [encodeStd (a / 4), encodeStd ((a % 4) * 16)] := by
  have e : a <<< 16 = a * 65536 := by rw [Nat.shiftLeft_eq]
  have h0 : (a * 65536) / 2 ^ 18 % 64 = a / 4 := by norm_num; omega
  have h1 : (a * 65536) / 2 ^ 12 % 64 = (a % 4) * 16 := by norm_num; omega
  simp only [base64RawStdEncode, sextet0, Nat.shiftRight_eq_div_pow, e, h0, h1]

theorem base64_encode_append_aux (n : Nat) :
    ∀ p q : List Nat, p.length = 3 * n → (∀ x ∈ p, x < 256) →
      base64RawStdEncode (p ++ q) = base64RawStdEncode p ++ base64RawStdEncode q := by
  induction n with
  | zero =>
    intro p q hl _
    have : p = [] := List.length_eq_zero.mp (by simpa using hl)
    subst this
    simp [base64RawStdEncode]
  | succ n ih =>
    intro p q hl hp
    match p, hl, hp with
    | a :: b :: c :: rest, hl, hp =>
      have ha : a < 256 := hp a (by simp)
      have hb : b < 256 := hp b (by simp)
      have hc : c < 256 := hp c (by simp)
      have hr : rest.length = 3 * n := by simp at hl; omega
      have hrest : ∀ x ∈ rest, x < 256 := fun x hx => hp x (by simp [hx])
      have e : a :: b :: c :: rest ++ q = a :: b :: c :: (rest ++ q) := by simp
      rw [e, base64_encode_cons3 a b c _ ha hb hc, base64_encode_cons3 a b c _ ha hb hc,
        ih rest q hr hrest, List.append_assoc]
    | [], hl, _ => simp at hl
    | [_], hl, _ => simp at hl; omega
    | [_, _], hl, _ => simp at hl; omega

theorem base64_encode_append (p q : List Nat) (hp : ∀ x ∈ p, x < 256) (h3 : p.length % 3 = 0) :
    base64RawStdEncode (p ++ q) = base64RawStdEncode p ++ base64RawStdEncode q :=
  base64_encode_append_aux (p.length / 3) p q (by omega) hp

theorem base64_encode_length_aux (n : Nat) :
    ∀ p : List Nat, p.length < n → (∀ x ∈ p, x < 256) →
      (base64RawStdEncode p).length = (4 * p.length + 2) / 3 := by
  induction n with
  | zero => intro p hl; omega
  | succ n ih =>
    intro p hl hp
    match p, hl, hp with
    | a :: b :: c :: rest, hl, hp =>
      have hrest : ∀ x ∈ rest, x < 256 := fun x hx => hp x (by simp [hx])
      rw [base64_encode_cons3 a b c _ (hp a (by simp)) (hp b (by simp)) (hp c (by simp))]
      simp only [List.length_append, List.length_cons, List.length_nil]
      rw [ih rest (by simp at hl; omega) hrest]
      omega
    | [], _, _ => simp [base64RawStdEncode]
    | [a], _, _ => simp [base64RawStdEncode]
    | [a, b], _, _ => simp [base64RawStdEncode]

theorem base64_encode_length (p : List Nat) (hp : ∀ x ∈ p, x < 256) :
    (base64RawStdEncode p).length = (4 * p.length + 2) / 3 :=
  base64_encode_length_aux (p.length + 1) p (by omega) hp

theorem base64_encode_alphabet_aux (n : Nat) :
    ∀ p : List Nat, p.length < n → (∀ x ∈ p, x < 256) →
      ∀ c ∈ base64RawStdEncode p, isStdAlphabet c := by
  induction n with
  | zero => intro p hl; omega
  | succ n ih =>
    intro p hl hp
    match p, hl, hp with
    | a :: b :: c :: rest, hl, hp =>
      have ha : a < 256 := hp a (by simp)
      have hb : b < 256 := hp b (by simp)
      have hc : c < 256 := hp c (by simp)
      have hrest : ∀ x ∈ rest, x < 256 := fun x hx => hp x (by simp [hx])
      rw [base64_encode_cons3 a b c _ ha hb hc]
      intro x hx
      simp only [List.mem_append, List.mem_cons, List.mem_singleton, List.not_mem_nil,
        or_false] at hx
      rcases hx with (rfl | rfl | rfl | rfl) | hx
      · exact encodeStd_alphabet _ (by omega)
      · exact encodeStd_alphabet _ (by omega)
      · exact encodeStd_alphabet _ (by omega)
      · exact encodeStd_alphabet _ (by omega)
      · exact ih rest (by simp at hl; omega) hrest x hx
    | [], _, _ => simp [base64RawStdEncode]
    | [a], _, hp =>
      have ha : a < 256 := hp a (by simp)
      rw [base64_encode_one a ha]
      intro x hx
      simp only [List.mem_cons, List.mem_singleton, List.not_mem_nil, or_false] at hx
      rcases hx with rfl | rfl
      · exact encodeStd_alphabet _ (by omega)
      · exact encodeStd_alphabet _ (by omega)
    | [a, b], _, hp =>
      have ha : a < 256 := hp a (by simp)
      have hb : b < 256 := hp b (by simp)
      rw [base64_encode_two a b ha hb]
      intro x hx
      simp only [List.mem_cons, List.mem_singleton, List.not_mem_nil, or_false] at hx
      rcases hx with rfl | rfl | rfl
      · exact encodeStd_alphabet _ (by omega)
      · exact encodeStd_alphabet _ (by omega)
      · exact encodeStd_alphabet _ (by omega)

theorem base64_encode_alphabet (p : List Nat) (hp : ∀ x ∈ p, x < 256) :
    ∀ c ∈ base64RawStdEncode p, isStdAlphabet c :=
  base64_encode_alphabet_aux (p.length + 1) p (by omega) hp

theorem base64_decode_encode_aux (n : Nat) :
    ∀ p : List Nat, p.length < n → (∀ x ∈ p, x < 256) →
      base64RawStdDecode (base64RawStdEncode p) = p := by
  induction n with
  | zero => intro p hl; omega
  | succ n ih =>
    intro p hl hp
    match p, hl, hp with
    | a :: b :: c :: rest, hl, hp =>
      have ha : a < 256 := hp a (by simp)
      have hb : b < 256 := hp b (by simp)
      have hc : c < 256 := hp c (by simp)
      have hrest : ∀ x ∈ rest, x < 256 := fun x hx => hp x (by simp [hx])
      rw [base64_encode_cons3 a b c _ ha hb hc]
      simp only [List.cons_append, List.nil_append, base64RawStdDecode]
      rw [decodeStd_encodeStd _ (by omega), decodeStd_encodeStd _ (by omega),
        decodeStd_encodeStd _ (by omega), decodeStd_encodeStd _ (by omega)]
      have e0 : ([] : List Nat).append (base64RawStdEncode rest) = base64RawStdEncode rest := rfl
      rw [e0, ih rest (by simp at hl; omega) hrest]
      have e1 : (a / 4 * 262144 + (a % 4 * 16 + b / 16) * 4096 + (b % 16 * 4 + c / 64) * 64 +
          c % 64) = a * 65536 + b * 256 + c := by omega
      rw [e1]
      have e2 : (a * 65536 + b * 256 + c) / 65536 = a := by omega
      have e3 : (a * 65536 + b * 256 + c) / 256 % 256 = b := by omega
      have e4 : (a * 65536 + b * 256 + c) % 256 = c := by omega
      rw [e2, e3, e4]
    | [], _, _ => simp [base64RawStdEncode, base64RawStdDecode]
    | [a], _, hp =>
      have ha : a < 256 := hp a (by simp)
      rw [base64_encode_one a ha]
      simp only [base64RawStdDecode]
      rw [decodeStd_encodeStd _ (by omega), decodeStd_encodeStd _ (by omega)]
      have e1 : (a / 4 * 64 + a % 4 * 16) / 16 = a := by omega
      rw [e1]
    | [a, b], _, hp =>
      have ha : a < 256 := hp a (by simp)
      have hb : b < 256 := hp b (by simp)
      rw [base64_encode_two a b ha hb]
      simp only [base64RawStdDecode]
      rw [decodeStd_encodeStd _ (by omega), decodeStd_encodeStd _ (by omega),
        decodeStd_encodeStd _ (by omega)]
      have e1 : (a / 4 * 4096 + (a % 4 * 16 + b / 16) * 64 + b % 16 * 4) / 1024 = a := by omega
      have e2 : (a / 4 * 4096 + (a % 4 * 16 + b / 16) * 64 + b % 16 * 4) / 4 % 256 = b := by
        omega
      rw [e1, e2]

theorem base64_decode_encode (p : List Nat) (hp : ∀ x ∈ p, x < 256) :
    base64RawStdDecode (base64RawStdEncode p) = p :=
  base64_decode_encode_aux (p.length + 1) p (by omega) hp

theorem base64EncoderWrite_output :
    ∀ (fuel : Nat) (p : List Nat) (w : Buffer), p.length ≤ fuel → w.budget = none →
      (∀ x ∈ p, x < 256) →
      ∃ d rest, base64EncoderWrite fuel w p = (⟨w.data ++ d, none, w.failure⟩, Status.nil, rest) ∧
        d ++ base64RawStdEncode rest = base64RawStdEncode p ∧ rest.length < 3 := by
  intro fuel
  induction fuel with
  | zero =>
    intro p w hl hw _
    have hp : p = [] := List.length_eq_zero.mp (by omega)
    subst hp
    rcases w with ⟨d, b, f⟩
    simp only at hw
    subst hw
    exact ⟨[], [], by simp [base64EncoderWrite], by simp, by simp⟩
  | succ fuel ih =>
    intro p w hl hw hp
    simp only [base64EncoderWrite]
    by_cases h3 : p.length ≥ 3
    · simp only [h3, if_true]
      have hnn : ∃ nn, (if 768 > p.length then p.length - p.length % 3 else 768) = nn ∧
          nn % 3 = 0 ∧ 3 ≤ nn ∧ nn ≤ p.length := by
        refine ⟨_, rfl, ?_, ?_, ?_⟩ <;> split_ifs <;> omega
      obtain ⟨nn, hnn, hm, hge, hle⟩ := hnn
      rw [hnn, Write_accepting w _ hw]
      simp only
      have hdrop : ∀ x ∈ p.drop nn, x < 256 := fun x hx => hp x (List.mem_of_mem_drop hx)
      have htake : ∀ x ∈ p.take nn, x < 256 := fun x hx => hp x (List.mem_of_mem_take hx)
      obtain ⟨d, rest, he, hd, hr⟩ := ih (p.drop nn)
        ⟨w.data ++ base64RawStdEncode (p.take nn), none, w.failure⟩
        (by rw [List.length_drop]; omega) rfl hdrop
      refine ⟨base64RawStdEncode (p.take nn) ++ d, rest, ?_, ?_, hr⟩
      · rw [he]
        simp
      · have hsplit := base64_encode_append (p.take nn) (p.drop nn) htake
          (by rw [List.length_take, Nat.min_eq_left hle]; exact hm)
        rw [List.take_append_drop] at hsplit
        rw [hsplit, List.append_assoc, hd]
    · simp only [h3, if_false]
      rcases w with ⟨d, b, f⟩
      simp only at hw
      subst hw
      exact ⟨[], p, by simp, by simp, by omega⟩

theorem BinaryContent_output (raw : List Nat) (w : Buffer) (hw : w.budget = none)
    (hraw : ∀ x ∈ raw, x < 256) :
    BinaryContent_EncodeJSON raw w =
      (⟨w.data ++ ([0x22, 0x64, 0x61, 0x74, 0x61, 0x3A, 0x3B, 0x62, 0x61, 0x73, 0x65, 0x36, 0x34,
          0x2C] ++ base64RawStdEncode raw ++ [0x22]), none, w.failure⟩, Status.nil) := by
  unfold BinaryContent_EncodeJSON Buffer.WriteString Buffer.WriteByte base64EncoderClose
  rw [Write_accepting w _ hw]
  simp only
  obtain ⟨d, rest, he, hd, _⟩ := base64EncoderWrite_output raw.length raw
    ⟨w.data ++ [0x22, 0x64, 0x61, 0x74, 0x61, 0x3A, 0x3B, 0x62, 0x61, 0x73, 0x65, 0x36, 0x34,
      0x2C], none, w.failure⟩ (le_refl _) rfl hraw
  rw [he]
  simp only
  by_cases hr : rest.length > 0
  · simp only [hr, if_true]
    rw [Write_accepting _ _ rfl]
    simp only
    rw [Write_accepting _ _ rfl, ← hd]
    simp
  · have : rest = [] := List.length_eq_zero.mp (by omega)
    subst this
    simp only [List.length_nil, gt_iff_lt, lt_self_iff_false, if_false]
    rw [Write_accepting _ _ rfl, ← hd]
    simp [base64RawStdEncode]

/-- C20: on a sink that accepts every write, `BinaryContent.EncodeJSON` of the
bytes `b` succeeds and appends the 14 bytes `"data:;base64,` (opening quote
included), the unpadded base64 text of `b`, and a closing quote. That text has
`(4 * len(b) + 2) / 3` characters, the ceiling of `4 * len(b) / 3`, every one of
the alphabet `A-Z a-z 0-9 + /` (so no `=`), and decoding it gives `b` back. -/
theorem BinaryContent_EncodeJSON_spec (b : List Nat) (w : Buffer) (hw : w.budget = none)
    (hb : ∀ x ∈ b, x < 256) :
    (Content.BinaryContent b).EncodeJSON w =
      (⟨w.data ++ (str "\"data:;base64," ++ base64RawStdEncode b ++ str "\""), none, w.failure⟩,
        Status.nil) ∧
    (str "\"data:;base64,").length = 14 ∧
    (base64RawStdEncode b).length = (4 * b.length + 2) / 3 ∧
    (∀ c ∈ base64RawStdEncode b, isStdAlphabet c ∧ c ≠ 0x3D) ∧
    base64RawStdDecode (base64RawStdEncode b) = b := by
  refine ⟨?_, by decide, base64_encode_length b hb, ?_, base64_decode_encode b hb⟩
  · have h : (Content.BinaryContent b).EncodeJSON w = BinaryContent_EncodeJSON b w := by
      simp only [Content.EncodeJSON]
    rw [h, BinaryContent_output b w hw hb]
    rfl
  · intro c hc
    have ha := base64_encode_alphabet b hb c hc
    refine ⟨ha, ?_⟩
    unfold isStdAlphabet at ha
    omega

theorem BinaryContent_EncodeJSON_spec_witness :
    (Content.BinaryContent [0x12, 0x34]).EncodeJSON bytesBuffer =
      (⟨str "\"data:;base64,EjQ\"", none, GoError.plain []⟩, Status.nil) ∧
    (Content.BinaryContent []).EncodeJSON bytesBuffer =
      (⟨str "\"data:;base64,\"", none, GoError.plain []⟩, Status.nil) ∧
    (New.Binary (str "k") [0x12, 0x34]).MarshalJSON =
      (str "\x7b\"k\":\"data:;base64,EjQ\"\x7d", Status.nil) :=
  ⟨(BinaryContent_EncodeJSON_spec [0x12, 0x34] bytesBuffer rfl (by decide)).1.trans (by decide),
    (BinaryContent_EncodeJSON_spec [] bytesBuffer rfl (by decide)).1.trans (by decide),
    by decide⟩

theorem Binary_output (b : List Nat) (hb : ∀ x ∈ b, x < 256) :
    (Content.BinaryContent b).output =
        str "\"data:;base64," ++ base64RawStdEncode b ++ str "\"" ∧
      (Content.BinaryContent b).status = Status.nil := by
  have h : (Content.BinaryContent b).EncodeJSON bytesBuffer =
      BinaryContent_EncodeJSON b bytesBuffer := by
    simp only [Content.EncodeJSON]
  unfold Content.output Content.status
  rw [h, BinaryContent_output b bytesBuffer rfl hb]
  exact ⟨rfl, rfl⟩

theorem Error_output (e : GoError) (he : errorsAsJsonErr e = none) :
    (Content.ErrorContent (some e)).output = appendString [] e.Error false ∧
      (Content.ErrorContent (some e)).status = Status.nil := by
  have h : (Content.ErrorContent (some e)).EncodeJSON bytesBuffer =
      ErrorContent_EncodeJSON (some e) bytesBuffer := by
    simp only [Content.EncodeJSON]
  unfold Content.output Content.status
  rw [h]
  simp [ErrorContent_EncodeJSON, asJsonErrMarshaler_MarshalJSON, he,
    jsonErrMarshaler_MarshalJSON, appendJsonStringBuf, Buffer.Write, bytesBuffer]

/-- C15: `Any` of a byte slice is the Field of `Binary`, whose content is the
binary variant (`Type() = TypeBinary`); on a sink that accepts every write it
encodes as the key followed by `:` and one string, `"data:;base64,` with the
unpadded base64 text and a closing quote. `Any` of a single `uint8` is the Field
of `Uint8`, whose content is the unsigned-integer variant. -/
theorem Any_bytes (k b : List Nat) (u : Nat) (w : Buffer) (hw : w.budget = none)
    (hb : ∀ x ∈ b, x < 256) :
    Any k (GoValue.uints UintKind.uint8 b) = some (New.Binary k b) ∧
    (Any k (GoValue.uints UintKind.uint8 b)).map (fun x => x.Content) =
      some (some (Content.BinaryContent b)) ∧
    (Content.BinaryContent b).Type_ = TypeBinary ∧
    (Any k (GoValue.uints UintKind.uint8 b)).map (fun x => x.EncodeJSON w) =
      some (⟨w.data ++ (appendString [] k false ++ [0x3A] ++
          (str "\"data:;base64," ++ base64RawStdEncode b ++ str "\"")), none, w.failure⟩,
        Status.nil) ∧
    Any k (GoValue.uint UintKind.uint8 u) = some (New.Uint8 k u) ∧
    (Any k (GoValue.uint UintKind.uint8 u)).map (fun x => x.Content) =
      some (some (Content.UintContent UintKind.uint8 u)) ∧
    (Content.UintContent UintKind.uint8 u).Type_ = TypeUint := by
  refine ⟨rfl, rfl, rfl, ?_, rfl, rfl, rfl⟩
  have h := field_encode k (Content.BinaryContent b) w hw
  rw [(Binary_output b hb).1, (Binary_output b hb).2] at h
  have e : Any k (GoValue.uints UintKind.uint8 b) = some ⟨k, some (Content.BinaryContent b)⟩ :=
    rfl
  rw [e, Option.map_some', h]

theorem Any_bytes_witness :
    (Any (str "k") (GoValue.uints UintKind.uint8 [1])).map (fun x => x.EncodeJSON bytesBuffer) =
      some (⟨str "\"k\":\"data:;base64,AQ\"", none, GoError.plain []⟩, Status.nil) ∧
    (Any (str "k") (GoValue.uint UintKind.uint8 1)).map (fun x => x.EncodeJSON bytesBuffer) =
      some (⟨str "\"k\":1", none, GoError.plain []⟩, Status.nil) :=
  ⟨(Any_bytes (str "k") [1] 1 bytesBuffer rfl (by decide)).2.2.2.1.trans (by decide),
    by decide⟩

/-- C16, counterexample: a value that implements `json.Marshaler` (and neither
`error` nor `fmt.Stringer`) and whose `MarshalJSON` panics when `Any` calls it, as
a method with a value receiver does on a nil pointer: `Any` panics and returns no
Field. The same holds for `MarshalText` and `MarshalBinary`. -/
theorem Any_marshal_panics :
    Any (str "k") (GoValue.other ⟨none, none, some GoMarshal.panics, none, none⟩) = none ∧
    Any (str "k") (GoValue.other ⟨none, none, none, some GoMarshal.panics, none⟩) = none ∧
    Any (str "k") (GoValue.other ⟨none, none, none, none, some GoMarshal.panics⟩) = none ∧
    (GoValue.other ⟨none, none, some GoMarshal.panics, none, none⟩).marshalPanics = true :=
  ⟨rfl, rfl, rfl, by decide⟩

/-- C16, amended: `Any` panics exactly when the marshal method it calls on the
value panics (the method of the first of `json.Marshaler`,
`encoding.TextMarshaler`, `encoding.BinaryMarshaler` that a value implements
which matches no concrete case and is neither an `error` nor a `fmt.Stringer`).
For every other value and every key, `Any` returns a Field that carries that key
and a non-nil Content. For a value that matches no concrete case and implements
none of the five interfaces, the Content is the error variant
(`Type() = TypeError`) of the error with the text
`cant marshal field: no type matched`, which a sink that accepts every write
receives as that text in a JSON string, after the key and `:`. -/
theorem Any_total (k : List Nat) (v : GoValue) (w : Buffer) :
    (Any k v = none ↔ v.marshalPanics = true) ∧
    (v.marshalPanics = false → ∃ x, Any k v = some x ∧ x.Key = k ∧ x.Content ≠ none) ∧
    Any k (GoValue.other ⟨none, none, none, none, none⟩) =
      some (New.Error k (some (GoError.plain (str "cant marshal field: no type matched")))) ∧
    (Content.ErrorContent
      (some (GoError.plain (str "cant marshal field: no type matched")))).Type_ = TypeError ∧
    (w.budget = none →
      (Any k (GoValue.other ⟨none, none, none, none, none⟩)).map (fun x => x.EncodeJSON w) =
        some (⟨w.data ++ (appendString [] k false ++ [0x3A] ++
            str "\"cant marshal field: no type matched\""), none, w.failure⟩, Status.nil)) := by
  have hret : ∀ x, Any k v = some x → x.Key = k ∧ x.Content ≠ none := by
    intro x hx
    cases v with
    | intPtr T p =>
      cases T <;> cases p <;> cases Option.some.inj hx <;> exact ⟨rfl, by simp [anyPointer,
        New.Nil, New.Int, New.Int8, New.Int16, New.Int32, New.Int64]⟩
    | uintPtr T p =>
      cases T <;> cases p <;> cases Option.some.inj hx <;> exact ⟨rfl, by simp [anyPointer,
        New.Nil, New.Uint, New.Uint8, New.Uint16, New.Uint32, New.Uint64]⟩
    | int T i => cases T <;> cases Option.some.inj hx <;> exact ⟨rfl, by simp [New.Int]⟩
    | ints T i =>
      cases T <;> cases Option.some.inj hx <;> exact ⟨rfl, by simp [New.Ints, New.Int8s,
        New.Int16s, New.Int32s, New.Int64s]⟩
    | uint T i => cases T <;> cases Option.some.inj hx <;> exact ⟨rfl, by simp [New.Uint]⟩
    | uints T i =>
      cases T <;> cases Option.some.inj hx <;> exact ⟨rfl, by simp [New.Uints, New.Uint16s,
        New.Uint32s, New.Uint64s, New.Binary]⟩
    | boolPtr p =>
      cases p <;> cases Option.some.inj hx <;> exact ⟨rfl, by simp [anyPointer, New.Nil,
        New.Bool]⟩
    | complex128Ptr p =>
      cases p <;> cases Option.some.inj hx <;> exact ⟨rfl, by simp [anyPointer, New.Nil,
        New.Complex128]⟩
    | complex64Ptr p =>
      cases p <;> cases Option.some.inj hx <;> exact ⟨rfl, by simp [anyPointer, New.Nil,
        New.Complex64]⟩
    | float64Ptr p =>
      cases p <;> cases Option.some.inj hx <;> exact ⟨rfl, by simp [anyPointer, New.Nil,
        New.Float64]⟩
    | float32Ptr p =>
      cases p <;> cases Option.some.inj hx <;> exact ⟨rfl, by simp [anyPointer, New.Nil,
        New.Float32]⟩
    | stringPtr p =>
      cases p <;> cases Option.some.inj hx <;> exact ⟨rfl, by simp [anyPointer, New.Nil,
        New.String]⟩
    | uintptrPtr p =>
      cases p <;> cases Option.some.inj hx <;> exact ⟨rfl, by simp [anyPointer, New.Nil,
        New.Uintptr]⟩
    | timePtr p =>
      cases p <;> cases Option.some.inj hx <;> exact ⟨rfl, by simp [anyPointer, New.Nil,
        New.Time]⟩
    | durationPtr p =>
      cases p <;> cases Option.some.inj hx <;> exact ⟨rfl, by simp [anyPointer, New.Nil,
        New.Duration, New.Stringer]⟩
    | errorPtr p =>
      cases p <;> cases Option.some.inj hx <;> exact ⟨rfl, by simp [anyPointer, New.Nil,
        New.Error]⟩
    | other o =>
      rcases o with ⟨_ | e, _ | s, _ | ⟨c1, _ | e1⟩ | _, _ | ⟨c2, _ | e2⟩ | _,
        _ | ⟨c3, _ | e3⟩ | _⟩ <;>
        first
        | (cases hx; done)
        | (cases Option.some.inj hx
           exact ⟨rfl, by simp [New.Error, New.Stringer, New.JsonRawMessage, New.ByteString,
             New.Binary]⟩)
    | _ =>
      cases Option.some.inj hx
      exact ⟨rfl, by simp [New.Nil, New.Bool, New.Bools, New.Complex128, New.Complex128s,
        New.Complex64, New.Complex64s, New.Float64, New.Float64s, New.Float32, New.Float32s,
        New.String, New.Strings, New.Uintptr, New.Uintptrs, New.Time, New.Times, New.Duration,
        New.Durations, New.Stringer, New.Stringers, New.Errors]⟩
  have hiff : Any k v = none ↔ v.marshalPanics = true := by
    cases v with
    | intPtr T p => cases T <;> simp [Any, GoValue.marshalPanics]
    | uintPtr T p => cases T <;> simp [Any, GoValue.marshalPanics]
    | int T i => cases T <;> simp [Any, GoValue.marshalPanics]
    | ints T i => cases T <;> simp [Any, GoValue.marshalPanics]
    | uint T i => cases T <;> simp [Any, GoValue.marshalPanics]
    | uints T i => cases T <;> simp [Any, GoValue.marshalPanics]
    | other o =>
      rcases o with ⟨_ | e, _ | s, _ | ⟨c1, _ | e1⟩ | _, _ | ⟨c2, _ | e2⟩ | _,
        _ | ⟨c3, _ | e3⟩ | _⟩ <;>
        simp [Any, Any_interfaces, GoValue.marshalPanics, GoOther.called]
    | _ => simp [Any, GoValue.marshalPanics]
  refine ⟨hiff, ?_, rfl, rfl, ?_⟩
  · intro hv
    cases hx : Any k v with
    | none => rw [hiff.1 hx] at hv; cases hv
    | some x => exact ⟨x, rfl, hret x hx⟩
  · intro hw
    have h := field_encode k
      (Content.ErrorContent (some (GoError.plain (str "cant marshal field: no type matched"))))
      w hw
    have ho := Error_output (GoError.plain (str "cant marshal field: no type matched")) rfl
    rw [ho.1, ho.2] at h
    rw [← (by decide : appendString [] (GoError.plain
      (str "cant marshal field: no type matched")).Error false =
        str "\"cant marshal field: no type matched\"")]
    have e : Any k (GoValue.other ⟨none, none, none, none, none⟩) =
        some ⟨k, some (Content.ErrorContent
          (some (GoError.plain (str "cant marshal field: no type matched"))))⟩ := rfl
    rw [e, Option.map_some', h]

/-- Witness of `Any_total`: a value that implements `encoding.TextMarshaler` only
and whose `MarshalText` returns makes `Any` return a Field with the key; a value
of no supported kind is encoded as the failure text. -/
theorem Any_total_witness :
    ((GoValue.other ⟨none, none, none, some (GoMarshal.returns (str "t") none),
        none⟩).marshalPanics = false ∧
      ∃ x, Any (str "k") (GoValue.other ⟨none, none, none,
          some (GoMarshal.returns (str "t") none), none⟩) = some x ∧
        x.Key = str "k" ∧ x.Content ≠ none) ∧
    (Any (str "k") (GoValue.other ⟨none, none, none, none, none⟩)).map
        (fun x => x.EncodeJSON bytesBuffer) =
      some (⟨bytesBuffer.data ++ (appendString [] (str "k") false ++ [0x3A] ++
          str "\"cant marshal field: no type matched\""), none, bytesBuffer.failure⟩,
        Status.nil) :=
  ⟨⟨by decide,
      (Any_total (str "k") (GoValue.other ⟨none, none, none,
        some (GoMarshal.returns (str "t") none), none⟩) bytesBuffer).2.1 (by decide)⟩,
    (Any_total (str "k") GoValue.nil bytesBuffer).2.2.2.2 rfl⟩

/-- C17: for a value that matches no concrete case, `Any` tries `error`, then
`fmt.Stringer`, then `json.Marshaler`, then `encoding.TextMarshaler`, then
`encoding.BinaryMarshaler`, and the first interface the value implements decides
the Field, whatever the later ones are: the error variant, the stringer variant,
the JSON of a successful `MarshalJSON` written verbatim, the text of a successful
`MarshalText` as an escaped JSON string, the bytes of a successful
`MarshalBinary` as the binary variant. The later interfaces are not called: what
their methods would do, a panic included, has no effect. -/
theorem Any_interface_order (k c : List Nat) (e : GoError) (s : GoStringer)
    (os : Option GoStringer) (mj mt mb : Option GoMarshal) (w : Buffer)
    (hw : w.budget = none) :
    (Any k (GoValue.other ⟨some e, os, mj, mt, mb⟩) = some (New.Error k (some e)) ∧
      (New.Error k (some e)).Content = some (Content.ErrorContent (some e)) ∧
      (Content.ErrorContent (some e)).Type_ = TypeError) ∧
    (Any k (GoValue.other ⟨none, some s, mj, mt, mb⟩) = some (New.Stringer k (some s)) ∧
      (New.Stringer k (some s)).Content = some (Content.StringerContent (some s)) ∧
      (New.Stringer k (some s)).EncodeJSON w =
        (⟨w.data ++ (appendString [] k false ++ [0x3A] ++ appendString [] (Sprintf_s s) false),
          none, w.failure⟩, Status.nil)) ∧
    (Any k (GoValue.other ⟨none, none, some (GoMarshal.returns c none), mt, mb⟩) =
        some (New.JsonRawMessage k c) ∧
      (New.JsonRawMessage k c).Content = some (Content.JSONContent c) ∧
      (Content.JSONContent c).Type_ = TypeJSON ∧
      (New.JsonRawMessage k c).EncodeJSON w =
        (⟨w.data ++ (appendString [] k false ++ [0x3A] ++ c), none, w.failure⟩, Status.nil)) ∧
    (Any k (GoValue.other ⟨none, none, none, some (GoMarshal.returns c none), mb⟩) =
        some (New.ByteString k c) ∧
      (New.ByteString k c).Content = some (Content.StringContent c) ∧
      (Content.StringContent c).Type_ = TypeString ∧
      (New.ByteString k c).EncodeJSON w =
        (⟨w.data ++ (appendString [] k false ++ [0x3A] ++ appendString [] c false), none,
          w.failure⟩, Status.nil)) ∧
    (Any k (GoValue.other ⟨none, none, none, none, some (GoMarshal.returns c none)⟩) =
        some (New.Binary k c) ∧
      (New.Binary k c).Content = some (Content.BinaryContent c) ∧
      (Content.BinaryContent c).Type_ = TypeBinary) := by
  refine ⟨⟨rfl, rfl, rfl⟩, ⟨rfl, rfl, ?_⟩, ⟨rfl, rfl, rfl, ?_⟩, ⟨rfl, rfl, rfl, ?_⟩,
    ⟨rfl, rfl, rfl⟩⟩
  · exact field_encode k (Content.StringerContent (some s)) w hw
  · exact field_encode k (Content.JSONContent c) w hw
  · exact field_encode k (Content.StringContent c) w hw

theorem Any_interface_order_witness :
    (Any (str "k") (GoValue.other ⟨none, some (GoStringer.returns (str "text")),
        some (GoMarshal.returns (str "true") none), some (GoMarshal.returns (str "t") none),
        none⟩)).map (fun x => x.EncodeJSON bytesBuffer) =
      some (⟨str "\"k\":\"text\"", none, GoError.plain []⟩, Status.nil) ∧
    (Any (str "k") (GoValue.other ⟨none, none, some (GoMarshal.returns (str "true") none),
        some GoMarshal.panics, none⟩)).map (fun x => x.EncodeJSON bytesBuffer) =
      some (⟨str "\"k\":true", none, GoError.plain []⟩, Status.nil) :=
  ⟨(congrArg (Option.map (fun x => x.EncodeJSON bytesBuffer))
      (Any_interface_order (str "k") [] (GoError.plain []) (GoStringer.returns (str "text"))
        none (some (GoMarshal.returns (str "true") none))
        (some (GoMarshal.returns (str "t") none)) none bytesBuffer rfl).2.1.1).trans
      (by decide),
    (congrArg (Option.map (fun x => x.EncodeJSON bytesBuffer))
      (Any_interface_order (str "k") (str "true") (GoError.plain []) GoStringer.nilPointer none
        none (some GoMarshal.panics) none bytesBuffer rfl).2.2.1.1).trans
      (by decide)⟩

/-- C18, counterexample: `MarshalJSON` of the value fails with an error that is
itself JSON-capable. `errors.As` finds that error through the `%w` wrap, so the
encoding of the error variant is delegated to the error's own `MarshalJSON`: when
this one fails too, `EncodeJSON` on a `bytes.Buffer` writes the key and `:` and
returns its error; when it succeeds, its JSON is written in place of the
description `cant marshal json: ...`. -/
theorem Any_marshal_failure_json_capable :
    (Any (str "k") (GoValue.other ⟨none, none,
        some (GoMarshal.returns []
          (some (GoError.jsonFail (str "bad") (GoError.plain (str "inner"))))),
        none, none⟩)).map (fun x => x.EncodeJSON bytesBuffer) =
      some (⟨str "\"k\":", none, GoError.plain []⟩,
        Status.err (GoError.plain (str "inner"))) ∧
    (Any (str "k") (GoValue.other ⟨none, none,
        some (GoMarshal.returns []
          (some (GoError.jsonOk (str "bad") (str "\x7b\"code\":1\x7d")))),
        none, none⟩)).map (fun x => x.EncodeJSON bytesBuffer) =
      some (⟨str "\"k\":\x7b\"code\":1\x7d", none, GoError.plain []⟩, Status.nil) ∧
    appendString [] (str "cant marshal json: " ++ str "bad") false ≠ str "\x7b\"code\":1\x7d" := by
  refine ⟨by decide, by decide, by decide⟩

/-- C18, amended: when `MarshalJSON` (`MarshalText`, `MarshalBinary`) of a value
that reaches that case returns an error `e` that has no JSON-capable error in
its unwrap chain, `Any` returns a Field of the error variant
(`Type() = TypeError`), and `EncodeJSON` on a sink that accepts every write
returns a nil error after writing the key, `:` and the JSON string literal of
`cant marshal json: ` (`cant marshal text: `, `cant marshal binary: `) followed by
`e.Error()`. -/
theorem Any_marshal_failure (k c : List Nat) (e : GoError)
    (mt mb : Option GoMarshal) (w : Buffer) (hw : w.budget = none)
    (he : errorsAsJsonErr e = none) :
    ((Any k (GoValue.other ⟨none, none, some (GoMarshal.returns c (some e)), mt, mb⟩)).map
          (fun x => x.Content) =
        some (some (Content.ErrorContent (some (Errorf_w (str "cant marshal json: ") e)))) ∧
      (Any k (GoValue.other ⟨none, none, some (GoMarshal.returns c (some e)), mt, mb⟩)).map
          (fun x => x.EncodeJSON w) =
        some (⟨w.data ++ (appendString [] k false ++ [0x3A] ++
            appendString [] (str "cant marshal json: " ++ e.Error) false), none, w.failure⟩,
          Status.nil)) ∧
    ((Any k (GoValue.other ⟨none, none, none, some (GoMarshal.returns c (some e)), mb⟩)).map
          (fun x => x.Content) =
        some (some (Content.ErrorContent (some (Errorf_w (str "cant marshal text: ") e)))) ∧
      (Any k (GoValue.other ⟨none, none, none, some (GoMarshal.returns c (some e)), mb⟩)).map
          (fun x => x.EncodeJSON w) =
        some (⟨w.data ++ (appendString [] k false ++ [0x3A] ++
            appendString [] (str "cant marshal text: " ++ e.Error) false), none, w.failure⟩,
          Status.nil)) ∧
    ((Any k (GoValue.other ⟨none, none, none, none, some (GoMarshal.returns c (some e))⟩)).map
          (fun x => x.Content) =
        some (some (Content.ErrorContent (some (Errorf_w (str "cant marshal binary: ") e)))) ∧
      (Any k (GoValue.other ⟨none, none, none, none, some (GoMarshal.returns c (some e))⟩)).map
          (fun x => x.EncodeJSON w) =
        some (⟨w.data ++ (appendString [] k false ++ [0x3A] ++
            appendString [] (str "cant marshal binary: " ++ e.Error) false), none, w.failure⟩,
          Status.nil)) ∧
    (∀ pre : List Nat, (Content.ErrorContent (some (Errorf_w pre e))).Type_ = TypeError) := by
  have key : ∀ pre : List Nat,
      Option.map (fun x : Field => x.EncodeJSON w)
          (some ⟨k, some (Content.ErrorContent (some (Errorf_w pre e)))⟩) =
        some (⟨w.data ++ (appendString [] k false ++ [0x3A] ++
            appendString [] (pre ++ e.Error) false), none, w.failure⟩, Status.nil) := by
    intro pre
    have h := field_encode k (Content.ErrorContent (some (Errorf_w pre e))) w hw
    have ho := Error_output (Errorf_w pre e) (by simpa [Errorf_w, errorsAsJsonErr] using he)
    rw [ho.1, ho.2] at h
    rw [Option.map_some']
    exact congrArg some h
  exact ⟨⟨rfl, key _⟩, ⟨rfl, key _⟩, ⟨rfl, key _⟩, fun _ => rfl⟩

theorem Any_marshal_failure_witness :
    (Any (str "k") (GoValue.other ⟨none, none,
        some (GoMarshal.returns [] (some (GoError.plain (str "bad")))), none, none⟩)).map
        (fun x => x.EncodeJSON bytesBuffer) =
      some (⟨str "\"k\":\"cant marshal json: bad\"", none, GoError.plain []⟩, Status.nil) :=
  (Any_marshal_failure (str "k") [] (GoError.plain (str "bad")) none none bytesBuffer rfl
    rfl).1.2.trans (by decide)

/-! ## Resolution of a slice: claim C14 -/

theorem slice_encode {T : Type} (k : List Nat) (v : List T) (conv : T → Content)
    (mk : T → GoValue) (w : Buffer) (hw : w.budget = none)
    (hconv : ∀ a, returnedOutput (Any k (mk a)) = (conv a).output)
    (hok : ∀ a ∈ v, (conv a).status = Status.nil) :
    Option.map (fun x : Field => x.EncodeJSON w) (some ⟨k, some (newArray v conv)⟩) =
      some (⟨w.data ++ (appendString [] k false ++ [0x3A] ++
          ([0x5B] ++ List.intercalate [0x2C]
            ((v.map mk).map (fun x => returnedOutput (Any k x))) ++ [0x5D])), none,
          w.failure⟩, Status.nil) := by
  have h := field_encode k (newArray v conv) w hw
  have ha := array_output (v.map conv) (by
    intro c hc
    obtain ⟨a, hav, rfl⟩ := List.mem_map.mp hc
    exact hok a hav)
  have hm : (v.map conv).map Content.output =
      (v.map mk).map (fun x => returnedOutput (Any k x)) := by
    rw [List.map_map, List.map_map]
    apply List.map_congr_left
    intro a _
    simp only [Function.comp, hconv a]
  unfold newArray at h
  rw [ha.1, ha.2, hm] at h
  rw [Option.map_some']
  unfold newArray
  rw [h]

theorem elems_returned (k : List Nat) (s : GoValue) (xs : List GoValue)
    (hs : s.elems = some xs) : ∀ x ∈ xs, (Any k x).isSome = true := by
  intro x hx
  cases s with
  | bools v => cases Option.some.inj hs; obtain ⟨a, _, rfl⟩ := List.mem_map.mp hx; rfl
  | complex128s v => cases Option.some.inj hs; obtain ⟨a, _, rfl⟩ := List.mem_map.mp hx; rfl
  | complex64s v => cases Option.some.inj hs; obtain ⟨a, _, rfl⟩ := List.mem_map.mp hx; rfl
  | float64s v => cases Option.some.inj hs; obtain ⟨a, _, rfl⟩ := List.mem_map.mp hx; rfl
  | float32s v => cases Option.some.inj hs; obtain ⟨a, _, rfl⟩ := List.mem_map.mp hx; rfl
  | ints T v =>
    cases Option.some.inj hs
    obtain ⟨a, _, rfl⟩ := List.mem_map.mp hx
    cases T <;> rfl
  | strings v => cases Option.some.inj hs; obtain ⟨a, _, rfl⟩ := List.mem_map.mp hx; rfl
  | uints T v =>
    cases T
    case uint8 => cases hs
    all_goals
      cases Option.some.inj hs
      obtain ⟨a, _, rfl⟩ := List.mem_map.mp hx
      rfl
  | uintptrs v => cases Option.some.inj hs; obtain ⟨a, _, rfl⟩ := List.mem_map.mp hx; rfl
  | times v => cases Option.some.inj hs; obtain ⟨a, _, rfl⟩ := List.mem_map.mp hx; rfl
  | durations v => cases Option.some.inj hs; obtain ⟨a, _, rfl⟩ := List.mem_map.mp hx; rfl
  | errors v =>
    cases Option.some.inj hs
    obtain ⟨a, _, rfl⟩ := List.mem_map.mp hx
    cases a <;> rfl
  | _ => cases hs

/-- C14, counterexample: a slice of one error whose own `MarshalJSON` fails.
`EncodeJSON` of the Field that `Any` returns writes the key, `:` and `[` into a
`bytes.Buffer` and returns an error; no `]` is written. -/
theorem Any_slice_failing_error :
    (Any (str "k") (GoValue.errors
        [some (GoError.jsonFail (str "e") (GoError.plain (str "inner")))])).map
        (fun x => x.EncodeJSON bytesBuffer) =
      some (⟨str "\"k\":[", none, GoError.plain []⟩,
        Status.err (GoError.plain (str "inner"))) := by
  decide

/-- C14, amended: for every slice `s` of a supported scalar kind other than
`uint8`, with elements `xs`, on a sink that accepts every write: `Any` returns a
Field for `s` and for every element; and provided that, when `s` is a slice of
errors, the value encoding of `Any(k, x)` succeeds for every element `x`,
`EncodeJSON` of `Any(k, s)` succeeds and appends the key, `:`, `[`, the value
encodings of `Any(k, x)` for the elements joined by `,`, and `]`; for the empty
slice that is the key followed by `:[]`. -/
theorem Any_slice (k : List Nat) (s : GoValue) (xs : List GoValue) (w : Buffer)
    (hw : w.budget = none) (hs : s.elems = some xs)
    (hok : (∃ es, s = GoValue.errors es) →
      ∀ x ∈ xs, returnedStatus (Any k x) = Status.nil) :
    (Any k s).map (fun x => x.EncodeJSON w) =
      some (⟨w.data ++ (appendString [] k false ++ [0x3A] ++
          ([0x5B] ++ List.intercalate [0x2C] (xs.map (fun x => returnedOutput (Any k x))) ++
            [0x5D])), none, w.failure⟩, Status.nil) ∧
    (∀ x ∈ xs, (Any k x).isSome = true) ∧
    (xs = [] → (Any k s).map (fun x => x.EncodeJSON w) =
      some (⟨w.data ++ (appendString [] k false ++ str ":[]"), none, w.failure⟩,
        Status.nil)) := by
  have main : (Any k s).map (fun x => x.EncodeJSON w) =
      some (⟨w.data ++ (appendString [] k false ++ [0x3A] ++
          ([0x5B] ++ List.intercalate [0x2C] (xs.map (fun x => returnedOutput (Any k x))) ++
            [0x5D])), none, w.failure⟩, Status.nil) := by
    cases s with
    | bools v =>
      cases Option.some.inj hs
      exact slice_encode k v Content.BoolContent GoValue.bool w hw (fun _ => rfl)
        (fun a _ => by cases a <;> rfl)
    | complex128s v =>
      cases Option.some.inj hs
      exact slice_encode k v Content.Complex128Content GoValue.complex128 w hw (fun _ => rfl)
        (fun _ _ => rfl)
    | complex64s v =>
      cases Option.some.inj hs
      exact slice_encode k v Content.Complex64Content GoValue.complex64 w hw (fun _ => rfl)
        (fun _ _ => rfl)
    | float64s v =>
      cases Option.some.inj hs
      exact slice_encode k v Content.Float64Content GoValue.float64 w hw (fun _ => rfl)
        (fun _ _ => rfl)
    | float32s v =>
      cases Option.some.inj hs
      exact slice_encode k v Content.Float32Content GoValue.float32 w hw (fun _ => rfl)
        (fun _ _ => rfl)
    | ints T v =>
      cases Option.some.inj hs
      cases T <;>
        exact slice_encode k v (Content.IntContent _) (GoValue.int _) w hw (fun _ => rfl)
          (fun _ _ => rfl)
    | strings v =>
      cases Option.some.inj hs
      exact slice_encode k v Content.StringContent GoValue.string w hw (fun _ => rfl)
        (fun _ _ => rfl)
    | uints T v =>
      cases T
      case uint8 => cases hs
      all_goals
        cases Option.some.inj hs
        exact slice_encode k v (Content.UintContent _) (GoValue.uint _) w hw (fun _ => rfl)
          (fun _ _ => rfl)
    | uintptrs v =>
      cases Option.some.inj hs
      exact slice_encode k v Content.UintptrContent GoValue.uintptr w hw (fun _ => rfl)
        (fun _ _ => rfl)
    | times v =>
      cases Option.some.inj hs
      exact slice_encode k v Content.TimeContent GoValue.time w hw (fun _ => rfl)
        (fun _ _ => rfl)
    | durations v =>
      cases Option.some.inj hs
      have e : Any k (GoValue.durations v) =
          some ⟨k, some (newArray v (fun d => Content.StringerContent d.asStringer))⟩ := by
        simp [Any, New.Durations, New.Stringers, newArray, List.map_map]
      rw [e]
      exact slice_encode k v (fun d => Content.StringerContent d.asStringer) GoValue.duration
        w hw (fun _ => rfl) (fun _ _ => rfl)
    | errors v =>
      cases Option.some.inj hs
      refine slice_encode k v Content.ErrorContent GoValue.ofError w hw ?_ ?_
      · intro a
        cases a <;> rfl
      · intro a ha
        have h := hok ⟨v, rfl⟩ (GoValue.ofError a) (List.mem_map_of_mem _ ha)
        cases a <;> exact h
    | _ => cases hs
  refine ⟨main, elems_returned k s xs hs, ?_⟩
  intro hx
  rw [main, hx, (by decide : str ":[]" = [0x3A, 0x5B, 0x5D])]
  simp [List.intercalate]

theorem Any_slice_witness :
    (Any (str "k") (GoValue.strings [str "a", str "b"])).map
        (fun x => x.EncodeJSON bytesBuffer) =
      some (⟨str "\"k\":[\"a\",\"b\"]", none, GoError.plain []⟩, Status.nil) ∧
    (Any (str "k") (GoValue.errors [none, some (GoError.plain (str "e"))])).map
        (fun x => x.EncodeJSON bytesBuffer) =
      some (⟨str "\"k\":[null,\"e\"]", none, GoError.plain []⟩, Status.nil) ∧
    (Any (str "k") (GoValue.bools [])).map (fun x => x.EncodeJSON bytesBuffer) =
      some (⟨bytesBuffer.data ++ (appendString [] (str "k") false ++ str ":[]"), none,
        bytesBuffer.failure⟩, Status.nil) :=
  ⟨(Any_slice (str "k") (GoValue.strings [str "a", str "b"])
      [GoValue.string (str "a"), GoValue.string (str "b")] bytesBuffer rfl rfl
      (by rintro ⟨es, h⟩; cases h)).1.trans (by decide),
    (Any_slice (str "k") (GoValue.errors [none, some (GoError.plain (str "e"))])
      [GoValue.nil, GoValue.other ⟨some (GoError.plain (str "e")), none, none, none, none⟩]
      bytesBuffer rfl rfl (by
        intro _ x hx
        simp only [List.mem_cons, List.mem_singleton, List.not_mem_nil, or_false] at hx
        rcases hx with rfl | rfl <;> rfl)).1.trans (by decide),
    (Any_slice (str "k") (GoValue.bools []) [] bytesBuffer rfl rfl
      (by rintro ⟨es, h⟩; cases h)).2.2 rfl⟩

/-! ## Write failures: claim C19 -/

theorem runCalls_single {σ : Type} (call : σ → BufferCall → σ × Status) (x : BufferCall)
    (w : σ) : runCalls call [x] w = call w x := by
  rcases h : call w x with ⟨w1, st⟩
  cases st <;> simp [runCalls, h]

theorem runCalls_append {σ : Type} (call : σ → BufferCall → σ × Status)
    (a b : List BufferCall) (w : σ) :
    runCalls call (a ++ b) w = seqOn (runCalls call a) (runCalls call b) w := by
  induction a generalizing w with
  | nil => simp [runCalls, seqOn]
  | cons x xs ih =>
    rcases h : call w x with ⟨w1, st⟩
    cases st with
    | nil =>
      have h1 := ih w1
      simp only [seqOn] at h1
      simpa [runCalls, h, seqOn] using h1
    | err e => simp [runCalls, h, seqOn]
    | panic => simp [runCalls, h, seqOn]

theorem seqOn_calls {σ : Type} (call : σ → BufferCall → σ × Status) (f g : σ → σ × Status)
    (a b : List BufferCall) (hf : ∀ w, f w = runCalls call a w)
    (hg : ∀ w, g w = runCalls call b w) (w : σ) :
    seqOn f g w = runCalls call (a ++ b) w := by
  rw [runCalls_append]
  unfold seqOn
  rw [hf w]
  rcases runCalls call a w with ⟨w1, st⟩
  cases st <;> simp [hg]

theorem comma_calls {σ : Type} (call : σ → BufferCall → σ × Status) (i : Nat) (w : σ) :
    (if i > 0 then call w (BufferCall.WriteByte 0x2C) else (w, Status.nil)) =
      runCalls call (if i > 0 then [BufferCall.WriteByte 0x2C] else []) w := by
  split_ifs
  · rw [runCalls_single]
  · rfl

theorem EncodeJSON_on_Array {σ : Type} (call : σ → BufferCall → σ × Status)
    (xs : List Content) (w : σ) :
    (Content.ArrayContent xs).EncodeJSON_on call w =
      seqOn (fun w => call w (BufferCall.WriteByte 0x5B))
        (seqOn (ArrayContent_loop_on call xs 0) (fun w => call w (BufferCall.WriteByte 0x5D)))
        w := by
  simp only [Content.EncodeJSON_on, seqOn]

theorem ArrayContent_loop_on_cons {σ : Type} (call : σ → BufferCall → σ × Status)
    (c : Content) (rest : List Content) (i : Nat) (w : σ) :
    ArrayContent_loop_on call (c :: rest) i w =
      seqOn (fun w => if i > 0 then call w (BufferCall.WriteByte 0x2C) else (w, Status.nil))
        (seqOn (c.EncodeJSON_on call) (ArrayContent_loop_on call rest (i + 1))) w := by
  simp only [ArrayContent_loop_on, seqOn]

theorem base64EncoderWrite_on_calls {σ : Type} (call : σ → BufferCall → σ × Status) :
    ∀ (fuel : Nat) (p : List Nat) (w : σ),
      (base64EncoderWrite_on call fuel w p).1 =
          (runCalls call (base64EncoderCalls fuel p).1 w).1 ∧
        (base64EncoderWrite_on call fuel w p).2.1 =
          (runCalls call (base64EncoderCalls fuel p).1 w).2 ∧
        ((base64EncoderWrite_on call fuel w p).2.1 = Status.nil →
          (base64EncoderWrite_on call fuel w p).2.2 = (base64EncoderCalls fuel p).2) := by
  intro fuel
  induction fuel with
  | zero =>
    intro p w
    simp [base64EncoderWrite_on, base64EncoderCalls, runCalls]
  | succ fuel ih =>
    intro p w
    simp only [base64EncoderWrite_on, base64EncoderCalls]
    by_cases h3 : p.length ≥ 3
    · simp only [h3, if_true]
      generalize (if 768 > p.length then p.length - p.length % 3 else 768) = nn
      rcases h : call w (BufferCall.Write (base64RawStdEncode (p.take nn))) with ⟨w1, st⟩
      cases st with
      | nil =>
        simp only [runCalls, h]
        exact ih (p.drop nn) w1
      | err e => simp [runCalls, h]
      | panic => simp [runCalls, h]
    · simp only [h3, if_false]
      simp [runCalls]

theorem Binary_calls {σ : Type} (call : σ → BufferCall → σ × Status) (raw : List Nat)
    (w : σ) :
    BinaryContent_EncodeJSON_on call raw w = runCalls call (BinaryContent_calls raw) w := by
  unfold BinaryContent_EncodeJSON_on BinaryContent_calls
  rw [List.append_assoc, List.append_assoc, List.singleton_append]
  rcases h : call w (BufferCall.WriteString
      [0x22, 0x64, 0x61, 0x74, 0x61, 0x3A, 0x3B, 0x62, 0x61, 0x73, 0x65, 0x36, 0x34, 0x2C])
    with ⟨w1, st⟩
  cases st with
  | nil =>
    simp only [runCalls, h]
    obtain ⟨h1, h2, h3⟩ := base64EncoderWrite_on_calls call raw.length raw w1
    rw [runCalls_append]
    unfold seqOn
    rcases hr : runCalls call (base64EncoderCalls raw.length raw).1 w1 with ⟨w2, st2⟩
    rcases hb : base64EncoderWrite_on call raw.length w1 raw with ⟨b2, s2, rest⟩
    rw [hr, hb] at h1 h2
    rw [hb] at h3
    simp only at h1 h2 h3
    subst h1 h2
    cases s2 with
    | nil =>
      simp only
      rw [h3 rfl, runCalls_append]
      unfold seqOn base64EncoderClose_on
      split_ifs
      · rw [runCalls_single]
        rcases call b2 _ with ⟨w3, st3⟩
        cases st3 <;> simp [runCalls_single]
      · simp only [runCalls, runCalls_single]
        rcases call b2 (BufferCall.WriteByte 0x22) with ⟨w3, st3⟩
        cases st3 <;> rfl
    | err e => rfl
    | panic => rfl
  | err e => simp [runCalls, h]
  | panic => simp [runCalls, h]

theorem asJson_plain (e : GoError) (he : errorsAsJsonErr e = none) :
    asJsonErrMarshaler_MarshalJSON e = (appendString [] e.Error false, Status.nil) := by
  simp [asJsonErrMarshaler_MarshalJSON, he, jsonErrMarshaler_MarshalJSON, appendJsonStringBuf,
    Buffer.Write, bytesBuffer]

mutual
theorem calls_Content {σ : Type} (call : σ → BufferCall → σ × Status) :
    (c : Content) → c.noJsonErr = true → ∀ w, c.EncodeJSON_on call w = runCalls call c.calls w
  | .ArrayContent xs, hc, w => by
    rw [EncodeJSON_on_Array]
    simp only [Content.calls]
    rw [List.append_assoc]
    refine seqOn_calls call _ _ _ _ (fun w => (runCalls_single call _ w).symm) ?_ w
    intro w1
    refine seqOn_calls call _ _ _ _ ?_ (fun w => (runCalls_single call _ w).symm) w1
    exact calls_loop call xs 0 (by simpa [Content.noJsonErr] using hc)
  | .NilContent, _, w => by simp only [Content.EncodeJSON_on, Content.calls, runCalls_single]
  | .JSONContent raw, _, w => by
    simp only [Content.EncodeJSON_on, Content.calls, runCalls_single]
  | .BinaryContent raw, _, w => by
    simp only [Content.EncodeJSON_on, Content.calls]
    exact Binary_calls call raw w
  | .BoolContent f, _, w => by
    cases f <;> simp [Content.EncodeJSON_on, Content.calls, runCalls_single]
  | .Complex128Content f, _, w => by
    simp only [Content.EncodeJSON_on, Content.calls, runCalls_single, appendJsonStringBuf_on]
  | .Complex64Content f, _, w => by
    simp only [Content.EncodeJSON_on, Content.calls, runCalls_single, appendJsonStringBuf_on]
  | .ErrorContent none, _, w => by
    simp only [Content.EncodeJSON_on, Content.calls, runCalls_single,
      ErrorContent_EncodeJSON_on]
  | .ErrorContent (some e), hc, w => by
    have he : errorsAsJsonErr e = none := by
      simpa [Content.noJsonErr, Option.isNone_iff_eq_none] using hc
    simp only [Content.EncodeJSON_on, Content.calls, ErrorContent_EncodeJSON_on,
      asJson_plain e he, runCalls_single]
  | .Float32Content f, _, w => by
    simp only [Content.EncodeJSON_on, Content.calls, runCalls_single]
  | .Float64Content f, _, w => by
    simp only [Content.EncodeJSON_on, Content.calls, runCalls_single]
  | .IntContent _ data, _, w => by
    simp only [Content.EncodeJSON_on, Content.calls, runCalls_single]
  | .UintContent _ data, _, w => by
    simp only [Content.EncodeJSON_on, Content.calls, runCalls_single]
  | .UintptrContent f, _, w => by
    simp only [Content.EncodeJSON_on, Content.calls, runCalls_single, Fprintf_sharp0x_on]
  | .StringContent f, _, w => by
    simp only [Content.EncodeJSON_on, Content.calls, runCalls_single, appendJsonStringBuf_on]
  | .StringerContent none, _, w => by
    simp only [Content.EncodeJSON_on, Content.calls, runCalls_single]
  | .StringerContent (some d), _, w => by
    simp only [Content.EncodeJSON_on, Content.calls, runCalls_single, appendJsonStringBuf_on]
  | .TimeContent f, _, w => by
    simp only [Content.EncodeJSON_on, Content.calls, runCalls_single, appendJsonStringBuf_on]
theorem calls_loop {σ : Type} (call : σ → BufferCall → σ × Status) :
    (xs : List Content) → (i : Nat) → ArrayContent_noJsonErr xs = true →
      ∀ w, ArrayContent_loop_on call xs i w = runCalls call (ArrayContent_calls xs i) w
  | [], _, _, w => by simp only [ArrayContent_loop_on, ArrayContent_calls, runCalls]
  | c :: rest, i, hc, w => by
    have h2 : c.noJsonErr = true ∧ ArrayContent_noJsonErr rest = true := by
      simpa [ArrayContent_noJsonErr] using hc
    rw [ArrayContent_loop_on_cons]
    simp only [ArrayContent_calls]
    rw [List.append_assoc]
    refine seqOn_calls call _ _ _ _ (comma_calls call i) ?_ w
    intro w1
    exact seqOn_calls call _ _ _ _ (calls_Content call c h2.1)
      (calls_loop call rest (i + 1) h2.2) w1
end

theorem Field_calls {σ : Type} (call : σ → BufferCall → σ × Status) (k : List Nat)
    (c : Content) (hc : c.noJsonErr = true) (w : σ) :
    Field.EncodeJSON_on call ⟨k, some c⟩ w = runCalls call (Field.calls ⟨k, some c⟩) w := by
  have e : Field.EncodeJSON_on call ⟨k, some c⟩ w =
      seqOn (fun w => call w (BufferCall.Write (appendString [] k false)))
        (seqOn (fun w => call w (BufferCall.WriteByte 0x3A)) (c.EncodeJSON_on call)) w := by
    simp only [Field.EncodeJSON_on, appendJsonStringBuf_on, seqOn]
  rw [e]
  have e2 : Field.calls ⟨k, some c⟩ =
      [BufferCall.Write (appendString [] k false)] ++ ([BufferCall.WriteByte 0x3A] ++ c.calls) :=
    rfl
  rw [e2]
  refine seqOn_calls call _ _ _ _ (fun w => (runCalls_single call _ w).symm) ?_ w
  intro w1
  exact seqOn_calls call _ _ _ _ (fun w => (runCalls_single call _ w).symm)
    (calls_Content call c hc) w1

theorem Fields_loop_calls {σ : Type} (call : σ → BufferCall → σ × Status) :
    ∀ (xs : List Field) (i : Nat),
      (∀ f ∈ xs, ∃ c, f.Content = some c ∧ c.noJsonErr = true) →
      ∀ w, Fields_loop_on call xs i w = runCalls call (Fields_calls xs i) w := by
  intro xs
  induction xs with
  | nil =>
    intro i _ w
    simp only [Fields_loop_on, Fields_calls, runCalls]
  | cons x rest ih =>
    intro i hx w
    obtain ⟨c, hc1, hc2⟩ := hx x (by simp)
    rcases x with ⟨k, oc⟩
    simp only at hc1
    subst hc1
    have e : Fields_loop_on call (⟨k, some c⟩ :: rest) i w =
        seqOn (fun w => if i > 0 then call w (BufferCall.WriteByte 0x2C) else (w, Status.nil))
          (seqOn (Field.EncodeJSON_on call ⟨k, some c⟩) (Fields_loop_on call rest (i + 1)))
          w := by
      simp only [Fields_loop_on, seqOn]
    rw [e]
    simp only [Fields_calls]
    rw [List.append_assoc]
    refine seqOn_calls call _ _ _ _ (comma_calls call i) ?_ w
    intro w1
    exact seqOn_calls call _ _ _ _ (Field_calls call k c hc2)
      (ih (i + 1) (fun f hf => hx f (by simp [hf]))) w1

theorem Fields_calls_eq {σ : Type} (call : σ → BufferCall → σ × Status) (fs : Fields)
    (hfs : ∀ f ∈ fs, ∃ c, f.Content = some c ∧ c.noJsonErr = true) (w : σ) :
    fs.EncodeJSON_on call w = runCalls call fs.calls w := by
  have e : fs.EncodeJSON_on call w =
      seqOn (fun w => call w (BufferCall.WriteByte 0x7B))
        (seqOn (Fields_loop_on call fs.Unique 0) (fun w => call w (BufferCall.WriteByte 0x7D)))
        w := by
    simp only [Fields.EncodeJSON_on, seqOn]
  rw [e]
  unfold Fields.calls
  rw [List.append_assoc]
  refine seqOn_calls call _ _ _ _ (fun w => (runCalls_single call _ w).symm) ?_ w
  intro w1
  refine seqOn_calls call _ _ _ _ ?_ (fun w => (runCalls_single call _ w).symm) w1
  apply Fields_loop_calls call
  intro f hf
  exact hfs f (List.mem_of_find?_eq_some
    (dedupFirst_first fs [] f ((Unique_perm fs).subset hf)).2)

theorem runCalls_first_failure {σ : Type} (call : σ → BufferCall → σ × Status)
    (ws pre post : List BufferCall) (x : BufferCall) (w : σ) (hws : ws = pre ++ x :: post)
    (hpre : (runCalls call pre w).2 = Status.nil)
    (hx : (call (runCalls call pre w).1 x).2 ≠ Status.nil) :
    runCalls call ws w = call (runCalls call pre w).1 x := by
  subst hws
  rw [runCalls_append]
  unfold seqOn
  rcases hr : runCalls call pre w with ⟨w1, st⟩
  rw [hr] at hpre hx
  simp only at hpre hx
  subst hpre
  show runCalls call (x :: post) w1 = call w1 x
  unfold runCalls
  rcases hc : call w1 x with ⟨w2, st2⟩
  rw [hc] at hx
  cases st2 with
  | nil => exact absurd rfl hx
  | err e => rfl
  | panic => rfl

theorem runCalls_fail_iff {σ : Type} (call : σ → BufferCall → σ × Status) :
    ∀ (ws : List BufferCall) (w : σ),
      (runCalls call ws w).2 ≠ Status.nil ↔
        ∃ pre x post, ws = pre ++ x :: post ∧ (runCalls call pre w).2 = Status.nil ∧
          (call (runCalls call pre w).1 x).2 ≠ Status.nil := by
  intro ws w
  constructor
  · induction ws generalizing w with
    | nil => intro h; exact absurd rfl h
    | cons y ys ih =>
      intro h
      rcases hc : call w y with ⟨w1, st⟩
      cases st with
      | nil =>
        have h1 : (runCalls call ys w1).2 ≠ Status.nil := by
          simpa [runCalls, hc] using h
        obtain ⟨pre, x, post, e, hp, hx⟩ := ih w1 h1
        refine ⟨y :: pre, x, post, by rw [e]; rfl, ?_, ?_⟩
        · simpa [runCalls, hc] using hp
        · simpa [runCalls, hc] using hx
      | err e =>
        exact ⟨[], y, ys, rfl, rfl, by simp [runCalls, hc]⟩
      | panic =>
        exact ⟨[], y, ys, rfl, rfl, by simp [runCalls, hc]⟩
  · rintro ⟨pre, x, post, e, hp, hx⟩
    rw [runCalls_first_failure call ws pre post x w e hp hx]
    exact hx

theorem seqOn_eq_seqE (f g : Buffer → Buffer × Status) : seqOn f g = seqE f g := by
  funext w
  unfold seqOn seqE
  rcases f w with ⟨b, st⟩
  cases st <;> rfl

theorem base64EncoderWrite_on_Buffer :
    ∀ (fuel : Nat) (w : Buffer) (p : List Nat),
      base64EncoderWrite_on Buffer.call fuel w p = base64EncoderWrite fuel w p := by
  intro fuel
  induction fuel with
  | zero => intro w p; rfl
  | succ fuel ih =>
    intro w p
    simp only [base64EncoderWrite_on, base64EncoderWrite, Buffer.call]
    generalize (if 768 > p.length then p.length - p.length % 3 else 768) = nn
    by_cases h3 : p.length ≥ 3
    · simp only [h3, if_true]
      rcases w.Write (base64RawStdEncode (List.take nn p)) with ⟨w1, st⟩
      cases st
      · exact ih w1 _
      · rfl
      · rfl
    · simp only [h3, if_false]

theorem Binary_on_Buffer (raw : List Nat) (w : Buffer) :
    BinaryContent_EncodeJSON_on Buffer.call raw w = BinaryContent_EncodeJSON raw w := by
  simp only [BinaryContent_EncodeJSON_on, BinaryContent_EncodeJSON, Buffer.call,
    base64EncoderWrite_on_Buffer, base64EncoderClose_on, base64EncoderClose]
  rcases w.WriteString [0x22, 0x64, 0x61, 0x74, 0x61, 0x3A, 0x3B, 0x62, 0x61, 0x73, 0x65, 0x36,
    0x34, 0x2C] with ⟨b1, st⟩
  cases st
  · simp only
    rcases base64EncoderWrite raw.length b1 raw with ⟨b2, s2, rest⟩
    cases s2
    · simp only
      by_cases hr : rest.length > 0
      · simp only [hr, if_true]
        rcases b2.Write (base64RawStdEncode rest) with ⟨b3, s3⟩
        cases s3 <;> rfl
      · simp only [hr, if_false]
    · rfl
    · rfl
  · rfl
  · rfl

mutual
theorem on_Buffer_Content :
    (c : Content) → ∀ w : Buffer, c.EncodeJSON_on Buffer.call w = c.EncodeJSON w
  | .ArrayContent xs, w => by
    rw [EncodeJSON_on_Array, EncodeJSON_Array]
    have hl : ArrayContent_loop_on Buffer.call xs 0 = ArrayContent_loop xs 0 :=
      funext (on_Buffer_loop xs 0)
    rw [hl, seqOn_eq_seqE, seqOn_eq_seqE]
    rfl
  | .NilContent, w => rfl
  | .JSONContent raw, w => rfl
  | .BinaryContent raw, w => by
    simp only [Content.EncodeJSON_on, Content.EncodeJSON]
    exact Binary_on_Buffer raw w
  | .BoolContent f, w => by cases f <;> rfl
  | .Complex128Content f, w => rfl
  | .Complex64Content f, w => rfl
  | .ErrorContent none, w => rfl
  | .ErrorContent (some e), w => by
    simp only [Content.EncodeJSON_on, Content.EncodeJSON, ErrorContent_EncodeJSON_on,
      ErrorContent_EncodeJSON, Buffer.call]
  | .Float32Content f, w => rfl
  | .Float64Content f, w => rfl
  | .IntContent _ data, w => rfl
  | .UintContent _ data, w => rfl
  | .UintptrContent f, w => rfl
  | .StringContent f, w => rfl
  | .StringerContent none, w => rfl
  | .StringerContent (some d), w => rfl
  | .TimeContent f, w => rfl
theorem on_Buffer_loop :
    (xs : List Content) → (i : Nat) → ∀ w : Buffer,
      ArrayContent_loop_on Buffer.call xs i w = ArrayContent_loop xs i w
  | [], _, w => by simp only [ArrayContent_loop_on, ArrayContent_loop]
  | c :: rest, i, w => by
    rw [ArrayContent_loop_on_cons, ArrayContent_loop_cons]
    have h1 : c.EncodeJSON_on Buffer.call = c.EncodeJSON := funext (on_Buffer_Content c)
    have h2 : ArrayContent_loop_on Buffer.call rest (i + 1) = ArrayContent_loop rest (i + 1) :=
      funext (on_Buffer_loop rest (i + 1))
    rw [h1, h2, seqOn_eq_seqE, seqOn_eq_seqE]
    rfl
end

theorem Field_on_eq {σ : Type} (call : σ → BufferCall → σ × Status) (x : Field) :
    x.EncodeJSON_on call =
      seqOn (fun w => call w (BufferCall.Write (appendString [] x.Key false)))
        (seqOn (fun w => call w (BufferCall.WriteByte 0x3A))
          (fun w => match x.Content with
            | some c => c.EncodeJSON_on call w
            | none => (w, Status.panic))) := by
  funext w
  rcases x with ⟨k, _ | c⟩ <;>
  simp only [Field.EncodeJSON_on, appendJsonStringBuf_on, seqOn]

theorem on_Buffer_Field (x : Field) (w : Buffer) :
    x.EncodeJSON_on Buffer.call w = x.EncodeJSON w := by
  rw [Field_on_eq, Field_EncodeJSON_eq, seqOn_eq_seqE, seqOn_eq_seqE]
  rcases x with ⟨k, _ | c⟩
  · rfl
  · have h1 : c.EncodeJSON_on Buffer.call = c.EncodeJSON := funext (on_Buffer_Content c)
    simp only [h1]
    rfl

theorem Fields_loop_on_cons {σ : Type} (call : σ → BufferCall → σ × Status) (x : Field)
    (rest : List Field) (i : Nat) :
    Fields_loop_on call (x :: rest) i =
      seqOn (fun w => if i > 0 then call w (BufferCall.WriteByte 0x2C) else (w, Status.nil))
        (seqOn (x.EncodeJSON_on call) (Fields_loop_on call rest (i + 1))) := by
  funext w
  simp only [Fields_loop_on, seqOn]

theorem Fields_on_eq {σ : Type} (call : σ → BufferCall → σ × Status) (fs : Fields) :
    fs.EncodeJSON_on call =
      seqOn (fun w => call w (BufferCall.WriteByte 0x7B))
        (seqOn (Fields_loop_on call fs.Unique 0)
          (fun w => call w (BufferCall.WriteByte 0x7D))) := by
  funext w
  simp only [Fields.EncodeJSON_on, seqOn]

theorem on_Buffer_Fields_loop :
    ∀ (xs : List Field) (i : Nat) (w : Buffer),
      Fields_loop_on Buffer.call xs i w = Fields_loop xs i w := by
  intro xs
  induction xs with
  | nil => intro i w; rfl
  | cons x rest ih =>
    intro i w
    have h1 : x.EncodeJSON_on Buffer.call = x.EncodeJSON := funext (on_Buffer_Field x)
    have h2 : Fields_loop_on Buffer.call rest (i + 1) = Fields_loop rest (i + 1) :=
      funext (ih (i + 1))
    rw [Fields_loop_on_cons, Fields_loop_cons, h1, h2, seqOn_eq_seqE, seqOn_eq_seqE]
    rfl

theorem on_Buffer_Fields (fs : Fields) (w : Buffer) :
    fs.EncodeJSON_on Buffer.call w = fs.EncodeJSON w := by
  have h2 : Fields_loop_on Buffer.call fs.Unique 0 = Fields_loop fs.Unique 0 :=
    funext (on_Buffer_Fields_loop fs.Unique 0)
  rw [Fields_on_eq, Fields_EncodeJSON_eq, h2, seqOn_eq_seqE, seqOn_eq_seqE]
  rfl

theorem Buffer_call_eq (w : Buffer) (x : BufferCall) : w.call x = w.Write x.bytes := by
  cases x <;> rfl

theorem runCalls_Buffer :
    ∀ (ws : List BufferCall) (w : Buffer),
      runCalls Buffer.call ws w =
        match w.budget with
        | none => (⟨w.data ++ (ws.map BufferCall.bytes).flatten, none, w.failure⟩, Status.nil)
        | some m =>
          if m < ws.length then
            (⟨w.data ++ ((ws.take m).map BufferCall.bytes).flatten, some 0, w.failure⟩,
              Status.err w.failure)
          else
            (⟨w.data ++ (ws.map BufferCall.bytes).flatten, some (m - ws.length), w.failure⟩,
              Status.nil) := by
  intro ws
  induction ws with
  | nil =>
    intro w
    rcases w with ⟨d, _ | m, f⟩ <;> simp [runCalls]
  | cons x xs ih =>
    intro w
    rcases w with ⟨d, _ | m, f⟩
    · simp only [runCalls, Buffer_call_eq, Buffer.Write]
      rw [ih]
      simp
    · cases m with
      | zero => simp [runCalls, Buffer_call_eq, Buffer.Write]
      | succ n =>
        simp only [runCalls, Buffer_call_eq, Buffer.Write]
        rw [ih]
        by_cases hn : n < xs.length
        · simp [hn]
        · simp [hn]

theorem runCalls_Buffer_fail (ws : List BufferCall) (w : Buffer) :
    ((runCalls Buffer.call ws w).2 ≠ Status.nil ↔ ∃ m, w.budget = some m ∧ m < ws.length) ∧
      ((runCalls Buffer.call ws w).2 ≠ Status.nil →
        (runCalls Buffer.call ws w).2 = Status.err w.failure) := by
  rw [runCalls_Buffer]
  rcases w with ⟨d, _ | m, f⟩
  · simp
  · by_cases hm : m < ws.length
    · simp [hm]
    · simp [hm]

/-- C19: let `c` be a Content none of whose error payloads holds a JSON-capable
error in its unwrap chain, and let the sink be any implementation of interface
`Buffer`. `EncodeJSON` issues the method calls `c.calls` in order up to the first
one that returns a non-nil error, returns that error and makes no later call; it
returns a nil error when no call fails. So it returns a non-nil error exactly
when some call on the sink fails, and the state of the sink is then the one the
first failing call left. The same holds for `Field.EncodeJSON` and
`Fields.EncodeJSON`, whose last call writes the closing bracket. On the sink of
this development the error is the failure of the sink. -/
theorem EncodeJSON_write_failure {σ : Type} (call : σ → BufferCall → σ × Status)
    (c : Content) (k : List Nat) (fs : Fields) (w : σ) (hc : c.noJsonErr = true)
    (hfs : ∀ f ∈ fs, ∃ d, f.Content = some d ∧ d.noJsonErr = true) :
    (c.EncodeJSON_on call w = runCalls call c.calls w ∧
      Field.EncodeJSON_on call ⟨k, some c⟩ w = runCalls call (Field.calls ⟨k, some c⟩) w ∧
      fs.EncodeJSON_on call w = runCalls call fs.calls w) ∧
    (∀ ws : List BufferCall,
      ((runCalls call ws w).2 ≠ Status.nil ↔
        ∃ pre x post, ws = pre ++ x :: post ∧ (runCalls call pre w).2 = Status.nil ∧
          (call (runCalls call pre w).1 x).2 ≠ Status.nil) ∧
      (∀ pre x post, ws = pre ++ x :: post → (runCalls call pre w).2 = Status.nil →
        (call (runCalls call pre w).1 x).2 ≠ Status.nil →
        runCalls call ws w = call (runCalls call pre w).1 x)) ∧
    ((∀ xs : List Content, (Content.ArrayContent xs).calls =
        [BufferCall.WriteByte 0x5B] ++ ArrayContent_calls xs 0 ++ [BufferCall.WriteByte 0x5D]) ∧
      fs.calls =
        [BufferCall.WriteByte 0x7B] ++ Fields_calls fs.Unique 0 ++ [BufferCall.WriteByte 0x7D]) ∧
    (∀ b : Buffer,
      c.EncodeJSON b = runCalls Buffer.call c.calls b ∧
      Field.EncodeJSON ⟨k, some c⟩ b = runCalls Buffer.call (Field.calls ⟨k, some c⟩) b ∧
      fs.EncodeJSON b = runCalls Buffer.call fs.calls b ∧
      ((c.EncodeJSON b).2 ≠ Status.nil ↔ ∃ m, b.budget = some m ∧ m < c.calls.length) ∧
      ((c.EncodeJSON b).2 ≠ Status.nil → (c.EncodeJSON b).2 = Status.err b.failure)) := by
  refine ⟨⟨calls_Content call c hc w, Field_calls call k c hc w, Fields_calls_eq call fs hfs w⟩,
    fun ws => ⟨runCalls_fail_iff call ws w,
      fun pre x post h1 h2 h3 => runCalls_first_failure call ws pre post x w h1 h2 h3⟩,
    ⟨fun xs => by simp only [Content.calls], rfl⟩, ?_⟩
  intro b
  have e1 : c.EncodeJSON b = runCalls Buffer.call c.calls b := by
    rw [← on_Buffer_Content c b]
    exact calls_Content Buffer.call c hc b
  refine ⟨e1, ?_, ?_, ?_, ?_⟩
  · rw [← on_Buffer_Field _ b]
    exact Field_calls Buffer.call k c hc b
  · rw [← on_Buffer_Fields fs b]
    exact Fields_calls_eq Buffer.call fs hfs b
  · rw [e1]
    exact (runCalls_Buffer_fail c.calls b).1
  · rw [e1]
    exact (runCalls_Buffer_fail c.calls b).2

theorem EncodeJSON_write_failure_witness :
    (Content.ArrayContent [Content.BoolContent true, Content.NilContent]).EncodeJSON
        ⟨[], some 2, GoError.plain (str "full")⟩ =
      runCalls Buffer.call
        (Content.ArrayContent [Content.BoolContent true, Content.NilContent]).calls
        ⟨[], some 2, GoError.plain (str "full")⟩ ∧
    (Content.ArrayContent [Content.BoolContent true, Content.NilContent]).calls =
      [BufferCall.WriteByte 0x5B, BufferCall.Write (str "true"), BufferCall.WriteByte 0x2C,
        BufferCall.Write (str "null"), BufferCall.WriteByte 0x5D] ∧
    (Content.ArrayContent [Content.BoolContent true, Content.NilContent]).EncodeJSON
        ⟨[], some 2, GoError.plain (str "full")⟩ =
      (⟨str "[true", some 0, GoError.plain (str "full")⟩,
        Status.err (GoError.plain (str "full"))) :=
  ⟨((EncodeJSON_write_failure Buffer.call
      (Content.ArrayContent [Content.BoolContent true, Content.NilContent]) (str "k")
      [New.Bool (str "k") true] ⟨[], some 2, GoError.plain (str "full")⟩ (by decide)
      (by
        intro f hf
        simp only [List.mem_singleton] at hf
        subst hf
        exact ⟨Content.BoolContent true, rfl, rfl⟩)).2.2.2
      ⟨[], some 2, GoError.plain (str "full")⟩).1,
    by decide, by decide⟩

/-! ## Extraction and classification: claims C26, C27 -/

theorem ArrayContent_Data_eq (xs : List Content) :
    ArrayContent_Data xs = xs.map Content.Data := by
  induction xs with
  | nil => simp only [ArrayContent_Data, List.map_nil]
  | cons c rest ih => simp only [ArrayContent_Data, List.map_cons, ih]

/-- C27: `Data()` returns the payload. For every scalar constructor of Content
and every payload, `Data()` of the constructed Content is that payload with its
dynamic type (the nil `error` and the nil `fmt.Stringer` come back as the nil
interface, the bytes of `NewJSONContent` as a `json.RawMessage`);
`NewByteStringContent(b).Data()` is the string of the bytes `b`;
`NilContent.Data()` is nil; `ArrayContent.Data()` is a `[]any` of the length of
the array that holds `Data()` of the element at every index. -/
theorem Data_returns_payload (b : Bool) (c : GoComplex) (f : GoFloat) (i : Int) (u : Nat)
    (s : List Nat) (e : GoError) (st : GoStringer) (t : GoTime) (TI : IntKind) (TU : UintKind)
    (xs : List Content) :
    ((NewBoolField b).Data = DataValue.bool b ∧
      (NewComplex128Content c).Data = DataValue.complex128 c ∧
      (NewComplex64Content c).Data = DataValue.complex64 c ∧
      (NewFloat32Content f).Data = DataValue.float32 f ∧
      (NewFloat64Content f).Data = DataValue.float64 f ∧
      (NewIntContent TI i).Data = DataValue.int TI i ∧
      (NewUintContent TU u).Data = DataValue.uint TU u ∧
      (NewUintptrContent u).Data = DataValue.uintptr u ∧
      (NewStringContent s).Data = DataValue.string s ∧
      (NewBinaryContent s).Data = DataValue.bytes s ∧
      (NewJSONContent s).Data = DataValue.rawMessage s ∧
      (NewErrorContent (some e)).Data = DataValue.error e ∧
      (NewErrorContent none).Data = DataValue.nil ∧
      (NewStringerContent (some st)).Data = DataValue.stringer st ∧
      (NewStringerContent none).Data = DataValue.nil ∧
      (NewTimeContent t).Data = DataValue.time t) ∧
    (NewByteStringContent s).Data = DataValue.string s ∧
    NewNilContent.Data = DataValue.nil ∧
    Content.NilContent.Data = DataValue.nil ∧
    (Content.ArrayContent xs).Data = DataValue.anys (xs.map Content.Data) ∧
    (xs.map Content.Data).length = xs.length ∧
    (∀ n : Fin xs.length, (xs.map Content.Data)[n.1]? = some (xs.get n).Data) := by
  refine ⟨⟨rfl, rfl, rfl, rfl, rfl, rfl, rfl, rfl, rfl, rfl, rfl, rfl, rfl, rfl, rfl, rfl⟩,
    rfl, rfl, rfl, ?_, List.length_map _ _, ?_⟩
  · simp only [Content.Data, ArrayContent_Data_eq]
  · intro n
    simp

theorem or_and_bit (t : Nat) : (0x80 ||| t) &&& 0x80 = 0x80 := by
  rw [Nat.and_comm]
  apply Nat.eq_of_testBit_eq
  intro i
  simp only [Nat.testBit_and, Nat.testBit_or]
  cases (Nat.testBit 0x80 i) <;> simp

theorem Type_array_bit (c : Content) :
    c.Type_ &&& TypeArray = if c.isArray then TypeArray else 0 := by
  cases c with
  | ArrayContent xs =>
    cases xs with
    | nil => decide
    | cons x rest =>
      simp only [Content.Type_, Content.isArray, if_true, TypeArray]
      exact or_and_bit _
  | IntContent T d => simp only [Content.Type_, Content.isArray]; rfl
  | UintContent T d => simp only [Content.Type_, Content.isArray]; rfl
  | _ => simp only [Content.Type_, Content.isArray]; rfl

/-- C26: `Type()` of every scalar variant is the constant of the variant, whatever
the payload, and `Type()` of an `ArrayContent` is `TypeArray` (0x80) OR-ed with
`Type()` of element 0, and `TypeArray|TypeNull = 0x80` for the empty array. The
bit 0x80 of `Type()` is set for an `ArrayContent` and clear for every other
content, and every scalar constant is below 0x80. -/
theorem Type_classification (c x : Content) (rest : List Content) (k s : List Nat) (b : Bool)
    (i : Int) (u : Nat) (f : GoFloat) (z : GoComplex) (e : Option GoError)
    (st : Option GoStringer) (d : GoDuration) (t : GoTime) (TI : IntKind) (TU : UintKind) :
    (Content.NilContent.Type_ = TypeNull ∧ TypeNull = 0 ∧
      (Content.BoolContent b).Type_ = TypeBool ∧
      (Content.IntContent TI i).Type_ = TypeInt ∧
      (Content.UintContent TU u).Type_ = TypeUint ∧
      (Content.UintptrContent u).Type_ = TypeUintptr ∧
      (Content.Float32Content f).Type_ = TypeFloat ∧
      (Content.Float64Content f).Type_ = TypeFloat ∧
      (Content.Complex64Content z).Type_ = TypeComplex ∧
      (Content.Complex128Content z).Type_ = TypeComplex ∧
      (Content.StringContent s).Type_ = TypeString ∧
      (NewByteStringContent s).Type_ = TypeString ∧
      (Content.StringerContent st).Type_ = TypeStringer ∧
      (New.Duration k d).Content.map Content.Type_ = some TypeStringer ∧
      (Content.BinaryContent s).Type_ = TypeBinary ∧
      (Content.TimeContent t).Type_ = TypeTime ∧
      (Content.ErrorContent e).Type_ = TypeError ∧
      (Content.JSONContent s).Type_ = TypeJSON) ∧
    (TypeNull < 0x80 ∧ TypeBool < 0x80 ∧ TypeInt < 0x80 ∧ TypeUint < 0x80 ∧
      TypeUintptr < 0x80 ∧ TypeFloat < 0x80 ∧ TypeComplex < 0x80 ∧ TypeString < 0x80 ∧
      TypeStringer < 0x80 ∧ TypeBinary < 0x80 ∧ TypeTime < 0x80 ∧ TypeError < 0x80 ∧
      TypeJSON < 0x80 ∧ TypeArray = 0x80) ∧
    ((Content.ArrayContent (x :: rest)).Type_ = TypeArray ||| x.Type_ ∧
      (Content.ArrayContent []).Type_ = TypeArray ||| TypeNull ∧
      TypeArray ||| TypeNull = 0x80) ∧
    c.Type_ &&& TypeArray = (if c.isArray then TypeArray else 0) ∧
    (c.Type_ &&& TypeArray = TypeArray ↔ ∃ xs, c = Content.ArrayContent xs) := by
  refine ⟨⟨rfl, rfl, rfl, rfl, rfl, rfl, rfl, rfl, rfl, rfl, rfl, rfl, rfl, rfl, rfl, rfl, rfl,
    rfl⟩, by decide, ⟨by simp only [Content.Type_], by simp only [Content.Type_], by decide⟩,
    Type_array_bit c, ?_⟩
  rw [Type_array_bit]
  cases c <;> simp [Content.isArray, TypeArray]

/-! ## Error, stringer and pre-encoded JSON content: claims C23, C24, C25 -/

theorem content_encode (c : Content) (w : Buffer) (hw : w.budget = none) :
    c.EncodeJSON w = (⟨w.data ++ c.output, none, w.failure⟩, c.status) :=
  framing_apply _ (framing_Content c) w hw _ _ rfl rfl

/-- C23: on a sink that accepts every write, `ErrorContent.EncodeJSON` of the nil
error writes exactly `null`, and of a non-nil error `e` without a JSON-capable
error in its unwrap chain it writes the string literal of `e.Error()` (as
`appendString` without HTML escaping gives it) and returns a nil error. So
`Errors(k, [e, nil])` encodes as the key, `:[`, that literal, `,null]`. -/
theorem ErrorContent_EncodeJSON_spec (k : List Nat) (e : GoError) (w : Buffer)
    (hw : w.budget = none) (he : errorsAsJsonErr e = none) :
    (Content.ErrorContent none).EncodeJSON w =
      (⟨w.data ++ str "null", none, w.failure⟩, Status.nil) ∧
    (Content.ErrorContent (some e)).EncodeJSON w =
      (⟨w.data ++ appendString [] e.Error false, none, w.failure⟩, Status.nil) ∧
    (New.Errors k [some e, none]).EncodeJSON w =
      (⟨w.data ++ (appendString [] k false ++ str ":[" ++ appendString [] e.Error false ++
        str ",null]"), none, w.failure⟩, Status.nil) := by
  have ho := Error_output e he
  refine ⟨content_encode _ w hw, ?_, ?_⟩
  · have h := content_encode (Content.ErrorContent (some e)) w hw
    rw [ho.1, ho.2] at h
    exact h
  · have ha := array_output [Content.ErrorContent (some e), Content.ErrorContent none] (by
      intro c hc
      simp only [List.mem_cons, List.mem_singleton, List.not_mem_nil, or_false] at hc
      rcases hc with rfl | rfl
      · exact ho.2
      · rfl)
    have h := field_encode k
      (Content.ArrayContent [Content.ErrorContent (some e), Content.ErrorContent none]) w hw
    rw [ha.1, ha.2] at h
    simp only [List.map_cons, List.map_nil, ho.1] at h
    have hn : (Content.ErrorContent none).output = str "null" := rfl
    rw [hn] at h
    have e1 : New.Errors k [some e, none] =
        ⟨k, some (Content.ArrayContent
          [Content.ErrorContent (some e), Content.ErrorContent none])⟩ := rfl
    rw [e1, h]
    simp [List.intercalate, str]

theorem ErrorContent_EncodeJSON_spec_witness :
    (New.Errors (str "k") [some (GoError.plain (str "a\"b")), none]).EncodeJSON bytesBuffer =
      (⟨str "\"k\":[\"a\\\"b\",null]", none, GoError.plain []⟩, Status.nil) :=
  (ErrorContent_EncodeJSON_spec (str "k") (GoError.plain (str "a\"b")) bytesBuffer rfl rfl).2.2.trans
    (by decide)

/-- C24, counterexample: a payload whose `String()` returns `S` and which also
implements `error`, with `Error()` returning `E`. `fmt.Sprintf("%s", v)` asks for
`error` before `fmt.Stringer`, so `Stringer(k, v)` is encoded on a `bytes.Buffer`
as `"k":"E"`, which is not the literal of the text `String()` returns. -/
theorem StringerContent_error_payload :
    (New.Stringer (str "k") (some ⟨none, false, none, some (GoCall.returns (str "E")),
        GoCall.returns (str "S")⟩)).EncodeJSON bytesBuffer =
      (⟨str "\"k\":\"E\"", none, GoError.plain []⟩, Status.nil) ∧
    (Content.StringerContent (some ⟨none, false, none, some (GoCall.returns (str "E")),
        GoCall.returns (str "S")⟩)).EncodeJSON bytesBuffer =
      (⟨str "\"E\"", none, GoError.plain []⟩, Status.nil) ∧
    (Content.StringerContent (some ⟨none, false, none, some (GoCall.returns (str "E")),
        GoCall.returns (str "S")⟩)).EncodeJSON bytesBuffer ≠
      (⟨appendString [] (str "S") false, none, GoError.plain []⟩, Status.nil) := by
  decide

/-- C24, amended: on a sink that accepts every write, `StringerContent.EncodeJSON`
writes exactly `null` when the payload is the nil interface, and for every
non-nil payload `s` the string literal of `fmt.Sprintf("%s", s)`, which is
computed by `EncodeJSON`: the Content holds the payload itself. That text is
* the text `t` that `String()` returns, for a payload that is not a
  `reflect.Value` and implements neither `fmt.Formatter` nor `error`;
* the text `t` that `Error()` returns, whatever `String()` does, for a payload
  that is not a `reflect.Value`, does not implement `fmt.Formatter` and
  implements `error`;
* `<nil>`, for a nil pointer that is of neither of these two interfaces and whose
  `String()` panics: the output is the JSON string `"<nil>"`, not `null`.
`Stringer(k, nil)` encodes as the key followed by `:null`. -/
theorem StringerContent_EncodeJSON_spec (k t : List Nat) (s : GoStringer) (w : Buffer)
    (hw : w.budget = none) :
    (Content.StringerContent none).EncodeJSON w =
      (⟨w.data ++ str "null", none, w.failure⟩, Status.nil) ∧
    (Content.StringerContent (some s)).EncodeJSON w =
      (⟨w.data ++ appendString [] (Sprintf_s s) false, none, w.failure⟩, Status.nil) ∧
    ((New.Stringer k (some s)).Content = some (Content.StringerContent (some s)) ∧
      (Content.StringerContent (some s)).Data = DataValue.stringer s) ∧
    (s.reflectValue = none → s.Format = none → s.Error = none →
      s.String = GoCall.returns t → Sprintf_s s = t) ∧
    (s.reflectValue = none → s.Format = none → s.Error = some (GoCall.returns t) →
      Sprintf_s s = t) ∧
    (s.reflectValue = none → s.Format = none → s.Error = none → s.isNilPointer = true →
      (∃ shown, s.String = GoCall.panics shown) → Sprintf_s s = str "<nil>") ∧
    (Content.StringerContent (some (GoStringer.returns t))).EncodeJSON w =
      (⟨w.data ++ appendString [] t false, none, w.failure⟩, Status.nil) ∧
    (Content.StringerContent (some GoStringer.nilPointer)).EncodeJSON w =
      (⟨w.data ++ str "\"<nil>\"", none, w.failure⟩, Status.nil) ∧
    (New.Stringer k none).EncodeJSON w =
      (⟨w.data ++ (appendString [] k false ++ str ":null"), none, w.failure⟩, Status.nil) := by
  refine ⟨content_encode _ w hw, content_encode _ w hw, ⟨rfl, rfl⟩, ?_, ?_, ?_,
    content_encode _ w hw, ?_, ?_⟩
  · intro h1 h2 h3 h4
    simp only [Sprintf_s, h1, h2, h3, h4]
  · intro h1 h2 h3
    simp only [Sprintf_s, h1, h2, h3]
  · intro h1 h2 h3 h4 h5
    obtain ⟨shown, h5⟩ := h5
    simp only [Sprintf_s, h1, h2, h3, h4, h5, catchPanic, if_true]
  · have h := content_encode (Content.StringerContent (some GoStringer.nilPointer)) w hw
    rw [h]
    have e1 : (Content.StringerContent (some GoStringer.nilPointer)).output =
        str "\"<nil>\"" := by decide
    rw [e1]
    rfl
  · have h := field_encode k (Content.StringerContent none) w hw
    have e1 : New.Stringer k none = ⟨k, some (Content.StringerContent none)⟩ := rfl
    rw [e1, h]
    have e2 : (Content.StringerContent none).output = str "null" := rfl
    have e3 : (Content.StringerContent none).status = Status.nil := rfl
    rw [e2, e3]
    simp [str]

/-- Witness of `StringerContent_EncodeJSON_spec`: a duration with the text `1m0s`,
a payload that is an `error` with the text `E`, and a nil pointer. -/
theorem StringerContent_EncodeJSON_spec_witness :
    (Content.StringerContent (some (GoStringer.returns (str "1m0s")))).EncodeJSON bytesBuffer =
      (⟨str "\"1m0s\"", none, GoError.plain []⟩, Status.nil) ∧
    Sprintf_s ⟨none, false, none, some (GoCall.returns (str "E")), GoCall.returns (str "S")⟩ =
      str "E" ∧
    Sprintf_s ⟨none, true, none, none, GoCall.panics (str "p")⟩ = str "<nil>" ∧
    (New.Stringer (str "k") (some GoStringer.nilPointer)).EncodeJSON bytesBuffer =
      (⟨str "\"k\":\"<nil>\"", none, GoError.plain []⟩, Status.nil) :=
  ⟨(StringerContent_EncodeJSON_spec [] (str "1m0s") (GoStringer.returns (str "1m0s"))
      bytesBuffer rfl).2.2.2.2.2.2.1.trans (by decide),
    (StringerContent_EncodeJSON_spec [] (str "E")
      ⟨none, false, none, some (GoCall.returns (str "E")), GoCall.returns (str "S")⟩
      bytesBuffer rfl).2.2.2.2.1 rfl rfl rfl,
    (StringerContent_EncodeJSON_spec [] [] ⟨none, true, none, none, GoCall.panics (str "p")⟩
      bytesBuffer rfl).2.2.2.2.2.1 rfl rfl rfl rfl ⟨str "p", rfl⟩,
    by decide⟩

/-- C25: for every byte sequence `p`, `JSONContent.EncodeJSON` makes the single
call `Write(p)` on the sink, whatever the implementation of the sink, and returns
its error: the bytes are neither inspected nor changed. A sink that accepts every
write receives exactly `p`, and nothing for the empty `p`;
`JsonRawMessage(k, p)` encodes as the key, `:` and `p`. -/
theorem JSONContent_EncodeJSON_spec {σ : Type} (call : σ → BufferCall → σ × Status) (s : σ)
    (k p : List Nat) (w : Buffer) (hw : w.budget = none) :
    (Content.JSONContent p).EncodeJSON_on call s = call s (BufferCall.Write p) ∧
    (Content.JSONContent p).calls = [BufferCall.Write p] ∧
    (Content.JSONContent p).EncodeJSON w = (⟨w.data ++ p, none, w.failure⟩, Status.nil) ∧
    (Content.JSONContent []).EncodeJSON w = (⟨w.data, none, w.failure⟩, Status.nil) ∧
    (New.JsonRawMessage k p).EncodeJSON w =
      (⟨w.data ++ (appendString [] k false ++ [0x3A] ++ p), none, w.failure⟩, Status.nil) := by
  refine ⟨by simp only [Content.EncodeJSON_on], by simp only [Content.calls],
    content_encode _ w hw, ?_, field_encode k (Content.JSONContent p) w hw⟩
  have h := content_encode (Content.JSONContent []) w hw
  rw [h]
  simp [Content.output, Content.status, Content.EncodeJSON, Buffer.Write, bytesBuffer]

theorem JSONContent_EncodeJSON_spec_witness :
    (New.JsonRawMessage (str "case1") (str "\x7b[]\x7d")).EncodeJSON bytesBuffer =
      (⟨str "\"case1\":\x7b[]\x7d", none, GoError.plain []⟩, Status.nil) :=
  (JSONContent_EncodeJSON_spec Buffer.call bytesBuffer (str "case1") (str "\x7b[]\x7d")
    bytesBuffer rfl).2.2.2.2.trans (by decide)

/-! ## Idempotence of deduplication: claim C28 -/

/-- C28: for every Fields value `f`, `Unique` of `f.Unique()` is `f.Unique()`
itself, element for element, and `EncodeJSON` of `f.Unique()` returns on every
sink, of whatever implementation, what `EncodeJSON` of `f` returns: the same
bytes, keys in the same order, and the same error; so does `MarshalJSON`. -/
theorem Unique_idempotent_encoding {σ : Type} (call : σ → BufferCall → σ × Status)
    (f : Fields) :
    Fields.Unique (Fields.Unique f) = Fields.Unique f ∧
    (∀ buf : Buffer, Fields.EncodeJSON (Fields.Unique f) buf = Fields.EncodeJSON f buf) ∧
    Fields.MarshalJSON (Fields.Unique f) = Fields.MarshalJSON f ∧
    (∀ s : σ, Fields.EncodeJSON_on call (Fields.Unique f) s = Fields.EncodeJSON_on call f s) ∧
    (Fields.Unique f).map Field.Key = (Fields.Unique (Fields.Unique f)).map Field.Key := by
  have h1 : ∀ buf : Buffer, Fields.EncodeJSON (Fields.Unique f) buf = Fields.EncodeJSON f buf := by
    intro buf
    unfold Fields.EncodeJSON
    rw [Unique_idempotent]
  refine ⟨Unique_idempotent f, h1, ?_, ?_, by rw [Unique_idempotent]⟩
  · unfold Fields.MarshalJSON
    rw [h1]
  · intro s
    unfold Fields.EncodeJSON_on
    rw [Unique_idempotent]

/-! ## Decimal and hexadecimal digits: claims C21, C22 -/

theorem toDigitsCore_append (b : Nat) :
    ∀ (f n : Nat) (ds : List Char),
      Nat.toDigitsCore b f n ds = Nat.toDigitsCore b f n [] ++ ds := by
  intro f
  induction f with
  | zero => intro n ds; simp [Nat.toDigitsCore]
  | succ f ih =>
    intro n ds
    simp only [Nat.toDigitsCore]
    split_ifs
    · simp
    · rw [ih (n / b) (Nat.digitChar (n % b) :: ds), ih (n / b) [Nat.digitChar (n % b)]]
      simp

theorem toDigitsCore_fuel (b : Nat) (hb : 2 ≤ b) :
    ∀ (f g n : Nat) (ds : List Char), n < f → n < g →
      Nat.toDigitsCore b f n ds = Nat.toDigitsCore b g n ds := by
  intro f
  induction f with
  | zero => intro g n ds h; omega
  | succ f ih =>
    intro g n ds hf hg
    cases g with
    | zero => omega
    | succ g =>
      simp only [Nat.toDigitsCore]
      split_ifs with h0
      · rfl
      · have hlt : n / b < n := by
          have hn : 0 < n := by
            rcases Nat.eq_zero_or_pos n with h | h
            · subst h; simp at h0
            · exact h
          exact Nat.div_lt_self hn hb
        exact ih g (n / b) _ (by omega) (by omega)

theorem toDigits_rec (b : Nat) (hb : 2 ≤ b) (n : Nat) :
    Nat.toDigits b n =
      if n / b = 0 then [Nat.digitChar (n % b)]
      else Nat.toDigits b (n / b) ++ [Nat.digitChar (n % b)] := by
  have h : Nat.toDigits b n =
      if n / b = 0 then [Nat.digitChar (n % b)]
      else Nat.toDigitsCore b n (n / b) [Nat.digitChar (n % b)] := rfl
  rw [h]
  split_ifs with h0
  · rfl
  · have hlt : n / b < n := by
      have hn : 0 < n := by
        rcases Nat.eq_zero_or_pos n with h | h
        · subst h; simp at h0
        · exact h
      exact Nat.div_lt_self hn hb
    rw [toDigitsCore_append, toDigitsCore_fuel b hb n (n / b + 1) (n / b) [] hlt (by omega)]
    rfl

theorem digitChar_toNat (d : Nat) (hd : d < 16) : (Nat.digitChar d).toNat = hexDigit d := by
  interval_cases d <;> rfl

theorem digitValue_hexDigit (d : Nat) (hd : d < 16) : digitValue (hexDigit d) = some d := by
  unfold digitValue hexDigit
  split_ifs <;> first | omega | (congr 1; omega)

theorem parseDigits_append (b : Nat) (l : List Nat) (c : Nat) :
    ∀ acc, parseDigits b (l ++ [c]) acc =
      (parseDigits b l acc).bind (fun a => parseDigits b [c] a) := by
  induction l with
  | nil => intro acc; rfl
  | cons x t ih =>
    intro acc
    simp only [List.cons_append, parseDigits]
    cases digitValue x with
    | none => rfl
    | some d =>
      simp only
      split_ifs
      · exact ih _
      · rfl

theorem parseDigits_toDigits (b : Nat) (hb : 2 ≤ b) (hb16 : b ≤ 16) (n : Nat) :
    parseDigits b ((Nat.toDigits b n).map Char.toNat) 0 = some n := by
  induction n using Nat.strong_induction_on with
  | _ n ih =>
    have hd : n % b < 16 := lt_of_lt_of_le (Nat.mod_lt _ (by omega)) hb16
    have hdb : n % b < b := Nat.mod_lt _ (by omega)
    rw [toDigits_rec b hb n]
    split_ifs with h0
    · have hn : n % b = n := by
        have := Nat.div_add_mod n b
        rw [h0] at this
        simpa using this
      simp only [List.map_cons, List.map_nil, parseDigits, digitChar_toNat _ hd,
        digitValue_hexDigit _ hd, hdb, if_true]
      simp [hn]
    · have hlt : n / b < n := by
        have hn : 0 < n := by
          rcases Nat.eq_zero_or_pos n with h | h
          · subst h; simp at h0
          · exact h
        exact Nat.div_lt_self hn hb
      rw [List.map_append, List.map_cons, List.map_nil, parseDigits_append, ih _ hlt]
      simp only [Option.some_bind, parseDigits, digitChar_toNat _ hd, digitValue_hexDigit _ hd,
        hdb, if_true]
      congr 1
      exact Nat.div_add_mod' n b

theorem toDigits_chars (b : Nat) (hb : 2 ≤ b) (hb16 : b ≤ 16) (n : Nat) :
    ∀ c ∈ (Nat.toDigits b n).map Char.toNat, ∃ d, d < b ∧ c = hexDigit d := by
  induction n using Nat.strong_induction_on with
  | _ n ih =>
    have hd : n % b < 16 := lt_of_lt_of_le (Nat.mod_lt _ (by omega)) hb16
    have hdb : n % b < b := Nat.mod_lt _ (by omega)
    rw [toDigits_rec b hb n]
    split_ifs with h0
    · intro c hc
      simp only [List.map_cons, List.map_nil, List.mem_singleton] at hc
      exact ⟨n % b, hdb, by rw [hc, digitChar_toNat _ hd]⟩
    · have hlt : n / b < n := by
        have hn : 0 < n := by
          rcases Nat.eq_zero_or_pos n with h | h
          · subst h; simp at h0
          · exact h
        exact Nat.div_lt_self hn hb
      intro c hc
      rw [List.map_append, List.mem_append] at hc
      rcases hc with hc | hc
      · exact ih _ hlt c hc
      · simp only [List.map_cons, List.map_nil, List.mem_singleton] at hc
        exact ⟨n % b, hdb, by rw [hc, digitChar_toNat _ hd]⟩

theorem toDigits_ne_nil (b : Nat) (hb : 2 ≤ b) (n : Nat) : Nat.toDigits b n ≠ [] := by
  rw [toDigits_rec b hb n]
  split_ifs
  · simp
  · simp

theorem toDigits_head (b : Nat) (hb : 2 ≤ b) (hb16 : b ≤ 16) (n : Nat) :
    ((Nat.toDigits b n).map Char.toNat).head? = some 0x30 → n = 0 := by
  induction n using Nat.strong_induction_on with
  | _ n ih =>
    have hd : n % b < 16 := lt_of_lt_of_le (Nat.mod_lt _ (by omega)) hb16
    rw [toDigits_rec b hb n]
    split_ifs with h0
    · intro h
      simp only [List.map_cons, List.map_nil, List.head?_cons, Option.some.injEq,
        digitChar_toNat _ hd] at h
      have hn : n % b = n := by
        have := Nat.div_add_mod n b
        rw [h0] at this
        simpa using this
      rw [hn] at h hd
      unfold hexDigit at h
      split_ifs at h <;> omega
    · have hlt : n / b < n := by
        have hn : 0 < n := by
          rcases Nat.eq_zero_or_pos n with h | h
          · subst h; simp at h0
          · exact h
        exact Nat.div_lt_self hn hb
      intro h
      rw [List.map_append, List.head?_append_of_ne_nil _ (by
        simpa using toDigits_ne_nil b hb (n / b))] at h
      exact absurd (ih _ hlt h) h0

theorem FormatUint_canonical (n : Nat) : isCanonicalUint (FormatUint n) := by
  refine ⟨?_, ?_, ?_⟩
  · unfold FormatUint
    simpa using toDigits_ne_nil 10 (by decide) n
  · intro c hc
    obtain ⟨d, hd, rfl⟩ := toDigits_chars 10 (by decide) (by decide) n c hc
    unfold hexDigit
    rw [if_pos hd]
    omega
  · intro h
    have h0 := toDigits_head 10 (by decide) (by decide) n h
    subst h0
    rfl

theorem parseUint_FormatUint (n : Nat) : parseUint (FormatUint n) = some n := by
  unfold parseUint
  rw [if_neg (FormatUint_canonical n).1]
  exact parseDigits_toDigits 10 (by decide) (by decide) n

theorem FormatUint_zero_iff (n : Nat) : FormatUint n = [0x30] ↔ n = 0 := by
  constructor
  · intro h
    have hp := parseUint_FormatUint n
    rw [h] at hp
    have h0 : parseUint [0x30] = some 0 := by decide
    rw [h0] at hp
    exact (Option.some.inj hp).symm
  · rintro rfl
    rfl

theorem FormatUint_head (n : Nat) : (FormatUint n).head? ≠ some 0x2D := by
  intro h
  obtain ⟨hne, hc, _⟩ := FormatUint_canonical n
  cases hl : FormatUint n with
  | nil => exact hne hl
  | cons x t =>
    rw [hl] at h hc
    simp only [List.head?_cons, Option.some.injEq] at h
    have := hc x (List.mem_cons_self _ _)
    omega

theorem parseInt_FormatInt (v : Int) : parseInt (FormatInt v) = some v := by
  unfold FormatInt parseInt
  split_ifs with hv h1 h2
  · simp only [List.tail_cons, parseUint_FormatUint, Option.map_some', Int.ofNat_eq_coe]
    congr 1
    rw [Int.toNat_of_nonneg (by omega)]
    omega
  · simp at h1
  · exact absurd h2 (FormatUint_head _)
  · simp only [parseUint_FormatUint, Option.map_some', Int.ofNat_eq_coe]
    congr 1
    rw [Int.toNat_of_nonneg (by omega)]

theorem FormatInt_canonical (v : Int) : isCanonicalInt (FormatInt v) := by
  unfold FormatInt isCanonicalInt
  split_ifs with hv
  · right
    refine ⟨_, rfl, FormatUint_canonical _, ?_⟩
    rw [Ne, FormatUint_zero_iff]
    omega
  · left
    exact FormatUint_canonical _

theorem toInt64_inRange (T : IntKind) (v : Int) (hv : T.inRange v) : toInt64 v = v := by
  unfold toInt64
  have h : -(2 : Int) ^ 63 ≤ v ∧ v < (2 : Int) ^ 63 := by
    unfold IntKind.inRange at hv
    cases T <;> simp only [IntKind.bits] at hv <;> norm_num at hv ⊢ <;> omega
  norm_num at h ⊢
  omega

theorem toUint64_inRange (T : UintKind) (v : Nat) (hv : T.inRange v) : toUint64 v = v := by
  unfold toUint64
  have h : v < 2 ^ 64 := by
    unfold UintKind.inRange at hv
    cases T <;> simp only [UintKind.bits] at hv <;> norm_num at hv ⊢ <;> omega
  exact Nat.mod_eq_of_lt h

/-- C21: on a sink that accepts every write, `IntContent.EncodeJSON` of a value
`v` of a signed width writes the canonical base-10 text of `v`: digits only, a
leading `-` for a negative value, no leading zero; and `UintContent.EncodeJSON`
of a value of an unsigned width writes its canonical base-10 digits. The
conversion to 64 bits before formatting keeps the value, and reading the output
as a decimal integer gives the value back. -/
theorem Int_EncodeJSON_decimal (TI : IntKind) (TU : UintKind) (v : Int) (u : Nat) (w : Buffer)
    (hw : w.budget = none) (hv : TI.inRange v) (hu : TU.inRange u) :
    ((Content.IntContent TI v).EncodeJSON w =
        (⟨w.data ++ FormatInt (toInt64 v), none, w.failure⟩, Status.nil) ∧
      toInt64 v = v ∧
      isCanonicalInt (FormatInt v) ∧
      parseInt (FormatInt v) = some v ∧
      (v < 0 → FormatInt v = 0x2D :: FormatUint (-v).toNat) ∧
      (0 ≤ v → FormatInt v = FormatUint v.toNat)) ∧
    ((Content.UintContent TU u).EncodeJSON w =
        (⟨w.data ++ FormatUint (toUint64 u), none, w.failure⟩, Status.nil) ∧
      toUint64 u = u ∧
      isCanonicalUint (FormatUint u) ∧
      parseUint (FormatUint u) = some u) := by
  refine ⟨⟨?_, toInt64_inRange TI v hv, FormatInt_canonical v, parseInt_FormatInt v, ?_, ?_⟩,
    ⟨?_, toUint64_inRange TU u hu, FormatUint_canonical u, parseUint_FormatUint u⟩⟩
  · rw [toInt64_inRange TI v hv]
    exact content_encode _ w hw
  · intro h
    unfold FormatInt
    rw [if_pos h]
  · intro h
    unfold FormatInt
    rw [if_neg (by omega)]
  · rw [toUint64_inRange TU u hu]
    exact content_encode _ w hw

theorem Int_EncodeJSON_decimal_witness :
    (Content.IntContent IntKind.int8 (-128)).EncodeJSON bytesBuffer =
      (⟨str "-128", none, GoError.plain []⟩, Status.nil) ∧
    (Content.UintContent UintKind.uint64 18446744073709551615).EncodeJSON bytesBuffer =
      (⟨str "18446744073709551615", none, GoError.plain []⟩, Status.nil) :=
  ⟨(Int_EncodeJSON_decimal IntKind.int8 UintKind.uint64 (-128) 18446744073709551615 bytesBuffer
      rfl (by decide) (by decide)).1.1.trans (by decide),
    (Int_EncodeJSON_decimal IntKind.int8 UintKind.uint64 (-128) 18446744073709551615 bytesBuffer
      rfl (by decide) (by decide)).2.1.trans (by decide)⟩

theorem parseDigits_zeros (b k : Nat) (hb : 0 < b) (l : List Nat) :
    parseDigits b (List.replicate k 0x30 ++ l) 0 = parseDigits b l 0 := by
  induction k with
  | zero => rfl
  | succ k ih =>
    rw [List.replicate_succ, List.cons_append]
    have h0 : digitValue 0x30 = some 0 := by decide
    simp only [parseDigits, h0, hb, if_true, Nat.zero_mul, Nat.add_zero]
    exact ih

theorem hexDigitsPadded_spec (v : Nat) (hv : v < 2 ^ 64) :
    (hexDigitsPadded 16 v).length = 16 ∧
      (∀ c ∈ hexDigitsPadded 16 v, (0x30 ≤ c ∧ c ≤ 0x39) ∨ (0x61 ≤ c ∧ c ≤ 0x66)) ∧
      parseDigits 16 (hexDigitsPadded 16 v) 0 = some v := by
  have hlen : ((Nat.toDigits 16 v).map Char.toNat).length ≤ 16 := by
    rw [List.length_map]
    exact Nat.toDigitsCore_length 16 (by decide) (v + 1) v 16 (by norm_num at hv ⊢; omega)
      (by decide)
  unfold hexDigitsPadded
  refine ⟨?_, ?_, ?_⟩
  · simp only [List.length_append, List.length_replicate]
    omega
  · intro c hc
    rw [List.mem_append] at hc
    rcases hc with hc | hc
    · rw [List.eq_of_mem_replicate hc]
      left
      omega
    · obtain ⟨d, hd, rfl⟩ := toDigits_chars 16 (by decide) (by decide) v c hc
      unfold hexDigit
      split_ifs <;> omega
  · rw [parseDigits_zeros 16 _ (by decide)]
    exact parseDigits_toDigits 16 (by decide) (by decide) v

/-- C22: on a sink that accepts every write, `UintptrContent.EncodeJSON` of a
value `v` below 2^64 (8-byte pointers) writes the unquoted token `0x` followed by
exactly 16 characters, twice the size of a pointer in bytes, that are lowercase
hexadecimal digits and read as the number `v`, padded with zeros on the left; the
output has 18 bytes. -/
theorem Uintptr_EncodeJSON_hex (v : Nat) (w : Buffer) (hw : w.budget = none)
    (hv : v < 2 ^ 64) :
    (Content.UintptrContent v).EncodeJSON w =
      (⟨w.data ++ (str "0x" ++ hexDigitsPadded (2 * Sizeof_uintptr) v), none, w.failure⟩,
        Status.nil) ∧
    (hexDigitsPadded (2 * Sizeof_uintptr) v).length = 16 ∧
    (str "0x" ++ hexDigitsPadded (2 * Sizeof_uintptr) v).length = 18 ∧
    (∀ c ∈ hexDigitsPadded (2 * Sizeof_uintptr) v,
      (0x30 ≤ c ∧ c ≤ 0x39) ∨ (0x61 ≤ c ∧ c ≤ 0x66)) ∧
    parseDigits 16 (hexDigitsPadded (2 * Sizeof_uintptr) v) 0 = some v ∧
    (∃ k, hexDigitsPadded (2 * Sizeof_uintptr) v =
      List.replicate k 0x30 ++ (Nat.toDigits 16 v).map Char.toNat) := by
  have e : 2 * Sizeof_uintptr = 16 := rfl
  rw [e]
  obtain ⟨h1, h2, h3⟩ := hexDigitsPadded_spec v hv
  refine ⟨content_encode _ w hw, h1, ?_, h2, h3, ⟨_, rfl⟩⟩
  rw [List.length_append, h1]
  rfl

theorem Uintptr_EncodeJSON_hex_witness :
    (Content.UintptrContent 1).EncodeJSON bytesBuffer =
      (⟨str "0x0000000000000001", none, GoError.plain []⟩, Status.nil) ∧
    (New.Uintptr (str "k") 0xFFFFFFFFFFFFFFFF).EncodeJSON bytesBuffer =
      (⟨str "\"k\":0xffffffffffffffff", none, GoError.plain []⟩, Status.nil) :=
  ⟨(Uintptr_EncodeJSON_hex 1 bytesBuffer rfl (by decide)).1.trans (by decide), by decide⟩

/-! ## Decoding of the output of the string encoder: claims C29, C30 -/

theorem unescape_nil : unescape [] = some [] := by
  rw [unescape.eq_def]

theorem unescape_plain (b : Nat) (r : List Nat) (h1 : b ≠ 0x5C) (h2 : b ≠ 0x22) :
    unescape (b :: r) = (unescape r).map (fun l => b :: l) := by
  rw [unescape.eq_def]
  simp only [h1, h2, if_false]

theorem unescape_raw (p r : List Nat) (hp : ∀ x ∈ p, 0x80 ≤ x) :
    unescape (p ++ r) = (unescape r).map (fun l => p ++ l) := by
  induction p with
  | nil => simp
  | cons x t ih =>
    have hx := hp x (List.mem_cons_self _ _)
    rw [List.cons_append, unescape_plain x _ (by omega) (by omega),
      ih (fun y hy => hp y (List.mem_cons_of_mem _ hy))]
    cases unescape r <;> rfl

theorem unescape_esc2 (e : Nat) (r : List Nat) (he : e = 0x5C ∨ e = 0x22) :
    unescape (0x5C :: e :: r) = (unescape r).map (fun l => e :: l) := by
  rw [unescape.eq_def]
  simp only [he, if_true]

theorem unescape_letter (e c : Nat) (r : List Nat)
    (he : (e = 0x6E ∧ c = 0x0A) ∨ (e = 0x72 ∧ c = 0x0D) ∨ (e = 0x74 ∧ c = 0x09)) :
    unescape (0x5C :: e :: r) = (unescape r).map (fun l => c :: l) := by
  rw [unescape.eq_def]
  rcases he with ⟨rfl, rfl⟩ | ⟨rfl, rfl⟩ | ⟨rfl, rfl⟩ <;> simp

theorem unescape_u (h1 h2 h3 h4 d1 d2 d3 d4 : Nat) (r : List Nat)
    (e1 : hexValue h1 = some d1) (e2 : hexValue h2 = some d2) (e3 : hexValue h3 = some d3)
    (e4 : hexValue h4 = some d4) :
    unescape (0x5C :: 0x75 :: h1 :: h2 :: h3 :: h4 :: r) =
      (unescape r).map (fun l => utf8Encode (((d1 * 16 + d2) * 16 + d3) * 16 + d4) ++ l) := by
  rw [unescape.eq_def]
  simp [e1, e2, e3, e4]

theorem hexValue_hexDigit (d : Nat) (hd : d < 16) : hexValue (hexDigit d) = some d := by
  unfold hexValue hexDigit
  split_ifs <;> first | omega | (congr 1; omega)

theorem unescape_appendEscape (b : Nat) (r : List Nat) (hb : b < 0x80) :
    unescape (appendEscape [] b ++ r) = (unescape r).map (fun l => b :: l) := by
  unfold appendEscape
  split_ifs with h1 h2 h3 h4
  · exact unescape_esc2 b r h1
  · exact unescape_letter _ b r (Or.inl ⟨rfl, h2⟩)
  · exact unescape_letter _ b r (Or.inr (Or.inl ⟨rfl, h3⟩))
  · exact unescape_letter _ b r (Or.inr (Or.inr ⟨rfl, h4⟩))
  · have e1 : b >>> 4 = b / 16 := Nat.shiftRight_eq_div_pow b 4
    have e2 : b &&& 0xF = b % 16 := Nat.and_pow_two_sub_one_eq_mod b 4
    rw [e1, e2, hex_getD _ (by omega), hex_getD _ (by omega)]
    have h := unescape_u 0x30 0x30 (hexDigit (b / 16)) (hexDigit (b % 16)) 0 0 (b / 16) (b % 16)
      r (by decide) (by decide) (hexValue_hexDigit _ (by omega)) (hexValue_hexDigit _ (by omega))
    have hc : ((0 * 16 + 0) * 16 + b / 16) * 16 + b % 16 = b := by omega
    rw [hc] at h
    have hu : utf8Encode b = [b] := by
      unfold utf8Encode
      rw [if_pos hb]
    rw [hu] at h
    exact h

theorem unescape_2028 (r : List Nat) :
    unescape ([0x5C, 0x75, 0x32, 0x30, 0x32, hex.getD (0x2028 &&& 0xF) 0] ++ r) =
      (unescape r).map (fun l => [0xE2, 0x80, 0xA8] ++ l) :=
  unescape_u 0x32 0x30 0x32 0x38 2 0 2 8 r (by decide) (by decide) (by decide) (by decide)

theorem unescape_2029 (r : List Nat) :
    unescape ([0x5C, 0x75, 0x32, 0x30, 0x32, hex.getD (0x2029 &&& 0xF) 0] ++ r) =
      (unescape r).map (fun l => [0xE2, 0x80, 0xA9] ++ l) :=
  unescape_u 0x32 0x30 0x32 0x39 2 0 2 9 r (by decide) (by decide) (by decide) (by decide)

theorem unescape_fffd (r : List Nat) :
    unescape (escFFFD ++ r) = (unescape r).map (fun l => [0xEF, 0xBF, 0xBD] ++ l) :=
  unescape_u 0x66 0x66 0x66 0x64 15 15 15 13 r (by decide) (by decide) (by decide) (by decide)

theorem escStep_multi (esc : Bool) (b : Nat) (t : List Nat) (hb : ¬ b < RuneSelf) :
    escStep esc (b :: t) =
      if (DecodeRuneInString (b :: t)).1 = RuneError ∧ (DecodeRuneInString (b :: t)).2 = 1 then
        (escFFFD, 1)
      else if (DecodeRuneInString (b :: t)).1 = 0x2028 ∨
          (DecodeRuneInString (b :: t)).1 = 0x2029 then
        ([0x5C, 0x75, 0x32, 0x30, 0x32, hex.getD ((DecodeRuneInString (b :: t)).1 &&& 0xF) 0],
          (DecodeRuneInString (b :: t)).2)
      else ((b :: t).take (DecodeRuneInString (b :: t)).2, (DecodeRuneInString (b :: t)).2) := by
  have h4 := Decode_take4 (b :: t)
  simp only [escStep, hb, if_false, h4]
  rfl

theorem Decode_raw_bytes (b : Nat) (t : List Nat) (hb : ¬ b < RuneSelf) :
    ∀ x ∈ (b :: t).take (DecodeRuneInString (b :: t)).2, 0x80 ≤ x := by
  unfold RuneSelf at hb
  have hsz := Decode_size (b :: t) (by simp)
  rw [Decode_cons] at hsz ⊢
  by_cases hf : first b ≥ 0xF0
  · simp only [hf, if_true] at hsz ⊢
    intro x hx
    have h1 : (if first b % 2 = 1 then (RuneError, 1) else (b, 1)).2 = 1 := by
      split_ifs <;> rfl
    rw [h1] at hx
    simp only [List.take_succ_cons, List.take_zero, List.mem_singleton] at hx
    omega
  · simp only [hf, if_false] at hsz ⊢
    have hlead := first_lead b (by omega)
    have hc := decodeMulti_conts (first b &&& 7) (acceptRanges (first b >>> 4)).1
      (acceptRanges (first b >>> 4)).2 b t ⟨hlead.2.2.1, hlead.2.2.2⟩ hlead.1 hlead.2.1
    generalize (decodeMulti (first b &&& 7) (acceptRanges (first b >>> 4)).1
      (acceptRanges (first b >>> 4)).2 b t).2 = n at hsz hc ⊢
    intro x hx
    obtain ⟨m, rfl⟩ : ∃ m, n = m + 1 := ⟨n - 1, by omega⟩
    rw [List.take_succ_cons, List.mem_cons] at hx
    rcases hx with rfl | hx
    · omega
    · exact (hc x (by simpa using hx)).1

theorem safe_plain (esc : Bool) (b : Nat)
    (h : (htmlSafeSet b || (!esc && safeSet b)) = true) : 0x20 ≤ b ∧ b ≠ 0x5C ∧ b ≠ 0x22 := by
  have hs : safeSet b = true := by
    rcases Bool.or_eq_true _ _ |>.mp h with h1 | h1
    · unfold htmlSafeSet at h1
      simp only [Bool.and_eq_true] at h1
      exact h1.1.1.1
    · simp only [Bool.and_eq_true] at h1
      exact h1.2
  unfold safeSet at hs
  simp only [Bool.and_eq_true, decide_eq_true_eq, bne_iff_ne, ne_eq] at hs
  exact ⟨hs.1.1.1, hs.2, hs.1.2⟩

theorem unescape_ascii_chunk (esc : Bool) (b : Nat) (r : List Nat) (hb : b < RuneSelf) :
    unescape ((if htmlSafeSet b || (!esc && safeSet b) then [b] else appendEscape [] b) ++ r) =
      (unescape r).map (fun l => b :: l) := by
  split_ifs with h
  · have hp := safe_plain esc b h
    exact unescape_plain b r hp.2.1 hp.2.2
  · exact unescape_appendEscape b r hb

theorem unescape_valid_body (s : List Nat) (esc : Bool) :
    ∀ (fuel i : Nat), s.length - i ≤ fuel → ValidString_loop s fuel i = true →
      unescape (escBody esc (s.drop i).length (s.drop i)) = some (s.drop i) := by
  intro fuel
  induction fuel with
  | zero =>
    intro i hf _
    rw [List.drop_of_length_le (by omega)]
    exact unescape_nil
  | succ fuel ih =>
    intro i hf hv
    by_cases hi : i < s.length
    · have hcons := drop_eq_cons s i hi
      by_cases hsi : s.getD i 0 < RuneSelf
      · have hv2 : ValidString_loop s fuel (i + 1) = true := by
          simpa only [ValidString_loop, hi, if_true, hsi] using hv
        rw [hcons, body_cons_ascii esc _ _ hsi, unescape_ascii_chunk esc _ _ hsi,
          ih (i + 1) (by omega) hv2]
        rfl
      · obtain ⟨size, hs2, hv2, hd, hp28, hp29⟩ := valid_step s fuel i hi hsi hv
        have hne : s.drop i ≠ [] := by rw [hcons]; simp
        have hIH := ih (i + size) (by omega) hv2
        have hnerr : ¬ ((DecodeRuneInString (s.drop i)).1 = RuneError ∧
            (DecodeRuneInString (s.drop i)).2 = 1) := by
          rintro ⟨_, h⟩; omega
        have hE := escStep_multi esc (s.getD i 0) (s.drop (i + 1)) hsi
        rw [← hcons, if_neg hnerr] at hE
        have hraw := Decode_raw_bytes (s.getD i 0) (s.drop (i + 1)) hsi
        rw [← hcons] at hraw
        rw [body_step esc _ hne]
        by_cases hsep : (DecodeRuneInString (s.drop i)).1 = 0x2028 ∨
            (DecodeRuneInString (s.drop i)).1 = 0x2029
        · rw [if_pos hsep] at hE
          rw [hE]
          simp only
          rw [hd, drop_add_eq]
          rcases hsep with h | h
          · obtain ⟨q, hq⟩ := hp28 h
            have h3 := Decode_2028 0xA8 q (Or.inl rfl)
            rw [show (0xE2 :: 0x80 :: 0xA8 :: q) = [0xE2, 0x80, 0xA8] ++ q from rfl, hq] at h3
            have hsz : size = 3 := by rw [← hd, h3]
            subst hsz
            have hq2 : s.drop (i + 3) = q := by
              rw [← drop_add_eq, ← hq]
              rfl
            rw [h, unescape_2028, hIH, hq2, ← hq]
            rfl
          · obtain ⟨q, hq⟩ := hp29 h
            have h3 := Decode_2028 0xA9 q (Or.inr rfl)
            rw [show (0xE2 :: 0x80 :: 0xA9 :: q) = [0xE2, 0x80, 0xA9] ++ q from rfl, hq] at h3
            have hsz : size = 3 := by rw [← hd, h3]
            subst hsz
            have hq2 : s.drop (i + 3) = q := by
              rw [← drop_add_eq, ← hq]
              rfl
            rw [h, unescape_2029, hIH, hq2, ← hq]
            rfl
        · rw [if_neg hsep] at hE
          rw [hE]
          simp only
          rw [hd] at hraw ⊢
          rw [drop_add_eq, unescape_raw _ _ hraw, hIH, ← drop_add_eq]
          simp only [Option.map_some']
          rw [List.take_append_drop]
    · rw [List.drop_of_length_le (by omega)]
      exact unescape_nil

theorem jsonUnquote_quoted (body : List Nat) :
    jsonUnquote (0x22 :: (body ++ [0x22])) = unescape body := by
  simp [jsonUnquote]

/-- C29: round trip of the string encoder. For every valid UTF-8 string `s`
(`utf8.ValidString`) and either mode, decoding the output of `appendString` as a
JSON string literal, that is stripping the quotes and undoing `\\`, `\"`, `\n`,
`\r`, `\t` and `\uXXXX` while keeping every other byte, gives exactly `s`; hence
two valid strings with the same output are equal. -/
theorem appendString_round_trip (s s2 : List Nat) (escapeHTML : Bool)
    (hvalid : ValidString s = true) (hvalid2 : ValidString s2 = true) :
    jsonUnquote (appendString [] s escapeHTML) = some s ∧
    unescape (appendStringBody s escapeHTML) = some s ∧
    (appendString [] s escapeHTML = appendString [] s2 escapeHTML → s = s2) := by
  have key : ∀ x : List Nat, ValidString x = true →
      jsonUnquote (appendString [] x escapeHTML) = some x := by
    intro x hx
    have h := unescape_valid_body x escapeHTML x.length 0 (by omega) hx
    rw [List.drop_zero] at h
    rw [appendString_eq, List.nil_append, jsonUnquote_quoted]
    exact h
  refine ⟨key s hvalid, ?_, ?_⟩
  · have h := unescape_valid_body s escapeHTML s.length 0 (by omega) hvalid
    rw [List.drop_zero] at h
    rw [appendStringBody_eq]
    exact h
  · intro heq
    have h1 := key s hvalid
    have h2 := key s2 hvalid2
    rw [heq, h2] at h1
    exact (Option.some.inj h1).symm

theorem appendString_round_trip_witness :
    jsonUnquote (appendString [] [0x61, 0x22, 0x0A, 0x01, 0x3C, 0xC3, 0xA9, 0xE2, 0x80, 0xA8]
      true) = some [0x61, 0x22, 0x0A, 0x01, 0x3C, 0xC3, 0xA9, 0xE2, 0x80, 0xA8] ∧
    appendString [] [0x61, 0x22, 0x0A, 0x01, 0x3C, 0xC3, 0xA9, 0xE2, 0x80, 0xA8] true =
      str "\"a\\\"\\n\\u0001\\u003c" ++ [0xC3, 0xA9] ++ str "\\u2028\"" :=
  ⟨(appendString_round_trip [0x61, 0x22, 0x0A, 0x01, 0x3C, 0xC3, 0xA9, 0xE2, 0x80, 0xA8] []
    true (by decide) (by decide)).1, by decide⟩

theorem loop_step (s : List Nat) (fuel i : Nat) :
    ValidString_loop s (fuel + 1) i =
      if i < s.length then
        if s.getD i 0 < RuneSelf then ValidString_loop s fuel (i + 1)
        else seqOK (s.getD i 0) (s.drop (i + 1)) &&
          ValidString_loop s fuel (i + (first (s.getD i 0) &&& 7))
      else true := by
  by_cases hi : i < s.length
  · by_cases hsi : s.getD i 0 < RuneSelf
    · simp only [ValidString_loop, hi, if_true, hsi]
    · have e1 := getD_drop_succ s i 0
      have e2 := getD_drop_succ s i 1
      have e3 := getD_drop_succ s i 2
      have hl : (s.drop (i + 1)).length = s.length - (i + 1) := List.length_drop _ _
      simp only [Nat.add_zero] at e1
      rw [show i + 1 + 1 = i + 2 from rfl] at e2
      rw [show i + 1 + 2 = i + 3 from rfl] at e3
      simp only [ValidString_loop, hi, if_true, hsi, if_false, e1, e2, e3, seqOK, hl]
      have hlen : (i + (first (s.getD i 0) &&& 7) > s.length) ↔
          ¬ ((first (s.getD i 0) &&& 7) ≤ s.length - (i + 1) + 1) := by
        omega
      simp only [hlen]
      generalize (s.drop (i + 1)).getD 0 0 = a0
      generalize (s.drop (i + 1)).getD 1 0 = a1
      generalize (s.drop (i + 1)).getD 2 0 = a2
      generalize ValidString_loop s fuel (i + (first (s.getD i 0) &&& 7)) = v
      generalize (acceptRanges (first (s.getD i 0) >>> 4)).1 = lo
      generalize (acceptRanges (first (s.getD i 0) >>> 4)).2 = hi'
      generalize s.length - (i + 1) + 1 = L
      generalize (first (s.getD i 0) &&& 7) = sz
      generalize first (s.getD i 0) = x
      split_ifs <;> simp_all
  · simp only [ValidString_loop, hi, if_false]

theorem seqOK_size (b : Nat) (t : List Nat) (hb : ¬ b < RuneSelf) (h : seqOK b t = true) :
    2 ≤ (first b &&& 7) ∧ (first b &&& 7) ≤ 4 ∧ (first b &&& 7) ≤ t.length + 1 ∧
      first b < 0xF0 := by
  unfold seqOK at h
  simp only [Bool.and_eq_true, decide_eq_true_eq] at h
  have hlt := first_not_xx b hb h.1.1.1
  have hl := first_lead b hlt
  exact ⟨hl.2.2.1, hl.2.2.2, h.1.1.2, hlt⟩

theorem loop_fuel (s : List Nat) :
    ∀ (f g i : Nat), s.length - i ≤ f → s.length - i ≤ g →
      ValidString_loop s f i = ValidString_loop s g i := by
  intro f
  induction f with
  | zero =>
    intro g i hf _
    cases g with
    | zero => rfl
    | succ g =>
      rw [loop_step, if_neg (by omega)]
      rfl
  | succ f ih =>
    intro g i hf hg
    cases g with
    | zero =>
      rw [loop_step, if_neg (by omega)]
      rfl
    | succ g =>
      rw [loop_step, loop_step]
      by_cases hi : i < s.length
      · simp only [hi, if_true]
        by_cases hsi : s.getD i 0 < RuneSelf
        · simp only [hsi, if_true]
          exact ih g (i + 1) (by omega) (by omega)
        · simp only [hsi, if_false]
          cases hok : seqOK (s.getD i 0) (s.drop (i + 1)) with
          | false => rfl
          | true =>
            have hs := seqOK_size _ _ hsi hok
            simp only [Bool.true_and]
            exact ih g _ (by omega) (by omega)
      · simp only [hi, if_false]

theorem getD_append_shift (p q : List Nat) (j : Nat) :
    (p ++ q).getD (p.length + j) 0 = q.getD j 0 := by
  simp [List.getD_eq_getElem?_getD, List.getElem?_append_right]

theorem drop_append_shift (p q : List Nat) (j : Nat) :
    (p ++ q).drop (p.length + j) = q.drop j := by
  rw [List.drop_append_eq_append_drop]
  simp

theorem loop_shift (p q : List Nat) :
    ∀ (fuel j : Nat),
      ValidString_loop (p ++ q) fuel (p.length + j) = ValidString_loop q fuel j := by
  intro fuel
  induction fuel with
  | zero => intro j; rfl
  | succ fuel ih =>
    intro j
    rw [loop_step, loop_step, getD_append_shift, List.length_append]
    have e1 : p.length + j + 1 = p.length + (j + 1) := by omega
    have e2 : ∀ k, p.length + j + k = p.length + (j + k) := fun k => by omega
    rw [e1, drop_append_shift, e2, ih, ih]
    by_cases hj : j < q.length
    · rw [if_pos (by omega), if_pos hj]
    · rw [if_neg (by omega), if_neg hj]

theorem valid_cons_ascii (b : Nat) (q : List Nat) (hb : b < RuneSelf) :
    ValidString (b :: q) = ValidString q := by
  unfold ValidString
  rw [List.length_cons, loop_step]
  simp only [List.length_cons, Nat.zero_lt_succ, if_true, List.getD_cons_zero, hb]
  exact loop_shift [b] q q.length 0

theorem valid_ascii_append (p q : List Nat) (hp : ∀ x ∈ p, x < RuneSelf) :
    ValidString (p ++ q) = ValidString q := by
  induction p with
  | nil => rfl
  | cons x t ih =>
    rw [List.cons_append, valid_cons_ascii _ _ (hp x (List.mem_cons_self _ _)),
      ih (fun y hy => hp y (List.mem_cons_of_mem _ hy))]

theorem getD_take_append (t r : List Nat) (k n : Nat) (hk : k < n) (hn : n ≤ t.length) :
    (t.take n ++ r).getD k 0 = t.getD k 0 := by
  have h1 : k < (t.take n).length := by rw [List.length_take]; omega
  simp [List.getD_eq_getElem?_getD, List.getElem?_append_left h1, List.getElem?_take, hk]

theorem seqOK_local (b : Nat) (t r : List Nat) (hb : ¬ b < RuneSelf) (h : seqOK b t = true) :
    seqOK b (t.take ((first b &&& 7) - 1) ++ r) = true := by
  obtain ⟨h2, h4, hlen, _⟩ := seqOK_size b t hb h
  have hl : (first b &&& 7) ≤ (t.take ((first b &&& 7) - 1) ++ r).length + 1 := by
    rw [List.length_append, List.length_take]
    omega
  have g0 := getD_take_append t r 0 ((first b &&& 7) - 1) (by omega) (by omega)
  unfold seqOK at h ⊢
  rw [g0]
  simp only [hl, decide_True, Bool.and_true]
  simp only [hlen, decide_True, Bool.and_true] at h
  by_cases hs2 : (first b &&& 7) = 2
  · simp only [hs2, decide_True, Bool.true_or, Bool.and_true] at h ⊢
    exact h
  · have g1 := getD_take_append t r 1 ((first b &&& 7) - 1) (by omega) (by omega)
    rw [g1]
    by_cases hs3 : (first b &&& 7) = 3
    · simp only [hs2, hs3, decide_True, decide_False, Bool.true_or, Bool.and_true,
        Bool.false_or] at h ⊢
      exact h
    · have g2 := getD_take_append t r 2 ((first b &&& 7) - 1) (by omega) (by omega)
      rw [g2]
      exact h

theorem valid_seq_append (b : Nat) (t r : List Nat) (hb : ¬ b < RuneSelf)
    (h : seqOK b t = true) :
    ValidString ((b :: t).take (first b &&& 7) ++ r) = ValidString r := by
  obtain ⟨h2, h4, hlen, _⟩ := seqOK_size b t hb h
  have hloc := seqOK_local b t r hb h
  obtain ⟨m, hm⟩ : ∃ m, (first b &&& 7) = m + 1 := ⟨(first b &&& 7) - 1, by omega⟩
  have e : (b :: t).take (first b &&& 7) = b :: t.take ((first b &&& 7) - 1) := by
    rw [hm]
    rfl
  rw [e]
  have hlc : (b :: t.take ((first b &&& 7) - 1)).length = (first b &&& 7) := by
    rw [List.length_cons, List.length_take]
    omega
  unfold ValidString
  have hfl : (b :: t.take ((first b &&& 7) - 1) ++ r).length = (first b &&& 7) + r.length - 1 + 1 := by
    rw [List.length_append, hlc]
    omega
  rw [hfl, loop_step]
  have hpos : 0 < (b :: List.take ((first b &&& 7) - 1) t ++ r).length := by
    rw [List.length_append, hlc]
    omega
  rw [if_pos hpos]
  simp only [List.cons_append, List.getD_cons_zero, hb, if_false, Nat.zero_add,
    List.drop_succ_cons, List.drop_zero, hloc, Bool.true_and]
  have hs := loop_shift (b :: t.take ((first b &&& 7) - 1)) r ((first b &&& 7) + r.length - 1) 0
  rw [hlc, Nat.add_zero] at hs
  rw [← List.cons_append, hs]
  exact loop_fuel r ((first b &&& 7) + r.length - 1) r.length 0 (by omega) (by omega)

theorem decodeMulti_seq (sz lo hi' b : Nat) (t : List Nat) (hsz : sz = 2 ∨ sz = 3 ∨ sz = 4) :
    ((decide (sz ≤ t.length + 1) && !decide (t.getD 0 0 < lo ∨ hi' < t.getD 0 0) &&
        (decide (sz = 2) ||
          (!decide (t.getD 1 0 < 0x80 ∨ 0xBF < t.getD 1 0) &&
            (decide (sz = 3) || !decide (t.getD 2 0 < 0x80 ∨ 0xBF < t.getD 2 0))))) = true →
      (decodeMulti sz lo hi' b t).2 = sz) ∧
    ((decide (sz ≤ t.length + 1) && !decide (t.getD 0 0 < lo ∨ hi' < t.getD 0 0) &&
        (decide (sz = 2) ||
          (!decide (t.getD 1 0 < 0x80 ∨ 0xBF < t.getD 1 0) &&
            (decide (sz = 3) || !decide (t.getD 2 0 < 0x80 ∨ 0xBF < t.getD 2 0))))) = false →
      decodeMulti sz lo hi' b t = (RuneError, 1)) := by
  rcases hsz with rfl | rfl | rfl
  · rcases t with _ | ⟨a1, r⟩
    · simp [decodeMulti]
    · simp only [decodeMulti, List.length_cons, List.getD_cons_zero]
      constructor
      · intro h
        simp only [Bool.and_eq_true, decide_eq_true_eq, Bool.not_eq_true', decide_eq_false_iff_not]
          at h
        rw [if_neg (by omega), if_neg h.1.2]
        rfl
      · intro h
        have h1 : a1 < lo ∨ hi' < a1 := by
          by_contra hc
          simp [hc] at h
        rw [if_neg (by omega), if_pos h1]
  · rcases t with _ | ⟨a1, _ | ⟨a2, r⟩⟩
    · simp [decodeMulti]
    · simp [decodeMulti]
    · simp only [decodeMulti, List.length_cons, List.getD_cons_zero, List.getD_cons_succ]
      constructor
      · intro h
        simp only [Bool.and_eq_true, decide_eq_true_eq, Bool.not_eq_true', decide_eq_false_iff_not,
          Bool.or_eq_true, (by decide : ¬ (3 : Nat) = 2), false_or, or_true, and_true] at h
        rw [if_neg (by omega), if_neg h.1.2, if_neg (by omega), if_neg h.2.1]
        rfl
      · intro h
        by_cases h1 : a1 < lo ∨ hi' < a1
        · rw [if_neg (by omega), if_pos h1]
        · have h2 : a2 < 0x80 ∨ 0xBF < a2 := by
            by_contra hc
            simp [h1, hc] at h
          rw [if_neg (by omega), if_neg h1, if_neg (by omega), if_pos h2]
  · rcases t with _ | ⟨a1, _ | ⟨a2, _ | ⟨a3, r⟩⟩⟩
    · simp [decodeMulti]
    · simp [decodeMulti]
    · simp [decodeMulti]
    · simp only [decodeMulti, List.length_cons, List.getD_cons_zero, List.getD_cons_succ]
      constructor
      · intro h
        simp only [Bool.and_eq_true, decide_eq_true_eq, Bool.not_eq_true', decide_eq_false_iff_not,
          Bool.or_eq_true, (by decide : ¬ (4 : Nat) = 2), (by decide : ¬ (4 : Nat) = 3),
          false_or] at h
        rw [if_neg (by omega), if_neg h.1.2, if_neg (by omega), if_neg h.2.1, if_neg (by omega),
          if_neg h.2.2]
      · intro h
        by_cases h1 : a1 < lo ∨ hi' < a1
        · rw [if_neg (by omega), if_pos h1]
        · by_cases h2 : a2 < 0x80 ∨ 0xBF < a2
          · rw [if_neg (by omega), if_neg h1, if_neg (by omega), if_pos h2]
          · have h3 : a3 < 0x80 ∨ 0xBF < a3 := by
              by_contra hc
              simp [h1, h2, hc] at h
            rw [if_neg (by omega), if_neg h1, if_neg (by omega), if_neg h2, if_neg (by omega),
              if_pos h3]

theorem Decode_seqOK (b : Nat) (t : List Nat) (hb : ¬ b < RuneSelf) :
    (seqOK b t = true → (DecodeRuneInString (b :: t)).2 = (first b &&& 7)) ∧
      (seqOK b t = false → DecodeRuneInString (b :: t) = (RuneError, 1)) := by
  rw [Decode_cons]
  by_cases hx : first b = 0xF1
  · constructor
    · intro h
      simp [seqOK, hx] at h
    · intro _
      simp [hx]
  · have hlt := first_not_xx b hb hx
    have hl := first_lead b hlt
    have hge : ¬ first b ≥ 0xF0 := by omega
    simp only [hge, if_false]
    have hm := decodeMulti_seq (first b &&& 7) (acceptRanges (first b >>> 4)).1
      (acceptRanges (first b >>> 4)).2 b t (by omega)
    unfold seqOK
    simp only [hx, ne_eq, not_false_eq_true, decide_True, Bool.true_and]
    exact hm

theorem escapesOK_plain (b : Nat) (r : List Nat) (h1 : b ≠ 0x5C) (h2 : b ≠ 0x22) :
    escapesOK (b :: r) = escapesOK r := by
  rw [escapesOK.eq_def]
  simp only [h1, h2, if_false]

theorem escapesOK_raw (p r : List Nat) (hp : ∀ x ∈ p, 0x80 ≤ x) :
    escapesOK (p ++ r) = escapesOK r := by
  induction p with
  | nil => rfl
  | cons x t ih =>
    have hx := hp x (List.mem_cons_self _ _)
    rw [List.cons_append, escapesOK_plain x _ (by omega) (by omega),
      ih (fun y hy => hp y (List.mem_cons_of_mem _ hy))]

theorem escapesOK_esc2 (e : Nat) (r : List Nat)
    (he : e = 0x5C ∨ e = 0x22 ∨ e = 0x6E ∨ e = 0x72 ∨ e = 0x74) :
    escapesOK (0x5C :: e :: r) = escapesOK r := by
  rw [escapesOK.eq_def]
  simp only [he, if_true]

theorem escapesOK_u (h1 h2 h3 h4 d1 d2 d3 d4 : Nat) (r : List Nat)
    (e1 : hexValue h1 = some d1) (e2 : hexValue h2 = some d2) (e3 : hexValue h3 = some d3)
    (e4 : hexValue h4 = some d4) :
    escapesOK (0x5C :: 0x75 :: h1 :: h2 :: h3 :: h4 :: r) = escapesOK r := by
  rw [escapesOK.eq_def]
  simp [e1, e2, e3, e4]

theorem hexDigit_range (d : Nat) (hd : d < 16) : 0x30 ≤ hexDigit d ∧ hexDigit d < 0x80 := by
  unfold hexDigit
  split_ifs <;> omega

/-- The chunk that one iteration of the loop of `appendString` writes is either
ASCII without control characters, made of plain bytes and complete escapes, or a
well-formed multi-byte encoding copied from the input. -/
theorem escStep_chunk (esc : Bool) (b : Nat) (t : List Nat) :
    ((∀ x ∈ (escStep esc (b :: t)).1, 0x20 ≤ x ∧ x < RuneSelf) ∧
      (∀ r, escapesOK ((escStep esc (b :: t)).1 ++ r) = escapesOK r) ∧
      ∃ d, ∀ r, unescape ((escStep esc (b :: t)).1 ++ r) = (unescape r).map (fun l => d ++ l)) ∨
    (¬ b < RuneSelf ∧ seqOK b t = true ∧
      (escStep esc (b :: t)).1 = (b :: t).take (first b &&& 7) ∧
      ∀ x ∈ (escStep esc (b :: t)).1, 0x80 ≤ x) := by
  by_cases hb : b < RuneSelf
  · left
    have hb80 : b < 0x80 := hb
    have hE : (escStep esc (b :: t)).1 =
        if htmlSafeSet b || (!esc && safeSet b) then [b] else appendEscape [] b := by
      simp only [escStep, hb, if_true]
      split_ifs <;> rfl
    rw [hE]
    refine ⟨?_, ?_, ⟨[b], fun r => unescape_ascii_chunk esc b r hb⟩⟩
    · split_ifs with hs
      · intro x hx
        rw [List.mem_singleton] at hx
        subst hx
        exact ⟨(safe_plain esc x hs).1, hb⟩
      · intro x hx
        refine ⟨?_, appendEscape_lt b hb80 x hx⟩
        unfold appendEscape at hx
        have e1 : b >>> 4 = b / 16 := Nat.shiftRight_eq_div_pow b 4
        have e2 : b &&& 0xF = b % 16 := Nat.and_pow_two_sub_one_eq_mod b 4
        rw [e1, e2, hex_getD _ (by omega), hex_getD _ (by omega)] at hx
        have r1 := hexDigit_range (b / 16) (by omega)
        have r2 := hexDigit_range (b % 16) (by omega)
        split_ifs at hx with h1 h2 h3 h4 <;>
          simp only [List.nil_append, List.mem_cons, List.mem_singleton, List.not_mem_nil,
            or_false] at hx <;> omega
    · intro r
      split_ifs with hs
      · have hp := safe_plain esc b hs
        exact escapesOK_plain b r hp.2.1 hp.2.2
      · unfold appendEscape
        have e1 : b >>> 4 = b / 16 := Nat.shiftRight_eq_div_pow b 4
        have e2 : b &&& 0xF = b % 16 := Nat.and_pow_two_sub_one_eq_mod b 4
        split_ifs with h1 h2 h3 h4
        · exact escapesOK_esc2 b r (by omega)
        · exact escapesOK_esc2 _ r (by decide)
        · exact escapesOK_esc2 _ r (by decide)
        · exact escapesOK_esc2 _ r (by decide)
        · rw [e1, e2, hex_getD _ (by omega), hex_getD _ (by omega)]
          exact escapesOK_u 0x30 0x30 _ _ 0 0 (b / 16) (b % 16) r (by decide) (by decide)
            (hexValue_hexDigit _ (by omega)) (hexValue_hexDigit _ (by omega))
  · have hE := escStep_multi esc b t hb
    have hD := Decode_seqOK b t hb
    by_cases herr : (DecodeRuneInString (b :: t)).1 = RuneError ∧
        (DecodeRuneInString (b :: t)).2 = 1
    · left
      rw [if_pos herr] at hE
      rw [hE]
      refine ⟨by decide, fun r => ?_, ⟨_, unescape_fffd⟩⟩
      exact escapesOK_u 0x66 0x66 0x66 0x64 15 15 15 13 r (by decide) (by decide) (by decide)
        (by decide)
    · rw [if_neg herr] at hE
      have hok : seqOK b t = true := by
        cases h : seqOK b t with
        | true => rfl
        | false =>
          have := hD.2 h
          rw [this] at herr
          exact absurd ⟨rfl, rfl⟩ herr
      have hsz := hD.1 hok
      by_cases hsep : (DecodeRuneInString (b :: t)).1 = 0x2028 ∨
          (DecodeRuneInString (b :: t)).1 = 0x2029
      · left
        rw [if_pos hsep] at hE
        rw [hE]
        have k8 : ∀ x ∈ [0x5C, 0x75, 0x32, 0x30, 0x32, hex.getD (0x2028 &&& 0xF) 0],
            0x20 ≤ x ∧ x < RuneSelf := by decide
        have k9 : ∀ x ∈ [0x5C, 0x75, 0x32, 0x30, 0x32, hex.getD (0x2029 &&& 0xF) 0],
            0x20 ≤ x ∧ x < RuneSelf := by decide
        rcases hsep with h | h <;> rw [h]
        · exact ⟨k8, fun r => escapesOK_u 0x32 0x30 0x32 0x38 2 0 2 8 r (by decide)
            (by decide) (by decide) (by decide), ⟨_, unescape_2028⟩⟩
        · exact ⟨k9, fun r => escapesOK_u 0x32 0x30 0x32 0x39 2 0 2 9 r (by decide)
            (by decide) (by decide) (by decide), ⟨_, unescape_2029⟩⟩
      · right
        rw [if_neg hsep] at hE
        have hraw := Decode_raw_bytes b t hb
        rw [hE]
        simp only
        rw [hsz] at hraw ⊢
        exact ⟨hb, hok, rfl, hraw⟩

theorem body_ind (esc : Bool) (P : List Nat → Prop) (h0 : P [])
    (hstep : ∀ (b : Nat) (t r : List Nat), P r → P ((escStep esc (b :: t)).1 ++ r)) :
    ∀ (n : Nat) (s : List Nat), s.length ≤ n → P (escBody esc s.length s) := by
  intro n
  induction n with
  | zero =>
    intro s hs
    have : s = [] := List.length_eq_zero.mp (by omega)
    subst this
    rw [escBody_nil]
    exact h0
  | succ n ih =>
    intro s hs
    rcases s with _ | ⟨b, t⟩
    · rw [escBody_nil]
      exact h0
    · rw [body_step esc (b :: t) (by simp)]
      have hsz := escStep_size esc (b :: t) (by simp)
      exact hstep b t _ (ih _ (by
        rw [List.length_drop]
        simp only [List.length_cons] at hs hsz ⊢
        omega))

/-- C30: for every byte string `s`, valid UTF-8 or not, and either mode, the
output of `appendString` is a well-formed JSON string literal: an opening quote,
a body, and a closing quote, where the body is valid UTF-8
(`utf8.ValidString`), holds no byte below 0x20 and no quote that is not escaped,
and every backslash in it begins one of `\\`, `\"`, `\n`, `\r`, `\t` or `\u`
followed by four hexadecimal digits; so the body can be decoded. -/
theorem appendString_well_formed (dst s : List Nat) (escapeHTML : Bool) :
    appendString dst s escapeHTML = dst ++ [0x22] ++ appendStringBody s escapeHTML ++ [0x22] ∧
    ValidString (appendStringBody s escapeHTML) = true ∧
    (∀ x ∈ appendStringBody s escapeHTML, 0x20 ≤ x) ∧
    escapesOK (appendStringBody s escapeHTML) = true ∧
    (∃ d, unescape (appendStringBody s escapeHTML) = some d ∧
      jsonUnquote (appendString [] s escapeHTML) = some d) := by
  rw [appendStringBody_eq]
  have hV : ValidString (escBody escapeHTML s.length s) = true := by
    apply body_ind escapeHTML (fun l => ValidString l = true) rfl _ s.length s (le_refl _)
    intro b t r hr
    rcases escStep_chunk escapeHTML b t with ⟨h1, _, _⟩ | ⟨hb, hok, he, _⟩
    · rw [valid_ascii_append _ _ (fun x hx => (h1 x hx).2)]
      exact hr
    · simp only at hr ⊢
      rw [he, valid_seq_append b t r hb hok]
      exact hr
  have hC : ∀ x ∈ escBody escapeHTML s.length s, 0x20 ≤ x := by
    apply body_ind escapeHTML (fun l => ∀ x ∈ l, 0x20 ≤ x) (by simp) _ s.length s (le_refl _)
    intro b t r hr x hx
    rw [List.mem_append] at hx
    rcases hx with hx | hx
    · rcases escStep_chunk escapeHTML b t with ⟨h1, _, _⟩ | ⟨_, _, _, h4⟩
      · exact (h1 x hx).1
      · have := h4 x hx
        omega
    · exact hr x hx
  have hE : escapesOK (escBody escapeHTML s.length s) = true := by
    apply body_ind escapeHTML (fun l => escapesOK l = true) rfl _ s.length s (le_refl _)
    intro b t r hr
    rcases escStep_chunk escapeHTML b t with ⟨_, h2, _⟩ | ⟨_, _, _, h4⟩
    · simp only at hr ⊢
      rw [h2 r]
      exact hr
    · simp only at hr ⊢
      rw [escapesOK_raw _ _ h4]
      exact hr
  have hU : ∃ d, unescape (escBody escapeHTML s.length s) = some d := by
    apply body_ind escapeHTML (fun l => ∃ d, unescape l = some d) ⟨[], unescape_nil⟩ _
      s.length s (le_refl _)
    intro b t r hr
    obtain ⟨d, hd⟩ := hr
    rcases escStep_chunk escapeHTML b t with ⟨_, _, ⟨c, h3⟩⟩ | ⟨_, _, _, h4⟩
    · exact ⟨c ++ d, by rw [h3 r, hd]; rfl⟩
    · exact ⟨_ ++ d, by rw [unescape_raw _ _ h4, hd]; rfl⟩
  refine ⟨?_, hV, hC, hE, ?_⟩
  · rw [appendString_quotes, appendStringBody_eq]
  · obtain ⟨d, hd⟩ := hU
    refine ⟨d, hd, ?_⟩
    rw [appendString_eq, List.nil_append, jsonUnquote_quoted]
    exact hd

/-! ## HTML escaping: claim C31 -/

theorem htmlSafe_eq (b : Nat) (hb : ¬ isHTMLByte b) :
    (htmlSafeSet b || (!true && safeSet b)) = (htmlSafeSet b || (!false && safeSet b)) := by
  unfold isHTMLByte at hb
  have h1 : (b != 0x3C) = true := by simp; omega
  have h2 : (b != 0x3E) = true := by simp; omega
  have h3 : (b != 0x26) = true := by simp; omega
  simp only [htmlSafeSet, h1, h2, h3, Bool.and_true, Bool.not_true, Bool.false_and,
    Bool.or_false, Bool.not_false, Bool.true_and, Bool.or_self]

theorem escStep_mode (b : Nat) (t : List Nat) (hb : ¬ isHTMLByte b) :
    escStep true (b :: t) = escStep false (b :: t) := by
  simp only [escStep, htmlSafe_eq b hb]

theorem escBody_mode : ∀ (n : Nat) (s : List Nat), (∀ x ∈ s, ¬ isHTMLByte x) →
    escBody true n s = escBody false n s := by
  intro n
  induction n with
  | zero => intro s _; rfl
  | succ n ih =>
    intro s hs
    cases s with
    | nil => rfl
    | cons b t =>
      simp only [escBody]
      rw [escStep_mode b t (hs b (List.mem_cons_self _ _))]
      rw [ih _ (fun x hx => hs x (List.mem_of_mem_drop hx))]

theorem html_escape (b : Nat) (hb : isHTMLByte b) :
    (if htmlSafeSet b || (!true && safeSet b) then [b] else appendEscape [] b) =
      [0x5C, 0x75, 0x30, 0x30, hexDigit (b / 16), hexDigit (b % 16)] ∧
    (if htmlSafeSet b || (!false && safeSet b) then [b] else appendEscape [] b) = [b] := by
  rcases hb with rfl | rfl | rfl <;> exact ⟨rfl, rfl⟩

/-- C31: with `escapeHTML = true`, `appendString` encodes every occurrence of `<`,
`>` and `&` as `\u003c`, `\u003e` and `\u0026` (the bytes before and after the
occurrence are encoded as they are on their own); with `escapeHTML = false` every
occurrence of these three bytes is copied unchanged; and on every input that
contains none of these three bytes the two modes give the same output. -/
theorem appendString_html_mode (dst s p q : List Nat) :
    appendStringBody (p ++ 0x3C :: q) true =
      appendStringBody p true ++ str "\\u003c" ++ appendStringBody q true ∧
    appendStringBody (p ++ 0x3E :: q) true =
      appendStringBody p true ++ str "\\u003e" ++ appendStringBody q true ∧
    appendStringBody (p ++ 0x26 :: q) true =
      appendStringBody p true ++ str "\\u0026" ++ appendStringBody q true ∧
    (∀ b, isHTMLByte b →
      appendStringBody (p ++ b :: q) false =
        appendStringBody p false ++ [b] ++ appendStringBody q false) ∧
    (∀ esc, appendString dst s esc = dst ++ [0x22] ++ appendStringBody s esc ++ [0x22]) ∧
    ((∀ x ∈ s, ¬ isHTMLByte x) → appendString dst s true = appendString dst s false) := by
  refine ⟨?_, ?_, ?_, ?_, fun esc => appendString_quotes dst s esc, ?_⟩
  · rw [appendStringBody_ascii true p q _ (by decide)]; rfl
  · rw [appendStringBody_ascii true p q _ (by decide)]; rfl
  · rw [appendStringBody_ascii true p q _ (by decide)]; rfl
  · intro b hb
    have hlt : b < RuneSelf := by unfold isHTMLByte at hb; unfold RuneSelf; omega
    rw [appendStringBody_ascii false p q b hlt, (html_escape b hb).2]
  · intro hs
    rw [appendString_eq, appendString_eq, escBody_mode _ s hs]

/-- Witness of `appendString_html_mode`: `a<b` encodes as `"a\u003cb"` with HTML
escaping and as `"a<b"` without, and `a"b`, which holds none of the three bytes,
encodes the same in both modes. -/
theorem appendString_html_mode_witness :
    appendString [] (str "a<b") true = str "\"a\\u003cb\"" ∧
    (isHTMLByte 0x3C ∧
      appendStringBody (str "a" ++ 0x3C :: str "b") false =
        appendStringBody (str "a") false ++ [0x3C] ++ appendStringBody (str "b") false) ∧
    ((∀ x ∈ str "a\"b", ¬ isHTMLByte x) ∧
      appendString [] (str "a\"b") true = appendString [] (str "a\"b") false) :=
  ⟨by decide,
    ⟨by decide,
      (appendString_html_mode [] [] (str "a") (str "b")).2.2.2.1 0x3C (by decide)⟩,
    ⟨by decide,
      (appendString_html_mode [] (str "a\"b") [] []).2.2.2.2.2 (by decide)⟩⟩

/-! ## Delegation to a JSON-capable error: claim C32 -/

theorem errorsAs_chain (e : GoError) :
    errorsAsJsonErr e = e.chain.find? GoError.isJsonErr := by
  induction e with
  | plain text => rfl
  | wrap text inner ih =>
    simp only [errorsAsJsonErr, GoError.chain, List.find?, GoError.isJsonErr]
    exact ih
  | jsonOk text content => rfl
  | jsonFail text err _ => rfl

theorem chain_head (e : GoError) : e.chain.head? = some e := by
  cases e <;> rfl

theorem chain_step (e : GoError) :
    e.chain = e :: (match e.Unwrap with | some inner => inner.chain | none => []) := by
  cases e <;> rfl

theorem marshal_delegate (e j : GoError) (h : errorsAsJsonErr e = some j) :
    j.isJsonErr = true ∧ j.MarshalJSON = some (asJsonErrMarshaler_MarshalJSON e) := by
  unfold asJsonErrMarshaler_MarshalJSON
  rw [h]
  have hj : j.isJsonErr = true := by
    rw [errorsAs_chain] at h
    exact List.find?_some h
  cases j with
  | plain text => simp [GoError.isJsonErr] at hj
  | wrap text inner => simp [GoError.isJsonErr] at hj
  | jsonOk text content => exact ⟨rfl, rfl⟩
  | jsonFail text err => exact ⟨rfl, rfl⟩

/-- C32: let `j` be the first error of the unwrap chain of the non-nil error `e`
that also implements JSON marshaling (it is what `errors.As` finds, and it is `e`
itself when `e` is JSON-capable). If `j.MarshalJSON()` returns the bytes `content`
and a nil error, `ErrorContent.EncodeJSON` issues exactly one call on the sink,
`Write(content)`, and returns what it returns. If `j.MarshalJSON()` returns the
error `x`, `EncodeJSON` returns `x` and issues no call on the sink, which is left
as it was. -/
theorem ErrorContent_delegation (e j : GoError)
    (hj : e.chain.find? GoError.isJsonErr = some j) :
    errorsAsJsonErr e = some j ∧
    (e.isJsonErr = true → j = e) ∧
    (∀ content, j.MarshalJSON = some (content, Status.nil) →
      (∀ (σ : Type) (call : σ → BufferCall → σ × Status) (w : σ),
        Content.EncodeJSON_on call (Content.ErrorContent (some e)) w =
          call w (BufferCall.Write content)) ∧
      (∀ buffer : Buffer,
        (Content.ErrorContent (some e)).EncodeJSON buffer = buffer.Write content) ∧
      (Content.ErrorContent (some e)).output = content) ∧
    (∀ content x, j.MarshalJSON = some (content, Status.err x) →
      (∀ (σ : Type) (call : σ → BufferCall → σ × Status) (w : σ),
        Content.EncodeJSON_on call (Content.ErrorContent (some e)) w = (w, Status.err x)) ∧
      (∀ buffer : Buffer,
        (Content.ErrorContent (some e)).EncodeJSON buffer = (buffer, Status.err x))) := by
  have ha : errorsAsJsonErr e = some j := by rw [errorsAs_chain]; exact hj
  have hm := (marshal_delegate e j ha).2
  refine ⟨ha, ?_, ?_, ?_⟩
  · intro he
    rw [chain_step, List.find?, he] at hj
    exact (Option.some.inj hj).symm
  · intro content hc
    rw [hm] at hc
    have hc2 := Option.some.inj hc
    refine ⟨?_, ?_, ?_⟩
    · intro σ call w
      simp only [Content.EncodeJSON_on, ErrorContent_EncodeJSON_on, hc2]
    · intro buffer
      simp only [Content.EncodeJSON, ErrorContent_EncodeJSON, hc2]
    · simp only [Content.output, Content.EncodeJSON, ErrorContent_EncodeJSON, hc2]
      rfl
  · intro content x hc
    rw [hm] at hc
    have hc2 := Option.some.inj hc
    refine ⟨?_, ?_⟩
    · intro σ call w
      simp only [Content.EncodeJSON_on, ErrorContent_EncodeJSON_on, hc2]
    · intro buffer
      simp only [Content.EncodeJSON, ErrorContent_EncodeJSON, hc2]

/-- Witness of `ErrorContent_delegation`: an error that wraps a JSON-capable error
whose `MarshalJSON` returns `[1]` encodes as `[1]`, and an error that wraps one
whose `MarshalJSON` fails writes nothing. -/
theorem ErrorContent_delegation_witness :
    ((GoError.wrap (str "w") (GoError.jsonOk (str "e") (str "[1]"))).chain.find?
        GoError.isJsonErr = some (GoError.jsonOk (str "e") (str "[1]")) ∧
      (GoError.jsonOk (str "e") (str "[1]")).MarshalJSON = some (str "[1]", Status.nil) ∧
      (Content.ErrorContent (some (GoError.wrap (str "w")
        (GoError.jsonOk (str "e") (str "[1]"))))).EncodeJSON bytesBuffer =
          bytesBuffer.Write (str "[1]")) ∧
    (Content.ErrorContent (some (GoError.wrap (str "w")
      (GoError.jsonFail (str "e") (GoError.plain (str "x")))))).EncodeJSON bytesBuffer =
        (bytesBuffer, Status.err (GoError.plain (str "x"))) :=
  ⟨⟨by decide, by decide,
      ((ErrorContent_delegation (GoError.wrap (str "w") (GoError.jsonOk (str "e") (str "[1]")))
        (GoError.jsonOk (str "e") (str "[1]")) (by decide)).2.2.1 (str "[1]")
          (by decide)).2.1 bytesBuffer⟩,
    ((ErrorContent_delegation (GoError.wrap (str "w")
        (GoError.jsonFail (str "e") (GoError.plain (str "x"))))
      (GoError.jsonFail (str "e") (GoError.plain (str "x"))) (by decide)).2.2.2 []
        (GoError.plain (str "x")) (by decide)).2 bytesBuffer⟩

/-! ## Independence of the insertion order: claim C33 -/

theorem dedupFirst_nodup_eq (l : List Field) : ∀ seen : List (List Nat),
    (l.map Field.Key).Nodup → (∀ x ∈ l, x.Key ∉ seen) → dedupFirst l seen = l := by
  induction l with
  | nil => intro seen _ _; rfl
  | cons y rest ih =>
    intro seen hn hs
    rw [List.map_cons, List.nodup_cons] at hn
    simp only [dedupFirst, hs y (List.mem_cons_self _ _), if_false]
    rw [ih _ hn.2]
    intro x hx hm
    rcases List.mem_cons.mp hm with h | h
    · exact hn.1 (h ▸ List.mem_map_of_mem _ hx)
    · exact hs x (List.mem_cons_of_mem _ hx) h

theorem Unique_perm_self (f : Fields) (hn : (f.map Field.Key).Nodup) :
    List.Perm (Fields.Unique f) f := by
  have h := Unique_perm f
  rw [dedupFirst_nodup_eq f [] hn (by simp)] at h
  exact h

theorem Unique_strict_fields (f : Fields) :
    List.Pairwise (fun a b : Field => stringsCompare a.Key b.Key < 0) (Fields.Unique f) := by
  have h := Unique_strict f
  rw [List.pairwise_map] at h
  exact h

theorem Unique_of_perm (f g : Fields) (hn : (f.map Field.Key).Nodup) (hp : List.Perm f g) :
    Fields.Unique f = Fields.Unique g := by
  have hg : (g.map Field.Key).Nodup := (hp.map Field.Key).nodup_iff.1 hn
  have hperm : List.Perm (Fields.Unique f) (Fields.Unique g) :=
    ((Unique_perm_self f hn).trans hp).trans (Unique_perm_self g hg).symm
  have hanti : IsAntisymm Field (fun a b : Field => stringsCompare a.Key b.Key < 0) :=
    ⟨fun a b h1 h2 => absurd h2 (stringsCompare_asymm _ _ h1)⟩
  exact @List.eq_of_perm_of_sorted _ _ hanti _ _ hperm (Unique_strict_fields f)
    (Unique_strict_fields g)

/-- C33: for every Fields value `f` whose keys are pairwise distinct and every
permutation `g` of `f`, `f.Unique()` equals `g.Unique()`, and `EncodeJSON` of `f`
and of `g` do the same on every sink: the same method calls on any implementation
of `Buffer`, the same bytes and the same returned error; `MarshalJSON` returns the
same for both. -/
theorem EncodeJSON_insertion_order (f g : Fields) (hn : (f.map Field.Key).Nodup)
    (hp : List.Perm f g) :
    Fields.Unique f = Fields.Unique g ∧
    (∀ buf : Buffer, Fields.EncodeJSON f buf = Fields.EncodeJSON g buf) ∧
    (∀ (σ : Type) (call : σ → BufferCall → σ × Status) (w : σ),
      Fields.EncodeJSON_on call f w = Fields.EncodeJSON_on call g w) ∧
    Fields.calls f = Fields.calls g ∧
    Fields.MarshalJSON f = Fields.MarshalJSON g := by
  have h := Unique_of_perm f g hn hp
  refine ⟨h, ?_, ?_, ?_, ?_⟩
  · intro buf
    simp only [Fields.EncodeJSON, h]
  · intro σ call w
    simp only [Fields.EncodeJSON_on, h]
  · simp only [Fields.calls, h]
  · simp only [Fields.MarshalJSON, Fields.EncodeJSON, h]

/-- Witness of `EncodeJSON_insertion_order`: the fields `b: 1` and `a: true` in
both orders encode as `{"a":true,"b":1}`. -/
theorem EncodeJSON_insertion_order_witness :
    ([New.Int64 (str "b") 1, New.Bool (str "a") true].map Field.Key).Nodup ∧
    List.Perm [New.Int64 (str "b") 1, New.Bool (str "a") true]
      [New.Bool (str "a") true, New.Int64 (str "b") 1] ∧
    Fields.MarshalJSON [New.Int64 (str "b") 1, New.Bool (str "a") true] =
      Fields.MarshalJSON [New.Bool (str "a") true, New.Int64 (str "b") 1] ∧
    Fields.MarshalJSON [New.Int64 (str "b") 1, New.Bool (str "a") true] =
      (str "\x7b\"a\":true,\"b\":1\x7d", Status.nil) :=
  ⟨by decide, List.Perm.swap _ _ _,
    (EncodeJSON_insertion_order [New.Int64 (str "b") 1, New.Bool (str "a") true]
      [New.Bool (str "a") true, New.Int64 (str "b") 1] (by decide)
      (List.Perm.swap _ _ _)).2.2.2.2,
    by decide⟩

/-! ## Lookup by key: `Has` and `Get` -/

theorem Has_eq_Get (f : Fields) (k : List Nat) : Fields.Has f k = (Fields.Get f k).2 := by
  induction f with
  | nil => rfl
  | cons x rest ih =>
    simp only [Fields.Has, Fields.Get]
    split_ifs
    · rfl
    · exact ih

theorem Get_ok_iff (f : Fields) (k : List Nat) :
    (Fields.Get f k).2 = true ↔ ∃ x ∈ f, x.Key = k := by
  induction f with
  | nil => simp [Fields.Get]
  | cons x rest ih =>
    simp only [Fields.Get]
    split_ifs with h
    · simp [h]
    · rw [ih]
      simp [h]

theorem Get_find (f : Fields) (k : List Nat) :
    ((Fields.Get f k).2 = true → f.find? (fun y => decide (y.Key = k)) = some (Fields.Get f k).1) ∧
    ((Fields.Get f k).2 = false →
      f.find? (fun y => decide (y.Key = k)) = none ∧ (Fields.Get f k).1 = ⟨[], none⟩) := by
  induction f with
  | nil => simp [Fields.Get]
  | cons x rest ih =>
    simp only [Fields.Get]
    split_ifs with h
    · simp [h]
    · simp only [List.find?, h, decide_False]
      exact ih

theorem Get_split (f : Fields) (k : List Nat) (h : (Fields.Get f k).2 = true) :
    ∃ pre post, f = pre ++ (Fields.Get f k).1 :: post ∧ (∀ y ∈ pre, y.Key ≠ k) ∧
      (Fields.Get f k).1.Key = k := by
  induction f with
  | nil => simp [Fields.Get] at h
  | cons x rest ih =>
    simp only [Fields.Get] at h ⊢
    split_ifs at h ⊢ with hx
    · exact ⟨[], rest, rfl, by simp, hx⟩
    · obtain ⟨pre, post, h1, h2, h3⟩ := ih h
      refine ⟨x :: pre, post, ?_, ?_, h3⟩
      · rw [List.cons_append, ← h1]
      · intro y hy
        rcases List.mem_cons.mp hy with rfl | hy
        · exact hx
        · exact h2 y hy

theorem Unique_retains (f : Fields) (x : Field)
    (hx : f.find? (fun y => decide (y.Key = x.Key)) = some x) :
    x ∈ Fields.Unique f ∧ ∀ y ∈ Fields.Unique f, y.Key = x.Key → y = x := by
  have hu : ∀ y ∈ Fields.Unique f, y.Key = x.Key → y = x := by
    intro y hy hk
    have h := (dedupFirst_first f [] y ((Unique_perm f).mem_iff.1 hy)).2
    rw [hk, hx] at h
    exact (Option.some.inj h).symm
  refine ⟨?_, hu⟩
  have hm : x.Key ∈ (Fields.Unique f).map Field.Key :=
    (Unique_keys_mem f x.Key).2 (List.mem_map_of_mem _ (List.mem_of_find?_eq_some hx))
  obtain ⟨y, hy, hk⟩ := List.mem_map.1 hm
  rw [← hu y hy hk]
  exact hy

/-- C35: for every Fields value `f` and key `k`, `f.Has(k)` is true iff `f.Get(k)`
returns `ok = true` iff some field of `f` has key `k` iff `k` is a key of
`f.Unique()`. When `ok`, `Get` returns the first field of `f` with key `k` (no
field before it has that key), and that field is the one and only field of
`f.Unique()` with key `k`. When not `ok`, `Get` returns the zero Field, with the
empty key and a nil `Content`. -/
theorem Get_first_occurrence (f : Fields) (k : List Nat) :
    (Fields.Has f k = true ↔ (Fields.Get f k).2 = true) ∧
    ((Fields.Get f k).2 = true ↔ ∃ x ∈ f, x.Key = k) ∧
    ((∃ x ∈ f, x.Key = k) ↔ k ∈ (Fields.Unique f).map Field.Key) ∧
    ((Fields.Get f k).2 = true →
      (∃ pre post, f = pre ++ (Fields.Get f k).1 :: post ∧ (∀ y ∈ pre, y.Key ≠ k) ∧
        (Fields.Get f k).1.Key = k) ∧
      (Fields.Get f k).1 ∈ Fields.Unique f ∧
      ∀ y ∈ Fields.Unique f, y.Key = k → y = (Fields.Get f k).1) ∧
    ((Fields.Get f k).2 = false → (Fields.Get f k).1 = ⟨[], none⟩) := by
  refine ⟨by rw [Has_eq_Get], Get_ok_iff f k, ?_, ?_, fun h => ((Get_find f k).2 h).2⟩
  · rw [Unique_keys_mem]
    simp
  · intro h
    obtain ⟨pre, post, h1, h2, h3⟩ := Get_split f k h
    have hf : f.find? (fun y => decide (y.Key = (Fields.Get f k).1.Key)) =
        some (Fields.Get f k).1 := by
      rw [h3]
      exact (Get_find f k).1 h
    have hr := Unique_retains f _ hf
    rw [h3] at hr
    exact ⟨⟨pre, post, h1, h2, h3⟩, hr⟩

/-- Witness of `Get_first_occurrence`: the key `k` carried by `true` and then by
`false` is found with the first of the two fields; the key `z` is not found. -/
theorem Get_first_occurrence_witness :
    (Fields.Get [New.Bool (str "k") true, New.Bool (str "k") false] (str "k")).2 = true ∧
    (Fields.Get [New.Bool (str "k") true, New.Bool (str "k") false] (str "k")).1 ∈
      Fields.Unique [New.Bool (str "k") true, New.Bool (str "k") false] ∧
    (Fields.Get [New.Bool (str "k") true, New.Bool (str "k") false] (str "z")).2 = false ∧
    (Fields.Get [New.Bool (str "k") true, New.Bool (str "k") false] (str "z")).1 = ⟨[], none⟩ :=
  ⟨by decide,
    ((Get_first_occurrence [New.Bool (str "k") true, New.Bool (str "k") false]
      (str "k")).2.2.2.1 (by decide)).2.1,
    by decide,
    (Get_first_occurrence [New.Bool (str "k") true, New.Bool (str "k") false]
      (str "z")).2.2.2.2 (by decide)⟩

/-! ## Export into a map: claim C34 -/

theorem lookup_assign (m : GoMap) (k k2 : List Nat) (v : DataValue) :
    GoMap.lookup (GoMap.assign m k v) k2 = if k = k2 then some v else GoMap.lookup m k2 := by
  induction m with
  | nil => simp [GoMap.assign, GoMap.lookup]
  | cons p rest ih =>
    obtain ⟨a, b⟩ := p
    simp only [GoMap.assign]
    by_cases h : a = k
    · subst h
      simp only [if_true, GoMap.lookup]
      split_ifs <;> rfl
    · simp only [h, if_false, GoMap.lookup, ih]
      by_cases h2 : a = k2
      · subst h2
        have : ¬ k = a := fun e => h e.symm
        simp [this]
      · simp [h2]

theorem keys_assign (m : GoMap) (k : List Nat) (v : DataValue) :
    GoMap.keys (GoMap.assign m k v) =
      if k ∈ GoMap.keys m then GoMap.keys m else GoMap.keys m ++ [k] := by
  induction m with
  | nil => simp [GoMap.assign, GoMap.keys]
  | cons p rest ih =>
    obtain ⟨a, b⟩ := p
    unfold GoMap.keys at ih ⊢
    simp only [GoMap.assign]
    by_cases h : a = k
    · subst h
      simp
    · have h2 : ¬ k = a := fun e => h e.symm
      simp only [h, if_false, List.map_cons, ih, List.mem_cons, h2, false_or]
      split_ifs <;> simp

theorem keys_assign_mem (m : GoMap) (k k2 : List Nat) (v : DataValue) :
    k2 ∈ GoMap.keys (GoMap.assign m k v) ↔ k2 ∈ GoMap.keys m ∨ k2 = k := by
  rw [keys_assign]
  split_ifs with h
  · constructor
    · exact Or.inl
    · rintro (h1 | rfl)
      · exact h1
      · exact h
  · simp

theorem keys_assign_nodup (m : GoMap) (k : List Nat) (v : DataValue)
    (hn : (GoMap.keys m).Nodup) : (GoMap.keys (GoMap.assign m k v)).Nodup := by
  rw [keys_assign]
  split_ifs with h
  · exact hn
  · exact List.Nodup.append hn (List.nodup_singleton k) (by simpa using h)

theorem Export_loop_spec (f : List Field) : ∀ m : GoMap, (∀ x ∈ f, x.Content ≠ none) →
    ∃ m2, Export_loop f m = some m2 ∧
      ((GoMap.keys m).Nodup → (GoMap.keys m2).Nodup) ∧
      (∀ k, k ∈ GoMap.keys m2 ↔ k ∈ GoMap.keys m ∨ k ∈ f.map Field.Key) ∧
      (∀ k, GoMap.lookup m2 k =
        match lastWithKey f k with
        | some y => y.Data
        | none => GoMap.lookup m k) := by
  induction f with
  | nil =>
    intro m _
    exact ⟨m, rfl, id, by simp, fun k => rfl⟩
  | cons x rest ih =>
    intro m hc
    have hx := hc x (List.mem_cons_self _ _)
    obtain ⟨c, hxc⟩ := Option.ne_none_iff_exists.mp hx
    have hd : x.Data = some c.Data := by
      unfold Field.Data
      rw [← hxc]
    obtain ⟨m2, h1, h2, h3, h4⟩ :=
      ih (GoMap.assign m x.Key c.Data) (fun y hy => hc y (List.mem_cons_of_mem _ hy))
    refine ⟨m2, ?_, ?_, ?_, ?_⟩
    · simp only [Export_loop, hd]
      exact h1
    · intro hn
      exact h2 (keys_assign_nodup m _ _ hn)
    · intro k
      rw [h3, keys_assign_mem, List.map_cons, List.mem_cons]
      tauto
    · intro k
      rw [h4]
      simp only [lastWithKey]
      cases lastWithKey rest k with
      | some y => rfl
      | none =>
        simp only [lookup_assign]
        split_ifs
        · exact hd.symm
        · rfl

theorem lastWithKey_none (f : List Field) (k : List Nat) (h : lastWithKey f k = none) :
    k ∉ f.map Field.Key := by
  induction f with
  | nil => simp
  | cons x rest ih =>
    simp only [lastWithKey] at h
    cases hl : lastWithKey rest k with
    | some y => rw [hl] at h; simp at h
    | none =>
      rw [hl] at h
      simp only at h
      split_ifs at h with hx
      rw [List.map_cons, List.mem_cons]
      rintro (e | e)
      · exact hx e.symm
      · exact ih hl e

theorem lastWithKey_split (f : List Field) (k : List Nat) (y : Field)
    (h : lastWithKey f k = some y) :
    ∃ pre post, f = pre ++ y :: post ∧ y.Key = k ∧ ∀ z ∈ post, z.Key ≠ k := by
  induction f with
  | nil => simp [lastWithKey] at h
  | cons x rest ih =>
    simp only [lastWithKey] at h
    cases hl : lastWithKey rest k with
    | some w =>
      rw [hl] at h
      simp only [Option.some.injEq] at h
      subst h
      obtain ⟨pre, post, h1, h2, h3⟩ := ih hl
      exact ⟨x :: pre, post, by rw [h1]; rfl, h2, h3⟩
    | none =>
      rw [hl] at h
      simp only at h
      split_ifs at h with hx
      simp only [Option.some.injEq] at h
      subst h
      refine ⟨[], rest, rfl, hx, ?_⟩
      intro z hz e
      exact lastWithKey_none rest k hl (e ▸ List.mem_map_of_mem _ hz)

theorem lastWithKey_append (pre post : List Field) (y : Field) (k : List Nat) (hy : y.Key = k)
    (hp : ∀ z ∈ post, z.Key ≠ k) : lastWithKey (pre ++ y :: post) k = some y := by
  have hpost : lastWithKey post k = none := by
    cases hl : lastWithKey post k with
    | none => rfl
    | some w =>
      obtain ⟨a, b, h1, h2, _⟩ := lastWithKey_split post k w hl
      exact absurd h2 (hp w (by rw [h1]; simp))
  induction pre with
  | nil => simp [lastWithKey, hpost, hy]
  | cons x rest ih => simp [lastWithKey, ih]

theorem Get_append (pre post : List Field) (x : Field) (k : List Nat) (hx : x.Key = k)
    (hp : ∀ z ∈ pre, z.Key ≠ k) : Fields.Get (pre ++ x :: post) k = (x, true) := by
  induction pre with
  | nil => simp [Fields.Get, hx]
  | cons a rest ih =>
    have ha : a.Key ≠ k := hp a (List.mem_cons_self _ _)
    simp only [List.cons_append, Fields.Get, ha, if_false]
    exact ih (fun z hz => hp z (List.mem_cons_of_mem _ hz))

/-- C34: for every Fields value `f` all of whose fields have a non-nil `Content`,
`f.Export()` returns a map whose keys are exactly the keys of `f`, each once (they
are the keys of `f.Unique()`), and whose value at a key `k` is the `Data()` of the
last field of `f` with key `k`: no field after it has that key. So for a key that
two fields carry, `Export` reports the later field, whereas `Get` returns the first
one, which is also the one `Unique` retains. -/
theorem Export_last_occurrence (f : Fields) (hc : ∀ x ∈ f, x.Content ≠ none) :
    ∃ m, Fields.Export f = some m ∧
      (GoMap.keys m).Nodup ∧
      (∀ k, k ∈ GoMap.keys m ↔ k ∈ f.map Field.Key) ∧
      List.Perm (GoMap.keys m) ((Fields.Unique f).map Field.Key) ∧
      (∀ k ∈ f.map Field.Key, ∃ pre y post, f = pre ++ y :: post ∧ y.Key = k ∧
        (∀ z ∈ post, z.Key ≠ k) ∧ GoMap.lookup m k = y.Data) ∧
      (∀ k, k ∉ f.map Field.Key → GoMap.lookup m k = none) ∧
      (∀ pre x mid y post, f = pre ++ x :: (mid ++ y :: post) → x.Key = y.Key →
        (∀ z ∈ pre, z.Key ≠ x.Key) → (∀ z ∈ post, z.Key ≠ x.Key) →
        GoMap.lookup m x.Key = y.Data ∧ Fields.Get f x.Key = (x, true) ∧
          x ∈ Fields.Unique f) := by
  obtain ⟨m, h1, h2, h3, h4⟩ := Export_loop_spec f [] hc
  have hn : (GoMap.keys m).Nodup := h2 (by simp [GoMap.keys])
  have hk : ∀ k, k ∈ GoMap.keys m ↔ k ∈ f.map Field.Key := by
    intro k
    rw [h3]
    simp [GoMap.keys]
  refine ⟨m, h1, hn, hk, ?_, ?_, ?_, ?_⟩
  · rw [List.perm_ext_iff_of_nodup hn (Unique_keys_nodup f)]
    intro k
    rw [hk, Unique_keys_mem]
  · intro k hkf
    cases hl : lastWithKey f k with
    | none => exact absurd hkf (lastWithKey_none f k hl)
    | some y =>
      obtain ⟨pre, post, e1, e2, e3⟩ := lastWithKey_split f k y hl
      refine ⟨pre, y, post, e1, e2, e3, ?_⟩
      rw [h4, hl]
  · intro k hkf
    cases hl : lastWithKey f k with
    | none =>
      rw [h4, hl]
      rfl
    | some y =>
      obtain ⟨pre, post, e1, e2, _⟩ := lastWithKey_split f k y hl
      exact absurd (e2 ▸ List.mem_map_of_mem Field.Key (by rw [e1]; simp : y ∈ f)) hkf
  · intro pre x mid y post hf hxy hpre hpost
    have hl : lastWithKey f x.Key = some y := by
      have e : f = (pre ++ x :: mid) ++ y :: post := by rw [hf]; simp
      rw [e]
      exact lastWithKey_append _ post y x.Key hxy.symm hpost
    have hg : Fields.Get f x.Key = (x, true) := by
      rw [hf]
      exact Get_append pre _ x x.Key rfl hpre
    refine ⟨by rw [h4, hl], hg, ?_⟩
    have hfind := (Get_find f x.Key).1 (by rw [hg])
    rw [hg] at hfind
    exact (Unique_retains f x hfind).1

/-- Witness of `Export_last_occurrence`: for the key `k` carried by `true` and
then by `false`, `Export` gives the one entry `k: false`, while `Get` and `Unique`
give the field `k: true`. -/
theorem Export_last_occurrence_witness :
    (∀ x ∈ [New.Bool (str "k") true, New.Bool (str "k") false], x.Content ≠ none) ∧
    (∃ m, Fields.Export [New.Bool (str "k") true, New.Bool (str "k") false] = some m ∧
      (∀ k, k ∈ GoMap.keys m ↔
        k ∈ [New.Bool (str "k") true, New.Bool (str "k") false].map Field.Key)) ∧
    Fields.Export [New.Bool (str "k") true, New.Bool (str "k") false] =
      some [(str "k", DataValue.bool false)] ∧
    Fields.Get [New.Bool (str "k") true, New.Bool (str "k") false] (str "k") =
      (New.Bool (str "k") true, true) ∧
    Fields.Unique [New.Bool (str "k") true, New.Bool (str "k") false] =
      [New.Bool (str "k") true] :=
  ⟨by simp [New.Bool],
    (Export_last_occurrence [New.Bool (str "k") true, New.Bool (str "k") false]
      (by simp [New.Bool])).imp (fun m h => ⟨h.1, h.2.2.1⟩),
    rfl, rfl, rfl⟩

end GoField
